import Mathlib

/-!
Verification of the block codec core of an adaptive DCT image compressor.

The development shallowly embeds the C sources (`dct.c`, `quantization.c`,
`entropy.c`) in Lean: pure loops become structurally recursive functions
(with explicit fuel where the C loop bound is dynamic), `int **` blocks
become lists of lists or functions, `double` arithmetic becomes real
arithmetic, and the `unsigned` frequency arithmetic of the Huffman coder is
taken modulo 2^32 exactly as the machine does.
-/

namespace DCT

/-! ### Generic list helpers (C array writes) -/

/-- Write `v` at index `i` of a list, leaving the list unchanged when the
index is out of range (C code never writes out of range in the modelled
paths). -/
def lset {α : Type} : List α → Nat → α → List α
  | [], _, _ => []
  | _ :: xs, 0, v => v :: xs
  | x :: xs, Nat.succ i, v => x :: lset xs i v

/-- Read index `i` with an explicit default (C array read). -/
def lget {α : Type} (d : α) (l : List α) (i : Nat) : α := l.getD i d

theorem lset_length {α : Type} (l : List α) (i : Nat) (v : α) :
    (lset l i v).length = l.length := by
  induction l generalizing i with
  | nil => rfl
  | cons x xs ih =>
    cases i with
    | zero => rfl
    | succ j => simpa [lset] using ih j

/-! ## Zigzag scanning (`entropy.c`)

`zigzag_pattern_4x4` and `zigzag_pattern_8x8` are the hardcoded tables;
`generate_zigzag_pattern` returns them for sizes 4 and 8 and otherwise runs
the general diagonal walk. -/

def zigzag_pattern_4x4 : List Nat :=
  [0, 1, 5, 6,
   2, 4, 7, 12,
   3, 8, 11, 13,
   9, 10, 14, 15]

def zigzag_pattern_8x8 : List Nat :=
  [0, 1, 5, 6, 14, 15, 27, 28,
   2, 4, 7, 13, 16, 26, 29, 42,
   3, 8, 12, 17, 25, 30, 41, 43,
   9, 11, 18, 24, 31, 40, 44, 53,
   10, 19, 23, 32, 39, 45, 52, 54,
   20, 22, 33, 38, 46, 51, 55, 60,
   21, 34, 37, 47, 50, 56, 59, 61,
   35, 36, 48, 49, 57, 58, 62, 63]

/-- One move of the diagonal walk of `generate_zigzag_pattern`
(row, col, going_up). -/
def zigzagStep (n row col : Nat) (goingUp : Bool) : Nat × Nat × Bool :=
  if goingUp then
    if col = n - 1 then (row + 1, col, false)
    else if row = 0 then (row, col + 1, false)
    else (row - 1, col + 1, true)
  else
    if row = n - 1 then (row, col + 1, true)
    else if col = 0 then (row + 1, col, true)
    else (row + 1, col - 1, false)

/-- The `while (index < n)` loop body of `generate_zigzag_pattern`:
`pattern[row * block_size + col] = index++` followed by the move. -/
def zigzagLoop (n : Nat) : Nat → List Nat → Nat → Nat → Bool → Nat → List Nat
  | 0, pat, _, _, _, _ => pat
  | fuel + 1, pat, row, col, goingUp, index =>
    let pat' := lset pat (row * n + col) index
    let m := zigzagStep n row col goingUp
    zigzagLoop n fuel pat' m.1 m.2.1 m.2.2 (index + 1)

/-- The general diagonal-walking generator for arbitrary block sizes
(`generate_zigzag_pattern`, lines after the hardcoded fast paths). -/
def generateZigzagGeneral (n : Nat) : List Nat :=
  zigzagLoop n (n * n) (List.replicate (n * n) 0) 0 0 true 0

/-- `generate_zigzag_pattern`: hardcoded fast paths for 4 and 8, general
walk otherwise. -/
def generate_zigzag_pattern (n : Nat) : List Nat :=
  if n = 4 then zigzag_pattern_4x4
  else if n = 8 then zigzag_pattern_8x8
  else generateZigzagGeneral n

/-- Read entry `(r, c)` of an integer block (`block[r][c]`). -/
def blockGet (b : List (List Int)) (r c : Nat) : Int :=
  lget 0 (lget [] b r) c

/-- `zigzag_scan`: `output[i] = block[pattern[i] / n][pattern[i] % n]`. -/
def zigzag_scan (block : List (List Int)) (n : Nat) : List Int :=
  (generate_zigzag_pattern n).map (fun pos => blockGet block (pos / n) (pos % n))

/-- Claim C10: for block sizes 4 and 8 the general diagonal-walking
generator produces exactly the hardcoded zigzag tables, so the precomputed
fast path and the general algorithm agree. -/
theorem generate_zigzag_pattern_general_eq_hardcoded :
    generateZigzagGeneral 4 = zigzag_pattern_4x4 ∧
    generateZigzagGeneral 8 = zigzag_pattern_8x8 := by
  constructor <;> rfl

/-- The 4×4 block whose entries, read row-major, are 0..15. -/
def rowMajorBlock4 : List (List Int) :=
  [[0, 1, 2, 3], [4, 5, 6, 7], [8, 9, 10, 11], [12, 13, 14, 15]]

/-- Claim C5: zigzag scanning the 4×4 block with row-major entries 0..15
yields exactly [0,1,5,6,2,4,7,12,3,8,11,13,9,10,14,15]. -/
theorem zigzag_scan_4x4_concrete :
    zigzag_scan rowMajorBlock4 4 =
      [0, 1, 5, 6, 2, 4, 7, 12, 3, 8, 11, 13, 9, 10, 14, 15] := by
  rfl

/-! ## Run-length coding (`entropy.c`, `run_length_encode`)

A run-length symbol is a (zero-run length, value) pair; the trailing-zero
case is marked by the end-of-block symbol (0, 0). -/

structure RLESymbol where
  run_length : Nat
  value : Int
deriving DecidableEq

/-- `run_length_encode`: walk the sequence accumulating a zero-run counter;
emit `(run, value)` on each non-zero value; emit the EOB symbol `(0, 0)`
when the sequence ends in a positive zero run. -/
def run_length_encode : List Int → Nat → List RLESymbol
  | [], zero_run => if 0 < zero_run then [⟨0, 0⟩] else []
  | x :: xs, zero_run =>
    if x = 0 then run_length_encode xs (zero_run + 1)
    else ⟨zero_run, x⟩ :: run_length_encode xs 0

/-- The decoder's replay of a run-length symbol list into `remaining`
positions (`entropy_decode_block`): each symbol contributes `run_length`
zeros followed by its value, except the EOB symbol (0,0), which fills all
remaining positions with zero; a missing EOB also leaves zeros. -/
def rleReplay : List RLESymbol → Nat → List Int
  | [], remaining => List.replicate remaining 0
  | s :: rest, remaining =>
    if s.run_length = 0 ∧ s.value = 0 then List.replicate remaining 0
    else List.replicate s.run_length 0 ++ s.value ::
      rleReplay rest (remaining - s.run_length - 1)

theorem rleReplay_encode (xs : List Int) :
    ∀ run : Nat, rleReplay (run_length_encode xs run) (run + xs.length) =
      List.replicate run 0 ++ xs := by
  induction xs with
  | nil =>
    intro run
    cases run with
    | zero => simp [run_length_encode, rleReplay]
    | succ r =>
      simp [run_length_encode, rleReplay]
  | cons x xs ih =>
    intro run
    by_cases hx : x = 0
    · subst hx
      have h1 : run + (List.length (0 :: xs)) = (run + 1) + xs.length := by
        simp [List.length_cons]; omega
      rw [run_length_encode, if_pos rfl, h1, ih (run + 1)]
      rw [List.replicate_succ' run (0 : Int)]
      simp
    · rw [run_length_encode, if_neg hx]
      have hcase : ¬ ((⟨run, x⟩ : RLESymbol).run_length = 0 ∧
          (⟨run, x⟩ : RLESymbol).value = 0) := by
        intro h
        exact hx h.2
      rw [rleReplay, if_neg hcase]
      have h2 : run + (List.length (x :: xs)) - run - 1 = xs.length := by
        simp only [List.length_cons]
        omega
      have h3 := ih 0
      simp only [Nat.zero_add, List.replicate, List.nil_append] at h3
      simp [h2, h3]

/-- Claim C2: for every finite integer sequence, run-length encoding
followed by the decoder's replay reproduces the sequence; and the concrete
length-16 input [100,0,0,50,0,0,0,0,25,0,...,0] encodes to exactly the 4
symbols (0,100), (2,50), (4,25), (0,0), the last being the EOB marker. -/
theorem run_length_round_trip :
    (∀ xs : List Int, rleReplay (run_length_encode xs 0) xs.length = xs) ∧
    run_length_encode
        [100, 0, 0, 50, 0, 0, 0, 0, 25, 0, 0, 0, 0, 0, 0, 0] 0 =
      [⟨0, 100⟩, ⟨2, 50⟩, ⟨4, 25⟩, ⟨0, 0⟩] := by
  refine ⟨fun xs => ?_, by rfl⟩
  have h := rleReplay_encode xs 0
  simpa using h

/-! ## Quantization (`quantization.c`)

Matrices are modelled as real-valued functions of the row/column indices;
`double` arithmetic becomes real arithmetic. -/

/-- The standard JPEG luminance quantization table (8×8). -/
def std_jpeg_luma_quant : List (List ℕ) :=
  [[16, 11, 10, 16, 24, 40, 51, 61],
   [12, 12, 14, 19, 26, 58, 60, 55],
   [14, 13, 16, 24, 40, 57, 69, 56],
   [14, 17, 22, 29, 51, 87, 80, 62],
   [18, 22, 37, 56, 68, 109, 103, 77],
   [24, 35, 55, 64, 81, 104, 113, 92],
   [49, 64, 78, 87, 103, 121, 120, 101],
   [72, 92, 95, 98, 112, 100, 103, 99]]

/-- Entry `(i, j)` of the JPEG luminance table as a real number. -/
noncomputable def jpegEntry (i j : ℕ) : ℝ :=
  (lget 0 (lget [] std_jpeg_luma_quant i) j : ℕ)

/-- The two-branch quality-to-scale mapping of `generate_quant_matrix`:
`5000/quality` below 50, `200 - 2*quality` otherwise, then divided
by 100. -/
noncomputable def quantScaleFactor (quality : ℕ) : ℝ :=
  (if quality < 50 then 5000 / (quality : ℝ) else 200 - 2 * (quality : ℝ)) / 100

/-- `generate_quant_matrix`: JPEG table path for block size 8, synthetic
Euclidean-distance path otherwise, each entry clamped first below at 1 and
then above at 255, exactly as the two `if` statements do. -/
noncomputable def generate_quant_matrix (block_size quality : ℕ) : ℕ → ℕ → ℝ :=
  fun i j =>
    let scale_factor := quantScaleFactor quality
    if block_size = 8 then
      let value := jpegEntry i j * scale_factor
      let value1 := if value < 1 then 1 else value
      if value1 > 255 then 255 else value1
    else
      let distance := Real.sqrt ((i : ℝ) * i + (j : ℝ) * j)
      let value := (1 + distance) * scale_factor * 8
      let value1 := if value < 1 then 1 else value
      if value1 > 255 then 255 else value1

/-- `generate_dequant_matrix`: elementwise `1.0 / quant_matrix[i][j]`. -/
noncomputable def generate_dequant_matrix (quant_matrix : ℕ → ℕ → ℝ) : ℕ → ℕ → ℝ :=
  fun i j => 1 / quant_matrix i j

/-- Quantization context (`QuantContext`). -/
structure QuantContext where
  block_size : ℕ
  quality : ℕ
  adaptive : Bool
  quant_matrix : ℕ → ℕ → ℝ
  dequant_matrix : ℕ → ℕ → ℝ

/-- `quant_init`: clamp the quality into [1, 100] and build both
matrices. -/
noncomputable def quant_init (block_size quality : ℕ) (adaptive : Bool) :
    QuantContext :=
  let q := if quality < 1 then 1 else if quality > 100 then 100 else quality
  { block_size := block_size
    quality := q
    adaptive := adaptive
    quant_matrix := generate_quant_matrix block_size q
    dequant_matrix := generate_dequant_matrix (generate_quant_matrix block_size q) }

/-- `adjust_matrix_for_block`: derive the per-block matrix from the base
matrix and the variance; the DC entry is copied unscaled, other entries are
scaled (and, on the quantize path, clamped below at 1). -/
noncomputable def adjust_matrix_for_block (ctx : QuantContext) (variance : ℝ)
    (is_quantize : Bool) : ℕ → ℕ → ℝ :=
  let source := if is_quantize then ctx.quant_matrix else ctx.dequant_matrix
  let norm_variance := min 1 (max (1 / 10) (variance / 1000))
  let scale := if is_quantize then 2 - norm_variance else 1 / (2 - norm_variance)
  fun i j =>
    if i = 0 ∧ j = 0 then source i j
    else
      let v := source i j * scale
      if is_quantize ∧ v < 1 then 1 else v

/-- `quantize`: divide by the (possibly per-block) matrix and round. -/
noncomputable def quantize (ctx : QuantContext) (dct_coeffs : ℕ → ℕ → ℝ)
    (block_variance : ℝ) : ℕ → ℕ → ℤ :=
  let matrix := if ctx.adaptive then adjust_matrix_for_block ctx block_variance true
    else ctx.quant_matrix
  fun i j => round (dct_coeffs i j / matrix i j)

/-- `dequantize`: multiply by the dequant-domain matrix, or by the
reciprocal of the derived matrix in adaptive mode. -/
noncomputable def dequantize (ctx : QuantContext) (quant_coeffs : ℕ → ℕ → ℤ)
    (block_variance : ℝ) : ℕ → ℕ → ℝ :=
  let matrix := if ctx.adaptive then adjust_matrix_for_block ctx block_variance false
    else ctx.dequant_matrix
  fun i j =>
    (quant_coeffs i j : ℝ) * (if ctx.adaptive then 1 / matrix i j else matrix i j)

/-- `calculate_block_variance`: population variance over the block. -/
noncomputable def calculate_block_variance (block : ℕ → ℕ → ℝ) (n : ℕ) : ℝ :=
  let count : ℝ := (n : ℝ) * n
  let sum := ∑ i ∈ Finset.range n, ∑ j ∈ Finset.range n, block i j
  let sum_sq := ∑ i ∈ Finset.range n, ∑ j ∈ Finset.range n, block i j * block i j
  sum_sq / count - (sum / count) * (sum / count)

/-- Sequential clamping (`if (v < 1) v = 1; if (v > 255) v = 255;`) agrees
with the symmetric clamp `max 1 (min 255 v)`. -/
theorem seq_clamp_eq (v : ℝ) :
    (if (if v < 1 then (1 : ℝ) else v) > 255 then (255 : ℝ)
      else if v < 1 then 1 else v) = max 1 (min 255 v) := by
  rcases lt_or_le v 1 with h1 | h1
  · rw [if_pos h1]
    rw [if_neg (by norm_num)]
    rw [max_eq_left]
    have : min 255 v ≤ v := min_le_right _ _
    linarith
  · rw [if_neg (not_lt.mpr h1)]
    rcases le_or_lt v 255 with h2 | h2
    · rw [if_neg (not_lt.mpr h2)]
      rw [min_eq_right h2, max_eq_right h1]
    · rw [if_pos h2]
      rw [min_eq_left h2.le, max_eq_right (by norm_num)]

theorem generate_quant_matrix_eq_clamp (n q i j : ℕ) :
    generate_quant_matrix n q i j =
      if n = 8 then max 1 (min 255 (jpegEntry i j * quantScaleFactor q))
      else max 1 (min 255 ((1 + Real.sqrt ((i : ℝ) * i + (j : ℝ) * j)) *
        quantScaleFactor q * 8)) := by
  unfold generate_quant_matrix
  by_cases h8 : n = 8 <;> simp only [h8, if_true, if_false] <;>
    exact seq_clamp_eq _

theorem generate_quant_matrix_ge_one (n q i j : ℕ) :
    1 ≤ generate_quant_matrix n q i j := by
  rw [generate_quant_matrix_eq_clamp]
  by_cases h8 : n = 8 <;> simp only [h8, if_true, if_false] <;>
    exact le_max_left _ _

theorem generate_quant_matrix_le_255 (n q i j : ℕ) :
    generate_quant_matrix n q i j ≤ 255 := by
  rw [generate_quant_matrix_eq_clamp]
  by_cases h8 : n = 8 <;> simp only [h8, if_true, if_false] <;>
    exact max_le (by norm_num) (min_le_left _ _)

/-- Claim C7: for every block size and quality in [1,100], the quality maps
to `scale = 5000/quality` (quality < 50) or `200 − 2·quality`, divided
by 100; the 8×8 matrix is the JPEG luminance table times this scale clamped
to [1,255]; any other size uses `(1+√(i²+j²))·scale·8` clamped to [1,255];
and every dequantization entry is the exact reciprocal of the corresponding
quantization entry. -/
theorem generate_quant_matrix_spec (n q : ℕ) (hq1 : 1 ≤ q) (hq2 : q ≤ 100)
    (i j : ℕ) :
    (generate_quant_matrix n q i j =
      (if n = 8 then
        max 1 (min 255 (jpegEntry i j *
          ((if q < 50 then 5000 / (q : ℝ) else 200 - 2 * q) / 100)))
      else
        max 1 (min 255 ((1 + Real.sqrt ((i : ℝ) * i + (j : ℝ) * j)) *
          ((if q < 50 then 5000 / (q : ℝ) else 200 - 2 * q) / 100) * 8)))) ∧
    generate_dequant_matrix (generate_quant_matrix n q) i j =
      (generate_quant_matrix n q i j)⁻¹ := by
  constructor
  · rw [generate_quant_matrix_eq_clamp]
    unfold quantScaleFactor
    by_cases h8 : n = 8 <;> simp only [h8, if_true, if_false]
  · unfold generate_dequant_matrix
    rw [one_div]

theorem generate_quant_matrix_spec_witness :
    (1 ≤ 50 ∧ 50 ≤ 100) ∧
    (generate_quant_matrix 8 50 0 0 =
      (if (8 : ℕ) = 8 then
        max 1 (min 255 (jpegEntry 0 0 *
          ((if (50 : ℕ) < 50 then 5000 / ((50 : ℕ) : ℝ)
            else 200 - 2 * ((50 : ℕ) : ℝ)) / 100)))
      else
        max 1 (min 255 ((1 + Real.sqrt (((0 : ℕ) : ℝ) * 0 + ((0 : ℕ) : ℝ) * 0)) *
          ((if (50 : ℕ) < 50 then 5000 / ((50 : ℕ) : ℝ)
            else 200 - 2 * ((50 : ℕ) : ℝ)) / 100) * 8))) ∧
      generate_dequant_matrix (generate_quant_matrix 8 50) 0 0 =
        (generate_quant_matrix 8 50 0 0)⁻¹) :=
  ⟨⟨by norm_num, by norm_num⟩, generate_quant_matrix_spec 8 50 (by norm_num) (by norm_num) 0 0⟩

/-- Claim C8: in adaptive mode, the derived per-block matrix equals the
base matrix scaled by `s = 2 − clamp(variance/1000, 0.1, 1.0)` on the
quantize path and by `1/s` on the dequantize path, for every entry except
the DC term [0][0], which always equals the base entry; the base matrices
of the context are untouched (the embedding is purely functional and
`adjust_matrix_for_block` only builds a fresh matrix from `ctx`). -/
theorem adjust_matrix_for_block_spec (n q : ℕ) (a : Bool) (variance : ℝ)
    (i j : ℕ) :
    (adjust_matrix_for_block (quant_init n q a) variance true i j =
      if i = 0 ∧ j = 0 then (quant_init n q a).quant_matrix i j
      else (quant_init n q a).quant_matrix i j *
        (2 - min 1 (max (1 / 10) (variance / 1000)))) ∧
    (adjust_matrix_for_block (quant_init n q a) variance false i j =
      if i = 0 ∧ j = 0 then (quant_init n q a).dequant_matrix i j
      else (quant_init n q a).dequant_matrix i j *
        (1 / (2 - min 1 (max (1 / 10) (variance / 1000))))) := by
  have hbase : ∀ i' j' : ℕ, 1 ≤ (quant_init n q a).quant_matrix i' j' := by
    intro i' j'
    simp only [quant_init]
    exact generate_quant_matrix_ge_one _ _ i' j'
  have hs : 1 ≤ 2 - min 1 (max (1 / 10) (variance / 1000)) := by
    have : min 1 (max (1 / 10) (variance / 1000)) ≤ 1 := min_le_left _ _
    linarith
  constructor
  · unfold adjust_matrix_for_block
    simp only [if_true]
    by_cases hdc : i = 0 ∧ j = 0
    · simp [hdc]
    · rw [if_neg hdc, if_neg hdc]
      have hprod : 1 ≤ (quant_init n q a).quant_matrix i j *
          (2 - min 1 (max (1 / 10) (variance / 1000))) := by
        have h1 := hbase i j
        calc (1 : ℝ) = 1 * 1 := by ring
        _ ≤ (quant_init n q a).quant_matrix i j *
            (2 - min 1 (max (1 / 10) (variance / 1000))) := by
          apply mul_le_mul h1 hs (by norm_num)
          linarith
      simp only [true_and]
      rw [if_neg (not_lt.mpr hprod)]
  · unfold adjust_matrix_for_block
    by_cases hdc : i = 0 ∧ j = 0
    · simp [hdc]
    · simp only [if_neg hdc, Bool.false_eq_true, false_and, if_false]

/-! ## Discrete cosine transform (`dct.c`)

`dct_init` precomputes the orthonormal DCT-II basis matrix and its
transpose; `dct_forward`/`dct_inverse` are two matrix multiplications
each, written exactly as the C triple loops compute them. -/

open Matrix

/-- The basis matrix of `dct_init`:
`C[i][j] = α(i) · cos(π(2j+1)i / (2N))` with `α(0) = 1/√N`,
`α(i>0) = √(2/N)`. -/
noncomputable def dct_matrix (n : ℕ) : Matrix (Fin n) (Fin n) ℝ :=
  fun i j =>
    (if (i : ℕ) = 0 then 1 / Real.sqrt n else Real.sqrt (2 / n)) *
      Real.cos (Real.pi * (2 * (j : ℕ) + 1) * (i : ℕ) / (2 * n))

/-- `dct_forward`: `temp = input · Cᵗ` then `output = C · temp`. -/
noncomputable def dct_forward (n : ℕ) (input : Matrix (Fin n) (Fin n) ℝ) :
    Matrix (Fin n) (Fin n) ℝ :=
  let temp : Matrix (Fin n) (Fin n) ℝ :=
    fun i j => ∑ k, input i k * (dct_matrix n)ᵀ k j
  fun i j => ∑ k, dct_matrix n i k * temp k j

/-- `dct_inverse`: `temp = Cᵗ · input` then `output = temp · C`. -/
noncomputable def dct_inverse (n : ℕ) (input : Matrix (Fin n) (Fin n) ℝ) :
    Matrix (Fin n) (Fin n) ℝ :=
  let temp : Matrix (Fin n) (Fin n) ℝ :=
    fun i j => ∑ k, (dct_matrix n)ᵀ i k * input k j
  fun i j => ∑ k, temp i k * dct_matrix n k j

theorem dct_forward_eq (n : ℕ) (input : Matrix (Fin n) (Fin n) ℝ) :
    dct_forward n input = dct_matrix n * (input * (dct_matrix n)ᵀ) := by
  funext i j
  simp [dct_forward, Matrix.mul_apply]

theorem dct_inverse_eq (n : ℕ) (input : Matrix (Fin n) (Fin n) ℝ) :
    dct_inverse n input = (dct_matrix n)ᵀ * input * dct_matrix n := by
  funext i j
  simp [dct_inverse, Matrix.mul_apply, Finset.sum_mul]

/-- Telescoping evaluation of `∑_{j<n} cos((2j+1)·(πm/(2n)))` for
`0 < m < 2n`: the sum vanishes. -/
theorem sum_cos_odd_mul (n m : ℕ) (hm : 0 < m) (hm2 : m < 2 * n) :
    ∑ j ∈ Finset.range n,
      Real.cos ((2 * (j : ℝ) + 1) * (Real.pi * m / (2 * n))) = 0 := by
  have hn : 0 < n := by omega
  set θ : ℝ := Real.pi * m / (2 * n) with hθ
  have hθpos : 0 < θ := by
    apply div_pos (mul_pos Real.pi_pos (by exact_mod_cast hm))
    positivity
  have hθlt : θ < Real.pi := by
    rw [hθ, div_lt_iff (by positivity)]
    have hmr : (m : ℝ) < 2 * n := by exact_mod_cast hm2
    nlinarith [Real.pi_pos]
  have hsin : Real.sin θ ≠ 0 :=
    ne_of_gt (Real.sin_pos_of_pos_of_lt_pi hθpos hθlt)
  have key : ∀ j : ℕ,
      Real.sin (2 * ((j : ℝ) + 1) * θ) - Real.sin (2 * (j : ℝ) * θ) =
        2 * Real.sin θ * Real.cos ((2 * (j : ℝ) + 1) * θ) := by
    intro j
    have e1 : 2 * ((j : ℝ) + 1) * θ = (2 * (j : ℝ) + 1) * θ + θ := by ring
    have e2 : 2 * (j : ℝ) * θ = (2 * (j : ℝ) + 1) * θ - θ := by ring
    rw [e1, e2, Real.sin_add, Real.sin_sub]
    ring
  have tele :
      ∑ j ∈ Finset.range n,
        (Real.sin (2 * ((j : ℝ) + 1) * θ) - Real.sin (2 * (j : ℝ) * θ)) =
        Real.sin (2 * (n : ℝ) * θ) - Real.sin (2 * (0 : ℝ) * θ) := by
    have h := Finset.sum_range_sub (fun j : ℕ => Real.sin (2 * (j : ℝ) * θ)) n
    simp only [Nat.cast_add, Nat.cast_one] at h
    simpa using h
  have hend : Real.sin (2 * (n : ℝ) * θ) = 0 := by
    have hangle : 2 * (n : ℝ) * θ = (m : ℝ) * Real.pi := by
      rw [hθ]
      field_simp
      ring
    rw [hangle]
    exact Real.sin_nat_mul_pi m
  have hzero : Real.sin (2 * (0 : ℝ) * θ) = 0 := by
    norm_num
  have hsum2 :
      ∑ j ∈ Finset.range n,
        2 * Real.sin θ * Real.cos ((2 * (j : ℝ) + 1) * θ) = 0 := by
    calc ∑ j ∈ Finset.range n,
          2 * Real.sin θ * Real.cos ((2 * (j : ℝ) + 1) * θ)
        = ∑ j ∈ Finset.range n,
          (Real.sin (2 * ((j : ℝ) + 1) * θ) - Real.sin (2 * (j : ℝ) * θ)) := by
          apply Finset.sum_congr rfl
          intro j _
          rw [key j]
      _ = 0 := by rw [tele, hend, hzero, sub_zero]
  rw [← Finset.mul_sum] at hsum2
  rcases mul_eq_zero.mp hsum2 with h | h
  · exact absurd h (by simp [hsin])
  · exact h

/-- The angle appearing in the DCT matrix, rewritten in the form used by
`sum_cos_odd_mul`. -/
theorem dct_angle_eq (n a j : ℕ) :
    Real.pi * (2 * (j : ℝ) + 1) * (a : ℝ) / (2 * (n : ℝ)) =
      (2 * (j : ℝ) + 1) * (Real.pi * a / (2 * n)) := by
  ring

/-- Product of two DCT cosines summed over a column index vanishes when
the two row indices differ (`0 ≤ a, b < n`, `a ≠ b`). -/
theorem sum_cos_prod_ne (n a b : ℕ) (ha : a < n) (hb : b < n) (hab : a ≠ b) :
    ∑ j ∈ Finset.range n,
      Real.cos ((2 * (j : ℝ) + 1) * (Real.pi * a / (2 * n))) *
        Real.cos ((2 * (j : ℝ) + 1) * (Real.pi * b / (2 * n))) = 0 := by
  have hprod : ∀ x y : ℝ,
      Real.cos x * Real.cos y = (Real.cos (x - y) + Real.cos (x + y)) / 2 := by
    intro x y
    rw [Real.cos_sub, Real.cos_add]
    ring
  have hdiff :
      ∑ j ∈ Finset.range n,
        Real.cos ((2 * (j : ℝ) + 1) * (Real.pi * a / (2 * n)) -
          (2 * (j : ℝ) + 1) * (Real.pi * b / (2 * n))) = 0 := by
    rcases lt_or_gt_of_ne hab with hlt | hgt
    · have hcast : (b : ℝ) - a = ((b - a : ℕ) : ℝ) := by
        have : a ≤ b := le_of_lt hlt
        push_cast [this]
        ring
      have h := sum_cos_odd_mul n (b - a) (by omega) (by omega)
      calc ∑ j ∈ Finset.range n,
            Real.cos ((2 * (j : ℝ) + 1) * (Real.pi * a / (2 * n)) -
              (2 * (j : ℝ) + 1) * (Real.pi * b / (2 * n)))
          = ∑ j ∈ Finset.range n,
            Real.cos ((2 * (j : ℝ) + 1) * (Real.pi * ((b - a : ℕ) : ℝ) / (2 * n))) := by
            apply Finset.sum_congr rfl
            intro j _
            rw [← Real.cos_neg]
            congr 1
            rw [← hcast]
            ring
        _ = 0 := h
    · have hcast : (a : ℝ) - b = ((a - b : ℕ) : ℝ) := by
        have : b ≤ a := le_of_lt hgt
        push_cast [this]
        ring
      have h := sum_cos_odd_mul n (a - b) (by omega) (by omega)
      calc ∑ j ∈ Finset.range n,
            Real.cos ((2 * (j : ℝ) + 1) * (Real.pi * a / (2 * n)) -
              (2 * (j : ℝ) + 1) * (Real.pi * b / (2 * n)))
          = ∑ j ∈ Finset.range n,
            Real.cos ((2 * (j : ℝ) + 1) * (Real.pi * ((a - b : ℕ) : ℝ) / (2 * n))) := by
            apply Finset.sum_congr rfl
            intro j _
            congr 1
            rw [← hcast]
            ring
        _ = 0 := h
  have hsum :
      ∑ j ∈ Finset.range n,
        Real.cos ((2 * (j : ℝ) + 1) * (Real.pi * a / (2 * n)) +
          (2 * (j : ℝ) + 1) * (Real.pi * b / (2 * n))) = 0 := by
    have hcast : (a : ℝ) + b = ((a + b : ℕ) : ℝ) := by push_cast; ring
    have h := sum_cos_odd_mul n (a + b) (by omega) (by omega)
    calc ∑ j ∈ Finset.range n,
          Real.cos ((2 * (j : ℝ) + 1) * (Real.pi * a / (2 * n)) +
            (2 * (j : ℝ) + 1) * (Real.pi * b / (2 * n)))
        = ∑ j ∈ Finset.range n,
          Real.cos ((2 * (j : ℝ) + 1) * (Real.pi * ((a + b : ℕ) : ℝ) / (2 * n))) := by
          apply Finset.sum_congr rfl
          intro j _
          congr 1
          rw [← hcast]
          ring
      _ = 0 := h
  calc ∑ j ∈ Finset.range n,
        Real.cos ((2 * (j : ℝ) + 1) * (Real.pi * a / (2 * n))) *
          Real.cos ((2 * (j : ℝ) + 1) * (Real.pi * b / (2 * n)))
      = ∑ j ∈ Finset.range n,
        ((Real.cos ((2 * (j : ℝ) + 1) * (Real.pi * a / (2 * n)) -
            (2 * (j : ℝ) + 1) * (Real.pi * b / (2 * n))) +
          Real.cos ((2 * (j : ℝ) + 1) * (Real.pi * a / (2 * n)) +
            (2 * (j : ℝ) + 1) * (Real.pi * b / (2 * n)))) / 2) := by
        apply Finset.sum_congr rfl
        intro j _
        rw [hprod]
    _ = 0 := by
        rw [← Finset.sum_div, Finset.sum_add_distrib, hdiff, hsum]
        norm_num

/-- The rows of the DCT basis matrix are orthonormal: `C · Cᵗ = 1`. -/
theorem dct_matrix_mul_transpose (n : ℕ) :
    dct_matrix n * (dct_matrix n)ᵀ = 1 := by
  ext i k
  rw [Matrix.mul_apply, Matrix.one_apply]
  simp only [Matrix.transpose_apply, dct_matrix]
  have hn : 0 < n := i.pos
  have hnR : (0 : ℝ) < n := by exact_mod_cast hn
  have hsqrtn : Real.sqrt n ≠ 0 := by positivity
  by_cases hik : i = k
  · subst hik
    rw [if_pos rfl]
    by_cases hi0 : (i : ℕ) = 0
    · simp only [hi0]
      have hangle : ∀ j : Fin n,
          Real.pi * (2 * (j : ℕ) + 1) * ((0 : ℕ) : ℝ) / (2 * n) = 0 := by
        intro j
        push_cast
        ring
      calc ∑ j : Fin n,
            ((if (0 : ℕ) = 0 then 1 / Real.sqrt n else Real.sqrt (2 / n)) *
              Real.cos (Real.pi * (2 * (j : ℕ) + 1) * ((0 : ℕ) : ℝ) / (2 * n))) *
            ((if (0 : ℕ) = 0 then 1 / Real.sqrt n else Real.sqrt (2 / n)) *
              Real.cos (Real.pi * (2 * (j : ℕ) + 1) * ((0 : ℕ) : ℝ) / (2 * n)))
          = ∑ _j : Fin n, 1 / (n : ℝ) := by
            apply Finset.sum_congr rfl
            intro j _
            rw [if_pos rfl, hangle j, Real.cos_zero]
            have hre : (1 / Real.sqrt n) * 1 * ((1 / Real.sqrt n) * 1) =
                1 / (Real.sqrt n * Real.sqrt n) := by ring
            rw [hre, Real.mul_self_sqrt (le_of_lt hnR)]
        _ = 1 := by
            rw [Finset.sum_const, Finset.card_univ, Fintype.card_fin]
            field_simp
    · rw [if_neg hi0]
      have h2n : Real.sqrt (2 / n) * Real.sqrt (2 / n) = 2 / n := by
        apply Real.mul_self_sqrt
        positivity
      have hm := sum_cos_odd_mul n (2 * (i : ℕ)) (by omega) (by omega)
      have hcossq : ∀ j : Fin n,
          Real.cos (Real.pi * (2 * (j : ℕ) + 1) * ((i : ℕ) : ℝ) / (2 * n)) *
            Real.cos (Real.pi * (2 * (j : ℕ) + 1) * ((i : ℕ) : ℝ) / (2 * n)) =
          1 / 2 + Real.cos ((2 * (j : ℝ) + 1) *
            (Real.pi * ((2 * (i : ℕ) : ℕ) : ℝ) / (2 * n))) / 2 := by
        intro j
        have := Real.cos_sq (Real.pi * (2 * (j : ℕ) + 1) * ((i : ℕ) : ℝ) / (2 * n))
        rw [← pow_two]
        rw [this]
        congr 2
        push_cast
        ring
      calc ∑ j : Fin n,
            (Real.sqrt (2 / n) *
              Real.cos (Real.pi * (2 * (j : ℕ) + 1) * ((i : ℕ) : ℝ) / (2 * n))) *
            (Real.sqrt (2 / n) *
              Real.cos (Real.pi * (2 * (j : ℕ) + 1) * ((i : ℕ) : ℝ) / (2 * n)))
          = ∑ j : Fin n, (2 / (n : ℝ)) *
              (1 / 2 + Real.cos ((2 * (j : ℝ) + 1) *
                (Real.pi * ((2 * (i : ℕ) : ℕ) : ℝ) / (2 * n))) / 2) := by
            apply Finset.sum_congr rfl
            intro j _
            rw [← hcossq j]
            calc (Real.sqrt (2 / n) *
                  Real.cos (Real.pi * (2 * (j : ℕ) + 1) * ((i : ℕ) : ℝ) / (2 * n))) *
                (Real.sqrt (2 / n) *
                  Real.cos (Real.pi * (2 * (j : ℕ) + 1) * ((i : ℕ) : ℝ) / (2 * n)))
                = (Real.sqrt (2 / n) * Real.sqrt (2 / n)) *
                  (Real.cos (Real.pi * (2 * (j : ℕ) + 1) * ((i : ℕ) : ℝ) / (2 * n)) *
                   Real.cos (Real.pi * (2 * (j : ℕ) + 1) * ((i : ℕ) : ℝ) / (2 * n))) := by
                  ring
              _ = _ := by rw [h2n]
        _ = 1 := by
            rw [← Finset.mul_sum]
            rw [Finset.sum_add_distrib]
            have hfin : ∑ j : Fin n,
                Real.cos ((2 * (j : ℝ) + 1) *
                  (Real.pi * ((2 * (i : ℕ) : ℕ) : ℝ) / (2 * n))) / 2 = 0 := by
              rw [← Finset.sum_div]
              rw [Fin.sum_univ_eq_sum_range
                (fun j => Real.cos ((2 * (j : ℝ) + 1) *
                  (Real.pi * ((2 * (i : ℕ) : ℕ) : ℝ) / (2 * n))))]
              rw [hm]
              norm_num
            rw [hfin, add_zero]
            rw [Finset.sum_const, Finset.card_univ, Fintype.card_fin]
            field_simp
  · rw [if_neg hik]
    have hvals : (i : ℕ) ≠ (k : ℕ) := fun h => hik (Fin.ext h)
    have hz := sum_cos_prod_ne n i k i.isLt k.isLt hvals
    calc ∑ j : Fin n,
          ((if (i : ℕ) = 0 then 1 / Real.sqrt n else Real.sqrt (2 / n)) *
            Real.cos (Real.pi * (2 * (j : ℕ) + 1) * ((i : ℕ) : ℝ) / (2 * n))) *
          ((if (k : ℕ) = 0 then 1 / Real.sqrt n else Real.sqrt (2 / n)) *
            Real.cos (Real.pi * (2 * (j : ℕ) + 1) * ((k : ℕ) : ℝ) / (2 * n)))
        = ((if (i : ℕ) = 0 then 1 / Real.sqrt n else Real.sqrt (2 / n)) *
           (if (k : ℕ) = 0 then 1 / Real.sqrt n else Real.sqrt (2 / n))) *
          ∑ j : Fin n,
            Real.cos ((2 * (j : ℝ) + 1) * (Real.pi * (i : ℕ) / (2 * n))) *
            Real.cos ((2 * (j : ℝ) + 1) * (Real.pi * (k : ℕ) / (2 * n))) := by
          rw [Finset.mul_sum]
          apply Finset.sum_congr rfl
          intro j _
          rw [← dct_angle_eq n i j, ← dct_angle_eq n k j]
          push_cast
          ring
      _ = 0 := by
          rw [Fin.sum_univ_eq_sum_range
            (fun j => Real.cos ((2 * (j : ℝ) + 1) * (Real.pi * (i : ℕ) / (2 * n))) *
              Real.cos ((2 * (j : ℝ) + 1) * (Real.pi * (k : ℕ) / (2 * n))))]
          rw [hz]
          ring

theorem dct_transpose_mul (n : ℕ) :
    (dct_matrix n)ᵀ * dct_matrix n = 1 :=
  Matrix.mul_eq_one_comm.mp (dct_matrix_mul_transpose n)

/-- Claim C6: for every block size N and every N×N real block, the inverse
DCT of the forward DCT reconstructs the block exactly over real
arithmetic; in particular each entry differs by at most 1e-6 from the
original (the bound of the spec, which real arithmetic meets with
error 0). -/
theorem dct_round_trip (n : ℕ) (X : Matrix (Fin n) (Fin n) ℝ) :
    dct_inverse n (dct_forward n X) = X ∧
    ∀ i j : Fin n, |dct_inverse n (dct_forward n X) i j - X i j| ≤ 1 / 1000000 := by
  have hexact : dct_inverse n (dct_forward n X) = X := by
    rw [dct_forward_eq, dct_inverse_eq]
    have h1 : (dct_matrix n)ᵀ * (dct_matrix n * (X * (dct_matrix n)ᵀ)) * dct_matrix n
        = ((dct_matrix n)ᵀ * dct_matrix n) * X *
            ((dct_matrix n)ᵀ * dct_matrix n) := by
      simp only [Matrix.mul_assoc]
    rw [h1, dct_transpose_mul, Matrix.one_mul, Matrix.mul_one]
  refine ⟨hexact, fun i j => ?_⟩
  rw [hexact, sub_self, abs_zero]
  norm_num

/-! ## Huffman coding and the block entropy codec (`entropy.c`)

`unsigned` arithmetic is modelled modulo 2^32. `HuffNode` keeps C pointer
semantics: `nil` is the NULL pointer and every allocated node carries its
address (`id`); addresses take no part in any comparison, exactly as the C
code never compares pointers. -/

def UINT_MOD : ℕ := 4294967296

/-- `HuffNode`: symbol (−1 for internal nodes), `unsigned` frequency and
two child pointers. -/
inductive HuffNode where
  | nil : HuffNode
  | mk (id : ℕ) (symbol : ℤ) (frequency : ℕ) (left right : HuffNode) : HuffNode
deriving DecidableEq

/-- `create_huffman_node`: a fresh childless node. -/
def create_huffman_node (id : ℕ) (symbol : ℤ) (frequency : ℕ) : HuffNode :=
  HuffNode.mk id symbol (frequency % UINT_MOD) HuffNode.nil HuffNode.nil

def hfreq : HuffNode → ℕ
  | HuffNode.nil => 0
  | HuffNode.mk _ _ f _ _ => f

def hid : HuffNode → ℕ
  | HuffNode.nil => 0
  | HuffNode.mk i _ _ _ _ => i

/-! ### Priority queue (`pq_init`/`pq_push`/`pq_pop`)

The C heap is an array of node pointers; it is modelled as a list.
The loops carry explicit fuel: bubble-up needs at most the start index
many steps, bubble-down at most the array size. -/

def pqGet (l : List HuffNode) (i : ℕ) : HuffNode := lget HuffNode.nil l i

def pqSwap (l : List HuffNode) (i j : ℕ) : List HuffNode :=
  lset (lset l i (pqGet l j)) j (pqGet l i)

/-- The bubble-up loop of `pq_push`. -/
def pq_bubble_up : ℕ → List HuffNode → ℕ → List HuffNode
  | _, nodes, 0 => nodes
  | 0, nodes, _ + 1 => nodes
  | fuel + 1, nodes, i + 1 =>
    let parent := i / 2
    if hfreq (pqGet nodes parent) ≤ hfreq (pqGet nodes (i + 1)) then nodes
    else pq_bubble_up fuel (pqSwap nodes parent (i + 1)) parent

/-- `pq_push`: append at the end, then bubble up. -/
def pq_push (nodes : List HuffNode) (node : HuffNode) : List HuffNode :=
  pq_bubble_up nodes.length (nodes ++ [node]) nodes.length

/-- The bubble-down loop of `pq_pop`. -/
def pq_bubble_down : ℕ → List HuffNode → ℕ → List HuffNode
  | 0, nodes, _ => nodes
  | fuel + 1, nodes, i =>
    let size := nodes.length
    let left := 2 * i + 1
    let right := 2 * i + 2
    let s1 := if left < size ∧ hfreq (pqGet nodes left) < hfreq (pqGet nodes i)
      then left else i
    let s2 := if right < size ∧ hfreq (pqGet nodes right) < hfreq (pqGet nodes s1)
      then right else s1
    if s2 = i then nodes else pq_bubble_down fuel (pqSwap nodes i s2) s2

/-- `pq_pop`: take the root, move the last element to the root, bubble
down. -/
def pq_pop (nodes : List HuffNode) : Option HuffNode × List HuffNode :=
  if nodes.length = 0 then (none, nodes)
  else
    let m := pqGet nodes 0
    let last := pqGet nodes (nodes.length - 1)
    let nodes' := (lset nodes 0 last).dropLast
    (some m, pq_bubble_down nodes'.length nodes' 0)

/-! ### Huffman tree construction and code generation -/

structure HuffCode where
  bits : List Bool
  length : ℕ
deriving DecidableEq

def emptyCode : HuffCode := ⟨[], 0⟩

/-- The leaf-creation loop of `build_huffman_codes` (node addresses are
`0..count-1` in creation order). -/
def initial_pq (symbols : List ℤ) (frequencies : List ℕ) (count : ℕ) :
    List HuffNode :=
  (List.range count).foldl
    (fun pq i => pq_push pq (create_huffman_node i (lget 0 symbols i) (lget 0 frequencies i)))
    []

/-- The `while (pq->size > 1)` merge loop of `build_huffman_codes`. -/
def build_tree_loop : ℕ → List HuffNode → ℕ → List HuffNode
  | 0, pq, _ => pq
  | fuel + 1, pq, next_id =>
    if pq.length ≤ 1 then pq
    else
      let p1 := pq_pop pq
      let p2 := pq_pop p1.2
      let left := p1.1.getD HuffNode.nil
      let right := p2.1.getD HuffNode.nil
      let parent := HuffNode.mk next_id (-1) ((hfreq left + hfreq right) % UINT_MOD)
        left right
      build_tree_loop fuel (pq_push p2.2 parent) (next_id + 1)

/-- `generate_codes`: recursive traversal appending '0' on the left edge
and '1' on the right edge; a leaf stores its path and depth, symbols
outside [0, 65536) are dropped and subtrees below depth 255 are
abandoned. -/
def generate_codes : HuffNode → List Bool → ℕ → (ℤ → HuffCode) → (ℤ → HuffCode)
  | HuffNode.nil, _, _, codes => codes
  | HuffNode.mk _ symbol _ HuffNode.nil HuffNode.nil, code, depth, codes =>
    if symbol < 0 ∨ 65536 ≤ symbol then codes
    else Function.update codes symbol ⟨code, depth⟩
  | HuffNode.mk _ _ _ l r, code, depth, codes =>
    if 255 ≤ depth then codes
    else
      let codes1 := generate_codes l (code ++ [false]) (depth + 1) codes
      generate_codes r (code ++ [true]) (depth + 1) codes1

/-- `build_huffman_codes`: leaves into the heap, merge loop, code table
from the root (the table is calloc'd, i.e. all-zero: empty code of
length 0). -/
def build_huffman_codes (symbols : List ℤ) (frequencies : List ℕ)
    (count : ℕ) : ℤ → HuffCode :=
  let pq := initial_pq symbols frequencies count
  let pq' := build_tree_loop count pq count
  match (pq_pop pq').1 with
  | none => fun _ => emptyCode
  | some root => generate_codes root [] 0 (fun _ => emptyCode)

/-! ### Bit stream I/O

The writer additionally records, in the ghost flag `overflowed`, whether
any `bit_writer_write_bit` call has reported buffer overflow (the C call
returns −1 in that case; its callers in `entropy_encode_block` discard the
status). -/

structure BitWriter where
  buffer : List ℕ
  capacity : ℕ
  byte_pos : ℕ
  bit_pos : ℕ
  overflowed : Bool
deriving DecidableEq

def bit_writer_init (capacity : ℕ) : BitWriter :=
  ⟨List.replicate capacity 0, capacity, 0, 0, false⟩

def bit_writer_write_bit (w : BitWriter) (bit : Bool) : ℤ × BitWriter :=
  if w.capacity ≤ w.byte_pos then (-1, { w with overflowed := true })
  else
    let buffer := if bit then
      lset w.buffer w.byte_pos ((lget 0 w.buffer w.byte_pos) ||| (1 <<< (7 - w.bit_pos)))
      else w.buffer
    if w.bit_pos + 1 = 8 then
      (0, { w with buffer := buffer, bit_pos := 0, byte_pos := w.byte_pos + 1 })
    else (0, { w with buffer := buffer, bit_pos := w.bit_pos + 1 })

def bit_writer_write_bits (w : BitWriter) : List Bool → ℤ × BitWriter
  | [] => (0, w)
  | b :: rest =>
    let r := bit_writer_write_bit w b
    if r.1 < 0 then (-1, r.2) else bit_writer_write_bits r.2 rest

/-- `bit_writer_free` returns the number of bytes used, counting a partial
final byte. -/
def bit_writer_bytes_used (w : BitWriter) : ℕ :=
  w.byte_pos + (if 0 < w.bit_pos then 1 else 0)

structure BitReader where
  buffer : List ℕ
  capacity : ℕ
  byte_pos : ℕ
  bit_pos : ℕ
deriving DecidableEq

def bit_reader_init (buffer : List ℕ) (capacity : ℕ) : BitReader :=
  ⟨buffer, capacity, 0, 0⟩

def bit_reader_read_bit (r : BitReader) : Option Bool × BitReader :=
  if r.capacity ≤ r.byte_pos then (none, r)
  else
    let bit := ((lget 0 r.buffer r.byte_pos) >>> (7 - r.bit_pos)) &&& 1
    if r.bit_pos + 1 = 8 then
      (some (bit = 1), { r with bit_pos := 0, byte_pos := r.byte_pos + 1 })
    else (some (bit = 1), { r with bit_pos := r.bit_pos + 1 })

/-! ### Symbol table serialization -/

/-- MSB-first fixed-width write of a non-negative value, statuses
discarded exactly as `encode_symbol_table` discards them. -/
def write_bits_of_nat (w : BitWriter) (value width : ℕ) : BitWriter :=
  (List.range width).foldl
    (fun w j => (bit_writer_write_bit w (((value >>> (width - 1 - j)) &&& 1) = 1)).2) w

/-- `encode_symbol_table`: 16-bit symbol count, then per symbol the 32-bit
original value and the 8-bit code length. -/
def encode_symbol_table (w : BitWriter) (symbols : List ℤ)
    (original_symbols : List ℕ) (count : ℕ) (codes : ℤ → HuffCode) : BitWriter :=
  let w := write_bits_of_nat w count 16
  (List.range count).foldl (fun w i =>
    let symbol := lget 0 symbols i
    let original := lget 0 original_symbols i
    let len := (codes symbol).length
    write_bits_of_nat (write_bits_of_nat w original 32) len 8) w

/-- MSB-first fixed-width read (`num = (num << 1) | bit`), failing on
buffer underflow. -/
def read_bits_of_nat : BitReader → ℕ → ℕ → Option ℕ × BitReader
  | r, 0, acc => (some acc, r)
  | r, width + 1, acc =>
    match bit_reader_read_bit r with
    | (none, r') => (none, r')
    | (some b, r') => read_bits_of_nat r' width (acc * 2 + (if b then 1 else 0))

/-- The per-symbol read loop of `decode_symbol_table`: stores the original
value and a bits-free code of the transmitted length at sequential symbol
index `i`. -/
def decode_table_loop : BitReader → ℕ → ℕ → List ℕ → (ℤ → HuffCode) →
    Option (List ℕ × (ℤ → HuffCode)) × BitReader
  | r, 0, _, origs, codes => (some (origs, codes), r)
  | r, rem + 1, i, origs, codes =>
    match read_bits_of_nat r 32 0 with
    | (none, r') => (none, r')
    | (some original, r') =>
      match read_bits_of_nat r' 8 0 with
      | (none, r'') => (none, r'')
      | (some len, r'') =>
        decode_table_loop r'' rem (i + 1) (origs ++ [original])
          (Function.update codes (i : ℤ) ⟨[], len⟩)

/-- `decode_symbol_table`: 16-bit count, then the per-symbol loop; symbols
are the sequential indices `0..count-1`. -/
def decode_symbol_table (r : BitReader) :
    Option (List ℤ × List ℕ × (ℤ → HuffCode) × ℕ) × BitReader :=
  match read_bits_of_nat r 16 0 with
  | (none, r') => (none, r')
  | (some num_symbols, r') =>
    match decode_table_loop r' num_symbols 0 [] (fun _ => emptyCode) with
    | (none, r'') => (none, r'')
    | (some (origs, codes), r'') =>
      (some ((List.range num_symbols).map (fun i => (i : ℤ)), origs, codes,
        num_symbols), r'')

/-! ### Canonical decoding tree (`build_decoding_tree`) -/

/-- Inner pass of the bubble sort over symbols by code length. -/
def bubble_inner : ℕ → List ℤ → (ℤ → HuffCode) → ℕ → List ℤ
  | 0, syms, _, _ => syms
  | rem + 1, syms, codes, j =>
    let a := lget 0 syms j
    let b := lget 0 syms (j + 1)
    let syms' := if (codes b).length < (codes a).length
      then lset (lset syms j b) (j + 1) a else syms
    bubble_inner rem syms' codes (j + 1)

/-- The bubble sort of `build_decoding_tree` (stable: swaps only on
strictly greater length). -/
def bubble_sort_symbols (syms : List ℤ) (codes : ℤ → HuffCode) (count : ℕ) :
    List ℤ :=
  (List.range (count - 1)).foldl (fun s i => bubble_inner (count - i - 1) s codes 0) syms

/-- Insert one canonical code into the decoding trie, creating childless
internal nodes on demand and setting the symbol at the final node. -/
def tree_insert : HuffNode → List Bool → ℤ → HuffNode
  | HuffNode.nil, _, _ => HuffNode.nil
  | HuffNode.mk id _ f l r, [], symbol => HuffNode.mk id symbol f l r
  | HuffNode.mk id s f l r, false :: rest, symbol =>
    let child := if l = HuffNode.nil then create_huffman_node 0 (-1) 0 else l
    HuffNode.mk id s f (tree_insert child rest symbol) r
  | HuffNode.mk id s f l r, true :: rest, symbol =>
    let child := if r = HuffNode.nil then create_huffman_node 0 (-1) 0 else r
    HuffNode.mk id s f l (tree_insert child rest symbol)

/-- Canonical code assignment: consecutive code values, left-shifted by
the length delta on a length increase (`unsigned` arithmetic). -/
def canonical_insert_loop : List ℤ → (ℤ → HuffCode) → HuffNode → ℕ → ℕ → HuffNode
  | [], _, root, _, _ => root
  | s :: rest, codes, root, code_value, last_len =>
    let len := (codes s).length
    if len = 0 then canonical_insert_loop rest codes root code_value last_len
    else
      let cv := if last_len ≠ 0 ∧ last_len < len
        then (code_value <<< (len - last_len)) % UINT_MOD else code_value
      let code_bits := (List.range len).map
        (fun j => decide (((cv >>> (len - j - 1)) &&& 1) = 1))
      canonical_insert_loop rest codes (tree_insert root code_bits s)
        ((cv + 1) % UINT_MOD) len

/-- `build_decoding_tree`: sort by code length, then insert canonical
codes into a fresh trie. -/
def build_decoding_tree (symbols : List ℤ) (codes : ℤ → HuffCode)
    (count : ℕ) : HuffNode :=
  let sorted := bubble_sort_symbols symbols codes count
  canonical_insert_loop (sorted.take count) codes (create_huffman_node 0 (-1) 0) 0 0

/-! ### Block encode/decode -/

/-- Sign+magnitude folding of a coefficient into 16 bits (even = positive
doubled, odd = negative, saturating at the 16-bit boundary). -/
def encode_value (value : ℤ) : ℕ :=
  if value = 0 then 0
  else if 0 < value then (if value < 32768 then value.toNat <<< 1 else 65534)
  else (if -value < 32768 then (((-value).toNat <<< 1) ||| 1) else 65535)

structure SymbolState where
  original_symbols : List ℕ
  symbol_indices : List ℕ
  frequencies : List ℕ
  unique_count : ℕ
deriving DecidableEq

/-- The linear dedup scan
`for (j = 0; j < unique_count; j++) if (original_symbols[j] == target) break`. -/
def find_symbol_loop (original_symbols : List ℕ) (target : ℕ) : ℕ → ℕ → ℕ
  | j, 0 => j
  | j, rem + 1 =>
    if lget 0 original_symbols j = target then j
    else find_symbol_loop original_symbols target (j + 1) rem

/-- The symbol-gathering pass of `entropy_encode_block` (step 3), exactly
as written: the scan compares against `original_symbols[j]` (indexed by
RLE position), a new symbol writes `symbol_indices[unique_count]` before
`symbol_indices[i]`, and more than 65536 unique symbols abandons the
loop. -/
def symbol_pass : List RLESymbol → ℕ → SymbolState → SymbolState
  | [], _, st => st
  | s :: rest, i, st =>
    let run := if 255 < s.run_length then 255 else s.run_length
    let orig := (run <<< 16) ||| encode_value s.value
    let origs := lset st.original_symbols i orig
    let j := find_symbol_loop origs orig 0 st.unique_count
    if j < st.unique_count then
      symbol_pass rest (i + 1)
        { st with
          original_symbols := origs
          frequencies := lset st.frequencies j ((lget 0 st.frequencies j + 1) % UINT_MOD)
          symbol_indices := lset st.symbol_indices i j }
    else if 65536 ≤ st.unique_count then
      { st with original_symbols := origs }
    else
      symbol_pass rest (i + 1)
        { original_symbols := origs
          symbol_indices := lset (lset st.symbol_indices st.unique_count st.unique_count)
            i st.unique_count
          frequencies := lset st.frequencies st.unique_count 1
          unique_count := st.unique_count + 1 }

structure EncodeResult where
  status : ℤ
  writer : BitWriter
  output_size : ℕ
deriving DecidableEq

/-- `entropy_encode_block`: zigzag scan, run-length encode, symbol
gathering, Huffman codes over the sequential indices, header, payload;
the returned status is the function's unconditional `return 0`. -/
def entropy_encode_block (block_size : ℕ) (block : List (List ℤ))
    (capacity : ℕ) : EncodeResult :=
  let zigzag_data := zigzag_scan block block_size
  let rle_symbols := run_length_encode zigzag_data 0
  let rle_count := rle_symbols.length
  let st := symbol_pass rle_symbols 0
    { original_symbols := List.replicate rle_count 0
      symbol_indices := List.replicate rle_count 0
      frequencies := List.replicate rle_count 0
      unique_count := 0 }
  let unique_indices : List ℤ := (List.range st.unique_count).map (fun i => (i : ℤ))
  let huffman_codes := build_huffman_codes unique_indices st.frequencies st.unique_count
  let w1 := encode_symbol_table (bit_writer_init capacity) unique_indices
    st.original_symbols st.unique_count huffman_codes
  let w2 := (List.range rle_count).foldl (fun w i =>
    let code := huffman_codes ((lget 0 st.symbol_indices i : ℕ) : ℤ)
    (bit_writer_write_bits w (code.bits.take code.length)).2) w1
  { status := 0, writer := w2, output_size := bit_writer_bytes_used w2 }

/-- The per-symbol root-to-leaf walk of `entropy_decode_block`; stops at a
childless node, on underflow, or on a dead branch (then the current node
is returned unchanged). -/
def decode_walk : ℕ → HuffNode → BitReader → HuffNode × BitReader
  | 0, n, r => (n, r)
  | fuel + 1, n, r =>
    match n with
    | HuffNode.nil => (n, r)
    | HuffNode.mk _ _ _ l rgt =>
      if l = HuffNode.nil ∧ rgt = HuffNode.nil then (n, r)
      else
        match bit_reader_read_bit r with
        | (none, r') => (n, r')
        | (some b, r') =>
          if b = false then
            (if l ≠ HuffNode.nil then decode_walk fuel l r' else (n, r'))
          else
            (if rgt ≠ HuffNode.nil then decode_walk fuel rgt r' else (n, r'))

/-- The main decode loop: expand each decoded (run, value) pair into the
zigzag buffer, treat (0,0) as EOB, stop on non-leaf outcome; the read of
`original_symbols[symbol]` with a negative symbol (C undefined behaviour
on the root-leaf degenerate tree) is modelled as reading index 0. -/
def decode_data_loop : ℕ → HuffNode → BitReader → List ℕ → List ℤ → ℕ → ℕ →
    List ℤ × BitReader
  | 0, _, r, _, zz, _, _ => (zz, r)
  | fuel + 1, root, r, origs, zz, pos, total =>
    if total ≤ pos then (zz, r)
    else
      let w := decode_walk (8 * r.capacity + 1) root r
      match w.1 with
      | HuffNode.mk _ symbol _ HuffNode.nil HuffNode.nil =>
        let original := lget 0 origs symbol.toNat
        let run := (original >>> 16) &&& 65535
        let encoded := original &&& 65535
        let value : ℤ :=
          if encoded = 0 then 0
          else if encoded &&& 1 = 1 then -((encoded >>> 1 : ℕ) : ℤ)
          else ((encoded >>> 1 : ℕ) : ℤ)
        let pos1 := min (pos + run) total
        let zz1 := if pos1 < total then lset zz pos1 value else zz
        let pos2 := if pos1 < total then pos1 + 1 else pos1
        if run = 0 ∧ value = 0 then (zz1, w.2)
        else decode_data_loop fuel root w.2 origs zz1 pos2 total
      | _ => (zz, w.2)

def lset2 (m : List (List ℤ)) (r c : ℕ) (v : ℤ) : List (List ℤ) :=
  lset m r (lset (lget [] m r) c v)

/-- Reverse zigzag: scatter the 1D sequence back into a zero-initialized
2D block. -/
def unzigzag (zz : List ℤ) (n : ℕ) : List (List ℤ) :=
  let pattern := generate_zigzag_pattern n
  (List.range (n * n)).foldl (fun out i =>
    let pos := lget 0 pattern i
    if pos / n < n ∧ pos % n < n then lset2 out (pos / n) (pos % n) (lget 0 zz i)
    else out)
    (List.replicate n (List.replicate n (0 : ℤ)))

/-- `entropy_decode_block`: symbol table, canonical tree, decode loop,
un-zigzag; header parse failure is the hard −1 error (`none`). -/
def entropy_decode_block (block_size : ℕ) (input : List ℕ) (input_size : ℕ) :
    Option (List (List ℤ)) :=
  let total_size := block_size * block_size
  match decode_symbol_table (bit_reader_init input input_size) with
  | (none, _) => none
  | (some (symbols, original_symbols, codes, count), r1) =>
    let root := build_decoding_tree symbols codes count
    let res := decode_data_loop (total_size + 1) root r1 original_symbols
      (List.replicate total_size 0) 0 total_size
    some (unzigzag res.1 block_size)

/-! ### Refutations: C1, C4, C9 -/

/-- A 4×4 quantized block with two leading nonzero coefficients. -/
def c1Block : List (List ℤ) :=
  [[1, 1, 0, 0], [0, 0, 0, 0], [0, 0, 0, 0], [0, 0, 0, 0]]

set_option maxRecDepth 100000 in
/-- Claim C1 evaluated at a failing input: encoding the 4×4 block with
zigzag sequence 1,1,0,…,0 into an amply sized buffer and decoding the
resulting bytes does not reproduce the block (the symbol-gathering pass
overwrites `symbol_indices[1]` when registering the EOB symbol and the
serialized table maps both indices to the same original value, while the
decoder additionally assumes canonical codes the encoder never emitted). -/
theorem entropy_round_trip_fails :
    entropy_decode_block 4 (entropy_encode_block 4 c1Block 64).writer.buffer
        (entropy_encode_block 4 c1Block 64).output_size ≠ some c1Block := by
  decide

/-- Claim C4 evaluated: with a single symbol (count = 1) the tree root is
the lone leaf at depth 0, so `build_huffman_codes` assigns it a
zero-length code, not the one-bit code the spec mandates. -/
theorem single_symbol_code_has_length_zero :
    (build_huffman_codes [0] [5] 1 0).length = 0 := by
  decide

/-- An all-zero 4×4 block. -/
def zeroBlock4 : List (List ℤ) :=
  [[0, 0, 0, 0], [0, 0, 0, 0], [0, 0, 0, 0], [0, 0, 0, 0]]

set_option maxRecDepth 100000 in
/-- Claim C9 evaluated at a failing input: encoding into a 1-byte buffer
overflows the bit writer (some `bit_writer_write_bit` call reports −1,
recorded in the ghost flag), yet `entropy_encode_block` still returns
status 0, i.e. success. -/
theorem encode_overflow_still_returns_success :
    (entropy_encode_block 4 zeroBlock4 1).writer.overflowed = true ∧
    (entropy_encode_block 4 zeroBlock4 1).status = 0 := by
  decide

/-! ## Verification of the Huffman coder (claim C3)

### Layer 1: the binary min-heap

`pq_push`/`pq_pop` are verified against the heap-order invariant: push
preserves the invariant and the multiset of nodes, pop returns a node of
minimal frequency and removes exactly one occurrence of it. -/

theorem lget_lset_self {α : Type} (d : α) (l : List α) (i : ℕ) (v : α)
    (h : i < l.length) : lget d (lset l i v) i = v := by
  induction l generalizing i with
  | nil => simp at h
  | cons x xs ih =>
    cases i with
    | zero => rfl
    | succ j =>
      simp only [List.length_cons] at h
      exact ih j (by omega)

theorem lget_lset_ne {α : Type} (d : α) (l : List α) (i j : ℕ) (v : α)
    (h : j ≠ i) : lget d (lset l i v) j = lget d l j := by
  induction l generalizing i j with
  | nil => rfl
  | cons x xs ih =>
    cases i with
    | zero =>
      cases j with
      | zero => exact absurd rfl h
      | succ j' => rfl
    | succ i' =>
      cases j with
      | zero => rfl
      | succ j' => exact ih i' j' (by omega)

theorem multiset_lset {α : Type} (d : α) (l : List α) (i : ℕ) (v : α)
    (h : i < l.length) :
    (lset l i v : Multiset α) + {lget d l i} = (l : Multiset α) + {v} := by
  induction l generalizing i with
  | nil => simp at h
  | cons x xs ih =>
    cases i with
    | zero =>
      show ((v :: xs : List α) : Multiset α) + {x} =
        ((x :: xs : List α) : Multiset α) + {v}
      rw [← Multiset.cons_coe, ← Multiset.cons_coe, ← Multiset.singleton_add,
        ← Multiset.singleton_add]
      abel
    | succ j =>
      simp only [List.length_cons] at h
      have hj := ih j (by omega)
      show ((x :: lset xs j v : List α) : Multiset α) + {lget d xs j} =
        ((x :: xs : List α) : Multiset α) + {v}
      rw [← Multiset.cons_coe, ← Multiset.cons_coe, ← Multiset.singleton_add,
        ← Multiset.singleton_add x]
      rw [add_assoc, hj, ← add_assoc]

theorem pqSwap_length (l : List HuffNode) (i j : ℕ) :
    (pqSwap l i j).length = l.length := by
  simp [pqSwap, lset_length]

theorem pqGet_swap_fst (l : List HuffNode) (i j : ℕ) (hi : i < l.length)
    (hij : i ≠ j) : pqGet (pqSwap l i j) i = pqGet l j := by
  unfold pqSwap pqGet
  show lget HuffNode.nil (lset (lset l i (pqGet l j)) j (pqGet l i)) i = _
  rw [lget_lset_ne _ _ _ _ _ hij]
  exact lget_lset_self _ _ _ _ hi

theorem pqGet_swap_snd (l : List HuffNode) (i j : ℕ) (hj : j < l.length) :
    pqGet (pqSwap l i j) j = pqGet l i := by
  show lget HuffNode.nil (lset (lset l i (pqGet l j)) j (pqGet l i)) j = pqGet l i
  exact lget_lset_self _ _ _ _ (by rw [lset_length]; exact hj)

theorem pqGet_swap_other (l : List HuffNode) (i j x : ℕ) (hxi : x ≠ i)
    (hxj : x ≠ j) : pqGet (pqSwap l i j) x = pqGet l x := by
  unfold pqSwap pqGet
  show lget HuffNode.nil (lset (lset l i (pqGet l j)) j (pqGet l i)) x = _
  rw [lget_lset_ne _ _ _ _ _ hxj, lget_lset_ne _ _ _ _ _ hxi]

theorem pqSwap_multiset (l : List HuffNode) (i j : ℕ) (hi : i < l.length)
    (hj : j < l.length) :
    (pqSwap l i j : Multiset HuffNode) = (l : Multiset HuffNode) := by
  have h1 := multiset_lset HuffNode.nil l i (pqGet l j) hi
  have h2 := multiset_lset HuffNode.nil (lset l i (pqGet l j)) j (pqGet l i)
    (by rw [lset_length]; exact hj)
  rw [show lget HuffNode.nil l i = pqGet l i from rfl] at h1
  by_cases hij : j = i
  · subst hij
    rw [show lget HuffNode.nil (lset l j (pqGet l j)) j = pqGet l j from
      lget_lset_self _ _ _ _ hj] at h2
    have hA : ((lset l j (pqGet l j) : List HuffNode) : Multiset HuffNode) =
        (l : Multiset HuffNode) := add_right_cancel h1
    show ((lset (lset l j (pqGet l j)) j (pqGet l j) : List HuffNode) :
      Multiset HuffNode) = (l : Multiset HuffNode)
    refine add_right_cancel (b := ({pqGet l j} : Multiset HuffNode)) ?_
    rw [h2, hA]
  · rw [show lget HuffNode.nil (lset l i (pqGet l j)) j = lget HuffNode.nil l j from
      lget_lset_ne _ _ _ _ _ hij,
      show lget HuffNode.nil l j = pqGet l j from rfl] at h2
    show ((lset (lset l i (pqGet l j)) j (pqGet l i) : List HuffNode) :
      Multiset HuffNode) = (l : Multiset HuffNode)
    refine add_right_cancel (b := ({pqGet l j} : Multiset HuffNode)) ?_
    rw [h2, h1]

def heapParent (i : ℕ) : ℕ := (i - 1) / 2

/-- The heap-order invariant of the C array heap. -/
def IsHeap (l : List HuffNode) : Prop :=
  ∀ i : ℕ, 0 < i → i < l.length →
    hfreq (pqGet l (heapParent i)) ≤ hfreq (pqGet l i)

/-- Heap order except along the upward path at hole `k`: all parent edges
hold except the one into `k`, and `k`'s parent-to-be dominates `k`'s
children. -/
def HeapExceptUp (l : List HuffNode) (k : ℕ) : Prop :=
  (∀ i : ℕ, 0 < i → i < l.length → i ≠ k →
    hfreq (pqGet l (heapParent i)) ≤ hfreq (pqGet l i)) ∧
  (∀ i : ℕ, 0 < i → i < l.length → heapParent i = k → 0 < k →
    hfreq (pqGet l (heapParent k)) ≤ hfreq (pqGet l i))

theorem heapParent_lt (i : ℕ) (h : 0 < i) : heapParent i < i := by
  unfold heapParent
  omega

theorem pq_bubble_up_length :
    ∀ (fuel : ℕ) (l : List HuffNode) (k : ℕ),
    (pq_bubble_up fuel l k).length = l.length := by
  intro fuel
  induction fuel with
  | zero => intro l k; cases k <;> rfl
  | succ f ih =>
    intro l k
    cases k with
    | zero => rfl
    | succ n =>
      simp only [pq_bubble_up]
      by_cases h : hfreq (pqGet l (n / 2)) ≤ hfreq (pqGet l (n + 1))
      · rw [if_pos h]
      · rw [if_neg h, ih, pqSwap_length]

theorem pq_bubble_up_multiset :
    ∀ (fuel : ℕ) (l : List HuffNode) (k : ℕ), k < l.length →
    ((pq_bubble_up fuel l k : List HuffNode) : Multiset HuffNode) =
      (l : Multiset HuffNode) := by
  intro fuel
  induction fuel with
  | zero => intro l k _; cases k <;> rfl
  | succ f ih =>
    intro l k hk
    cases k with
    | zero => rfl
    | succ n =>
      simp only [pq_bubble_up]
      by_cases h : hfreq (pqGet l (n / 2)) ≤ hfreq (pqGet l (n + 1))
      · rw [if_pos h]
      · rw [if_neg h, ih _ _ (by rw [pqSwap_length]; omega),
          pqSwap_multiset _ _ _ (by omega) hk]

theorem pq_bubble_up_heap :
    ∀ (fuel : ℕ) (l : List HuffNode) (k : ℕ), k < l.length → k ≤ fuel →
    HeapExceptUp l k → IsHeap (pq_bubble_up fuel l k) := by
  intro fuel
  induction fuel with
  | zero =>
    intro l k hk hfuel hex
    have hk0 : k = 0 := by omega
    subst hk0
    intro i hi hilen
    exact hex.1 i hi (by simpa using hilen) (by omega)
  | succ f ih =>
    intro l k hk hfuel hex
    cases k with
    | zero =>
      intro i hi hilen
      exact hex.1 i hi (by simpa using hilen) (by omega)
    | succ n =>
      simp only [pq_bubble_up]
      by_cases hcmp : hfreq (pqGet l (n / 2)) ≤ hfreq (pqGet l (n + 1))
      · rw [if_pos hcmp]
        intro i hi hilen
        by_cases hik : i = n + 1
        · subst hik
          have hpar : heapParent (n + 1) = n / 2 := by unfold heapParent; omega
          rw [hpar]
          exact hcmp
        · exact hex.1 i hi hilen hik
      · rw [if_neg hcmp]
        have hlt : hfreq (pqGet l (n + 1)) < hfreq (pqGet l (n / 2)) :=
          lt_of_not_le hcmp
        have hplen : n / 2 < l.length := by omega
        have hpne : n / 2 ≠ n + 1 := by omega
        apply ih _ _ (by rw [pqSwap_length]; exact hplen) (by omega)
        have hget_p : pqGet (pqSwap l (n / 2) (n + 1)) (n / 2) = pqGet l (n + 1) :=
          pqGet_swap_fst l (n / 2) (n + 1) hplen hpne
        have hget_k : pqGet (pqSwap l (n / 2) (n + 1)) (n + 1) = pqGet l (n / 2) :=
          pqGet_swap_snd l (n / 2) (n + 1) hk
        constructor
        · intro i hi hilen hip
          rw [pqSwap_length] at hilen
          by_cases hik : i = n + 1
          · subst hik
            have hpar : heapParent (n + 1) = n / 2 := by unfold heapParent; omega
            rw [hpar, hget_p, hget_k]
            exact le_of_lt hlt
          · have hgi : pqGet (pqSwap l (n / 2) (n + 1)) i = pqGet l i :=
              pqGet_swap_other l _ _ i hip hik
            by_cases hpi : heapParent i = n + 1
            · rw [hpi, hget_k, hgi]
              have h2 := hex.2 i hi hilen hpi (by omega)
              have hpar : heapParent (n + 1) = n / 2 := by unfold heapParent; omega
              rw [hpar] at h2
              exact h2
            · by_cases hpi2 : heapParent i = n / 2
              · rw [hpi2, hget_p, hgi]
                have h1 := hex.1 i hi hilen hik
                rw [hpi2] at h1
                exact le_trans (le_of_lt hlt) h1
              · rw [pqGet_swap_other l _ _ _ hpi2 hpi, hgi]
                exact hex.1 i hi hilen hik
        · intro i hi hilen hpi hp0
          rw [pqSwap_length] at hilen
          have hippne : heapParent (n / 2) ≠ n / 2 := by
            have := heapParent_lt (n / 2) hp0
            omega
          have hippne2 : heapParent (n / 2) ≠ n + 1 := by
            have := heapParent_lt (n / 2) hp0
            omega
          rw [pqGet_swap_other l _ _ _ hippne hippne2]
          have hinp : i ≠ n / 2 := by
            unfold heapParent at hpi
            omega
          by_cases hik : i = n + 1
          · subst hik
            rw [hget_k]
            have := hex.1 (n / 2) hp0 hplen hpne
            exact this
          · rw [pqGet_swap_other l _ _ _ hinp hik]
            have h1 := hex.1 i hi hilen hik
            rw [hpi] at h1
            have h2 := hex.1 (n / 2) hp0 hplen hpne
            exact le_trans h2 h1

theorem lget_append_lt {α : Type} (d : α) (l l2 : List α) (i : ℕ)
    (h : i < l.length) : lget d (l ++ l2) i = lget d l i := by
  induction l generalizing i with
  | nil => simp at h
  | cons x xs ih =>
    cases i with
    | zero => rfl
    | succ j =>
      simp only [List.length_cons] at h
      exact ih j (by omega)

theorem lget_append_self {α : Type} (d : α) (l : List α) (x : α) :
    lget d (l ++ [x]) l.length = x := by
  induction l with
  | nil => rfl
  | cons y ys ih => exact ih

theorem pq_push_length (l : List HuffNode) (x : HuffNode) :
    (pq_push l x).length = l.length + 1 := by
  unfold pq_push
  rw [pq_bubble_up_length]
  simp

theorem pq_push_multiset (l : List HuffNode) (x : HuffNode) :
    ((pq_push l x : List HuffNode) : Multiset HuffNode) =
      x ::ₘ (l : Multiset HuffNode) := by
  unfold pq_push
  rw [pq_bubble_up_multiset _ _ _ (by simp)]
  have h : ((l ++ [x] : List HuffNode) : Multiset HuffNode) =
      (l : Multiset HuffNode) + ({x} : Multiset HuffNode) := by
    rfl
  rw [h, add_comm, Multiset.singleton_add]

theorem pq_push_heap (l : List HuffNode) (x : HuffNode) (h : IsHeap l) :
    IsHeap (pq_push l x) := by
  unfold pq_push
  apply pq_bubble_up_heap _ _ _ (by simp) (le_refl _)
  constructor
  · intro i hi hilen hik
    simp only [List.length_append, List.length_cons, List.length_nil] at hilen
    have hil : i < l.length := by omega
    have hpl : heapParent i < l.length := lt_trans (heapParent_lt i hi) hil
    show hfreq (lget HuffNode.nil (l ++ [x]) (heapParent i)) ≤
      hfreq (lget HuffNode.nil (l ++ [x]) i)
    rw [lget_append_lt _ _ _ _ hil, lget_append_lt _ _ _ _ hpl]
    exact h i hi hil
  · intro i hi hilen hpar _
    exfalso
    simp only [List.length_append, List.length_cons, List.length_nil] at hilen
    unfold heapParent at hpar
    omega

theorem isHeap_root_min (l : List HuffNode) (h : IsHeap l) :
    ∀ i, i < l.length → hfreq (pqGet l 0) ≤ hfreq (pqGet l i) := by
  intro i
  induction i using Nat.strong_induction_on with
  | _ i ih =>
    intro hi
    rcases Nat.eq_zero_or_pos i with h0 | hpos
    · subst h0
      exact le_refl _
    · have hp := h i hpos hi
      have hrec := ih (heapParent i) (heapParent_lt i hpos)
        (lt_trans (heapParent_lt i hpos) hi)
      exact le_trans hrec hp

/-- Heap order except below hole `k`: all parent edges hold except those
out of `k`, and `k`'s parent dominates `k`'s children. -/
def HeapExceptDown (l : List HuffNode) (k : ℕ) : Prop :=
  (∀ i : ℕ, 0 < i → i < l.length → heapParent i ≠ k →
    hfreq (pqGet l (heapParent i)) ≤ hfreq (pqGet l i)) ∧
  (∀ i : ℕ, 0 < i → i < l.length → heapParent i = k → 0 < k →
    hfreq (pqGet l (heapParent k)) ≤ hfreq (pqGet l i))

theorem lget_eq_default {α : Type} (d : α) (l : List α) (i : ℕ)
    (h : l.length ≤ i) : lget d l i = d := by
  induction l generalizing i with
  | nil => cases i <;> rfl
  | cons x xs ih =>
    cases i with
    | zero => simp at h
    | succ j =>
      simp only [List.length_cons] at h
      exact ih j (by omega)

theorem pq_bubble_down_length :
    ∀ (fuel : ℕ) (l : List HuffNode) (k : ℕ),
    (pq_bubble_down fuel l k).length = l.length := by
  intro fuel
  induction fuel with
  | zero => intro l k; rfl
  | succ f ih =>
    intro l k
    simp only [pq_bubble_down]
    by_cases h : (if 2 * k + 2 < l.length ∧
        hfreq (pqGet l (2 * k + 2)) < hfreq (pqGet l (if 2 * k + 1 < l.length ∧
          hfreq (pqGet l (2 * k + 1)) < hfreq (pqGet l k) then 2 * k + 1 else k))
        then 2 * k + 2
        else if 2 * k + 1 < l.length ∧
          hfreq (pqGet l (2 * k + 1)) < hfreq (pqGet l k) then 2 * k + 1 else k) = k
    · rw [if_pos h]
    · rw [if_neg h, ih, pqSwap_length]

theorem pq_bubble_down_multiset :
    ∀ (fuel : ℕ) (l : List HuffNode) (k : ℕ), k < l.length ∨ l.length = 0 →
    ((pq_bubble_down fuel l k : List HuffNode) : Multiset HuffNode) =
      (l : Multiset HuffNode) := by
  intro fuel
  induction fuel with
  | zero => intro l k _; rfl
  | succ f ih =>
    intro l k hk
    simp only [pq_bubble_down]
    set s1 := if 2 * k + 1 < l.length ∧
      hfreq (pqGet l (2 * k + 1)) < hfreq (pqGet l k) then 2 * k + 1 else k with hs1
    set s2 := if 2 * k + 2 < l.length ∧
      hfreq (pqGet l (2 * k + 2)) < hfreq (pqGet l s1) then 2 * k + 2 else s1 with hs2
    by_cases h : s2 = k
    · rw [if_pos h]
    · rw [if_neg h]
      have hs2len : s2 < l.length := by
        rw [hs2]
        split
        · omega
        · rw [hs1]
          split
          · omega
          · rcases hk with hk | hk
            · exact hk
            · exfalso
              apply h
              rw [hs2, hs1]
              have hh1 : ¬ (2 * k + 1 < l.length ∧
                  hfreq (pqGet l (2 * k + 1)) < hfreq (pqGet l k)) := by
                rw [hk]; omega
              have hh2 : ¬ (2 * k + 2 < l.length ∧
                  hfreq (pqGet l (2 * k + 2)) < hfreq (pqGet l
                    (if 2 * k + 1 < l.length ∧
                      hfreq (pqGet l (2 * k + 1)) < hfreq (pqGet l k)
                      then 2 * k + 1 else k))) := by
                rw [hk]; omega
              rw [if_neg hh2, if_neg hh1]
      have hklen : k < l.length := by
        rcases hk with hk | hk
        · exact hk
        · omega
      rw [ih _ _ (Or.inl (by rw [pqSwap_length]; exact hs2len)),
        pqSwap_multiset _ _ _ hklen hs2len]

theorem pq_bubble_down_heap :
    ∀ (fuel : ℕ) (l : List HuffNode) (k : ℕ), l.length ≤ fuel + k →
    HeapExceptDown l k → IsHeap (pq_bubble_down fuel l k) := by
  intro fuel
  induction fuel with
  | zero =>
    intro l k hfuel hex
    show IsHeap l
    intro i hi hilen
    apply hex.1 i hi hilen
    have := heapParent_lt i hi
    omega
  | succ f ih =>
    intro l k hfuel hex
    simp only [pq_bubble_down]
    set s1 := if 2 * k + 1 < l.length ∧
      hfreq (pqGet l (2 * k + 1)) < hfreq (pqGet l k) then 2 * k + 1 else k with hs1
    set s2 := if 2 * k + 2 < l.length ∧
      hfreq (pqGet l (2 * k + 2)) < hfreq (pqGet l s1) then 2 * k + 2 else s1 with hs2
    by_cases h : s2 = k
    · rw [if_pos h]
      have hs1k : s1 = k := by
        rw [hs2] at h
        by_cases hc : 2 * k + 2 < l.length ∧
            hfreq (pqGet l (2 * k + 2)) < hfreq (pqGet l s1)
        · rw [if_pos hc] at h; omega
        · rw [if_neg hc] at h; exact h
      have hleft : 2 * k + 1 < l.length →
          hfreq (pqGet l k) ≤ hfreq (pqGet l (2 * k + 1)) := by
        intro hlen
        rw [hs1] at hs1k
        by_cases hc : 2 * k + 1 < l.length ∧
            hfreq (pqGet l (2 * k + 1)) < hfreq (pqGet l k)
        · rw [if_pos hc] at hs1k; omega
        · push_neg at hc
          exact hc hlen
      have hright : 2 * k + 2 < l.length →
          hfreq (pqGet l k) ≤ hfreq (pqGet l (2 * k + 2)) := by
        intro hlen
        rw [hs2, hs1k] at h
        by_cases hc : 2 * k + 2 < l.length ∧
            hfreq (pqGet l (2 * k + 2)) < hfreq (pqGet l k)
        · rw [if_pos hc] at h; omega
        · push_neg at hc
          exact hc hlen
      intro i hi hilen
      by_cases hpik : heapParent i = k
      · have : i = 2 * k + 1 ∨ i = 2 * k + 2 := by
          unfold heapParent at hpik; omega
        rcases this with hieq | hieq
        · subst hieq; rw [hpik]; exact hleft hilen
        · subst hieq; rw [hpik]; exact hright hilen
      · exact hex.1 i hi hilen hpik
    · rw [if_neg h]
      -- a swap happens: s2 ∈ {2k+1, 2k+2}, within range, strictly smaller
      have hs2cases : (s2 = 2 * k + 1 ∧ 2 * k + 1 < l.length ∧
            hfreq (pqGet l (2 * k + 1)) < hfreq (pqGet l k) ∧
            (2 * k + 2 < l.length →
              hfreq (pqGet l (2 * k + 1)) ≤ hfreq (pqGet l (2 * k + 2)))) ∨
          (s2 = 2 * k + 2 ∧ 2 * k + 2 < l.length ∧
            hfreq (pqGet l (2 * k + 2)) < hfreq (pqGet l k) ∧
            (2 * k + 1 < l.length →
              hfreq (pqGet l (2 * k + 2)) ≤ hfreq (pqGet l (2 * k + 1)))) := by
        rw [hs2]
        by_cases hc2 : 2 * k + 2 < l.length ∧
            hfreq (pqGet l (2 * k + 2)) < hfreq (pqGet l s1)
        · rw [if_pos hc2]
          right
          refine ⟨rfl, hc2.1, ?_, ?_⟩
          · rw [hs1] at hc2
            by_cases hc1 : 2 * k + 1 < l.length ∧
                hfreq (pqGet l (2 * k + 1)) < hfreq (pqGet l k)
            · rw [if_pos hc1] at hc2
              exact lt_trans hc2.2 hc1.2
            · rw [if_neg hc1] at hc2
              exact hc2.2
          · intro hlen1
            rw [hs1] at hc2
            by_cases hc1 : 2 * k + 1 < l.length ∧
                hfreq (pqGet l (2 * k + 1)) < hfreq (pqGet l k)
            · rw [if_pos hc1] at hc2
              exact le_of_lt hc2.2
            · rw [if_neg hc1] at hc2
              push_neg at hc1
              exact le_trans (le_of_lt hc2.2) (hc1 hlen1)
        · rw [if_neg hc2]
          left
          have hs1left : s1 = 2 * k + 1 := by
            rw [hs1]
            by_cases hc1 : 2 * k + 1 < l.length ∧
                hfreq (pqGet l (2 * k + 1)) < hfreq (pqGet l k)
            · rw [if_pos hc1]
            · rw [if_neg hc1]
              exfalso
              apply h
              rw [hs2, if_neg hc2, hs1, if_neg hc1]
          have hc1 : 2 * k + 1 < l.length ∧
              hfreq (pqGet l (2 * k + 1)) < hfreq (pqGet l k) := by
            rw [hs1] at hs1left
            by_cases hc1 : 2 * k + 1 < l.length ∧
                hfreq (pqGet l (2 * k + 1)) < hfreq (pqGet l k)
            · exact hc1
            · rw [if_neg hc1] at hs1left; omega
          refine ⟨hs1left, hc1.1, hc1.2, ?_⟩
          intro hlen2
          push_neg at hc2
          rw [hs1left] at hc2
          exact hc2 hlen2
      have hklen : k < l.length := by
        rcases hs2cases with ⟨_, hlen, _, _⟩ | ⟨_, hlen, _, _⟩ <;> omega
      have hs2len : s2 < l.length := by
        rcases hs2cases with ⟨he, hlen, _, _⟩ | ⟨he, hlen, _, _⟩ <;> omega
      have hs2gt : 2 * k + 1 ≤ s2 ∧ s2 ≤ 2 * k + 2 := by
        rcases hs2cases with ⟨he, _, _, _⟩ | ⟨he, _, _, _⟩ <;> omega
      have hs2ltk : hfreq (pqGet l s2) < hfreq (pqGet l k) := by
        rcases hs2cases with ⟨he, _, hlt, _⟩ | ⟨he, _, hlt, _⟩ <;> rw [he] <;>
          exact hlt
      have hs2min : ∀ c, (c = 2 * k + 1 ∨ c = 2 * k + 2) → c < l.length →
          hfreq (pqGet l s2) ≤ hfreq (pqGet l c) := by
        intro c hc hclen
        rcases hs2cases with ⟨he, _, hlt, hmin⟩ | ⟨he, _, hlt, hmin⟩
        · rcases hc with hc | hc
          · subst hc; rw [he]
          · subst hc; rw [he]; exact hmin hclen
        · rcases hc with hc | hc
          · subst hc; rw [he]; exact hmin hclen
          · subst hc; rw [he]
      have hkne : k ≠ s2 := fun he => h he.symm
      have hget_k : pqGet (pqSwap l k s2) k = pqGet l s2 :=
        pqGet_swap_fst l k s2 hklen hkne
      have hget_s2 : pqGet (pqSwap l k s2) s2 = pqGet l k :=
        pqGet_swap_snd l k s2 hs2len
      apply ih _ s2 (by rw [pqSwap_length]; omega)
      constructor
      · intro i hi hilen hpis2
        rw [pqSwap_length] at hilen
        by_cases hpik : heapParent i = k
        · by_cases his2 : i = s2
          · subst his2
            rw [hpik, hget_k, hget_s2]
            exact le_of_lt hs2ltk
          · have hick : i = 2 * k + 1 ∨ i = 2 * k + 2 := by
              unfold heapParent at hpik; omega
            have hik : i ≠ k := by omega
            rw [hpik, hget_k, pqGet_swap_other l _ _ i hik his2]
            exact hs2min i hick hilen
        · by_cases hik : i = k
          · subst hik
            have hk0 : 0 < i := hi
            have hppne : heapParent i ≠ i := by
              have := heapParent_lt i hi; omega
            have hppne2 : heapParent i ≠ s2 := by
              have := heapParent_lt i hi; omega
            rw [hget_k, pqGet_swap_other l _ _ _ hppne hppne2]
            have h2 := hex.2 s2 (by omega) hs2len
              (by unfold heapParent; omega) hi
            exact h2
          · by_cases his2 : i = s2
            · exact absurd (by unfold heapParent at *; omega : heapParent i = k)
                hpik
            · have hpine : heapParent i ≠ k := hpik
              rw [pqGet_swap_other l _ _ i hik his2,
                pqGet_swap_other l _ _ (heapParent i) hpik hpis2]
              exact hex.1 i hi hilen hpik
      · intro i hi hilen hpi hs2pos
        rw [pqSwap_length] at hilen
        have hiks : i ≠ k ∧ i ≠ s2 := by
          unfold heapParent at hpi; omega
        have hpar2 : heapParent s2 = k := by
          unfold heapParent; omega
        rw [hpar2, hget_k, pqGet_swap_other l _ _ i hiks.1 hiks.2, ← hpi]
        exact hex.1 i hi hilen (by rw [hpi]; exact h)

theorem lget_dropLast {α : Type} (d : α) (l : List α) (i : ℕ)
    (h : i + 1 < l.length) : lget d l.dropLast i = lget d l i := by
  induction l generalizing i with
  | nil => simp at h
  | cons x xs ih =>
    cases xs with
    | nil => simp at h
    | cons y ys =>
      cases i with
      | zero => rfl
      | succ j =>
        simp only [List.length_cons] at h
        show lget d (y :: ys).dropLast j = lget d (y :: ys) j
        exact ih j (by simp only [List.length_cons]; omega)

theorem multiset_dropLast {α : Type} (d : α) (l : List α) (h : 0 < l.length) :
    (l.dropLast : Multiset α) + {lget d l (l.length - 1)} = (l : Multiset α) := by
  induction l with
  | nil => simp at h
  | cons x xs ih =>
    cases xs with
    | nil =>
      show (([] : List α) : Multiset α) + {x} = ((x :: [] : List α) : Multiset α)
      simp
    | cons y ys =>
      have h2 := ih (by simp)
      show ((x :: (y :: ys).dropLast : List α) : Multiset α) +
        {lget d (y :: ys) ((y :: ys).length - 1)} =
        ((x :: y :: ys : List α) : Multiset α)
      rw [← Multiset.cons_coe, ← Multiset.cons_coe, ← Multiset.singleton_add,
        ← Multiset.singleton_add, add_assoc, h2]

theorem lget_mem_exists {α : Type} (d : α) (l : List α) (x : α) (h : x ∈ l) :
    ∃ i, i < l.length ∧ lget d l i = x := by
  induction l with
  | nil => simp at h
  | cons y ys ih =>
    rw [List.mem_cons] at h
    rcases h with h | h
    · exact ⟨0, by simp, h.symm⟩
    · obtain ⟨i, hi, hget⟩ := ih h
      exact ⟨i + 1, by simp only [List.length_cons]; omega, hget⟩

/-- `pq_pop` on a nonempty heap: it returns the root, which is the
minimum; the remaining array is one shorter, is again a heap, and holds
exactly the other elements. -/
theorem pq_pop_spec (l : List HuffNode) (hne : l.length ≠ 0) (h : IsHeap l) :
    (pq_pop l).1 = some (pqGet l 0) ∧
    (pq_pop l).2.length = l.length - 1 ∧
    IsHeap (pq_pop l).2 ∧
    ((pq_pop l).2 : Multiset HuffNode) + {pqGet l 0} = (l : Multiset HuffNode) := by
  have hpq : pq_pop l = (some (pqGet l 0),
      pq_bubble_down ((lset l 0 (pqGet l (l.length - 1))).dropLast).length
        ((lset l 0 (pqGet l (l.length - 1))).dropLast) 0) := by
    unfold pq_pop
    rw [if_neg hne]
  set l2 := (lset l 0 (pqGet l (l.length - 1))).dropLast with hl2
  have hl2len : l2.length = l.length - 1 := by
    rw [hl2, List.length_dropLast, lset_length]
  have hget2 : ∀ j, 0 < j → j < l2.length → pqGet l2 j = pqGet l j := by
    intro j hj hjlen
    show lget HuffNode.nil l2 j = lget HuffNode.nil l j
    rw [hl2, lget_dropLast _ _ _ (by rw [lset_length]; omega),
      lget_lset_ne _ _ _ _ _ (by omega)]
  have hexd : HeapExceptDown l2 0 := by
    constructor
    · intro i hi hilen hpi
      have hp_pos : 0 < heapParent i := Nat.pos_of_ne_zero hpi
      have hp_lt : heapParent i < i := heapParent_lt i hi
      rw [hget2 i hi hilen, hget2 (heapParent i) hp_pos (by omega)]
      exact h i hi (by omega)
    · intro i _ _ _ hk
      exact absurd hk (lt_irrefl 0)
  have hheap := pq_bubble_down_heap l2.length l2 0 (by omega) hexd
  have hmul0 := pq_bubble_down_multiset l2.length l2 0 (by omega)
  have hlast : lget HuffNode.nil (lset l 0 (pqGet l (l.length - 1))) (l.length - 1)
      = pqGet l (l.length - 1) := by
    by_cases h0 : l.length - 1 = 0
    · rw [h0]
      exact lget_lset_self HuffNode.nil l 0 (pqGet l 0) (by omega)
    · rw [lget_lset_ne _ _ _ _ _ h0]
      rfl
  have hdrop := multiset_dropLast HuffNode.nil (lset l 0 (pqGet l (l.length - 1)))
    (by rw [lset_length]; omega)
  rw [lset_length, hlast, ← hl2] at hdrop
  have hmlset := multiset_lset HuffNode.nil l 0 (pqGet l (l.length - 1)) (by omega)
  rw [show lget HuffNode.nil l 0 = pqGet l 0 from rfl] at hmlset
  refine ⟨?_, ?_, ?_, ?_⟩
  · rw [hpq]
  · rw [hpq]
    show (pq_bubble_down l2.length l2 0).length = l.length - 1
    rw [pq_bubble_down_length, hl2len]
  · rw [hpq]
    exact hheap
  · rw [hpq]
    show ((pq_bubble_down l2.length l2 0 : List HuffNode) : Multiset HuffNode) +
      {pqGet l 0} = (l : Multiset HuffNode)
    rw [hmul0]
    refine add_right_cancel (b := ({pqGet l (l.length - 1)} : Multiset HuffNode)) ?_
    rw [add_right_comm, hdrop, hmlset]

/-! ### The merge loop as a step-indexed process

`tree_step` is one iteration of the `while (pq->size > 1)` loop of
`build_huffman_codes`; `run_from` iterates it. -/

def tree_step (st : List HuffNode × ℕ) : List HuffNode × ℕ :=
  let p1 := pq_pop st.1
  let p2 := pq_pop p1.2
  let left := p1.1.getD HuffNode.nil
  let right := p2.1.getD HuffNode.nil
  let parent := HuffNode.mk st.2 (-1) ((hfreq left + hfreq right) % UINT_MOD)
    left right
  (pq_push p2.2 parent, st.2 + 1)

def run_from (st : List HuffNode × ℕ) : ℕ → List HuffNode × ℕ
  | 0 => st
  | s + 1 => tree_step (run_from st s)

theorem run_from_shift (st : List HuffNode × ℕ) :
    ∀ s, run_from (tree_step st) s = run_from st (s + 1) := by
  intro s
  induction s with
  | zero => rfl
  | succ n ih =>
    show tree_step (run_from (tree_step st) n) = tree_step (run_from st (n + 1))
    rw [ih]

theorem run_from_snd (st : List HuffNode × ℕ) :
    ∀ s, (run_from st s).2 = st.2 + s := by
  intro s
  induction s with
  | zero => rfl
  | succ n ih =>
    show (tree_step (run_from st n)).2 = st.2 + (n + 1)
    have h : (tree_step (run_from st n)).2 = (run_from st n).2 + 1 := rfl
    rw [h, ih]
    omega

theorem pq_pop_len (l : List HuffNode) (h : l.length ≠ 0) :
    (pq_pop l).2.length = l.length - 1 := by
  unfold pq_pop
  rw [if_neg h]
  show (pq_bubble_down _ _ 0).length = _
  rw [pq_bubble_down_length, List.length_dropLast, lset_length]

theorem tree_step_len (st : List HuffNode × ℕ) (h : 2 ≤ st.1.length) :
    (tree_step st).1.length = st.1.length - 1 := by
  show (pq_push (pq_pop (pq_pop st.1).2).2 _).length = _
  rw [pq_push_length, pq_pop_len _ (by rw [pq_pop_len _ (by omega)]; omega),
    pq_pop_len _ (by omega)]
  omega

theorem build_tree_loop_eq_run :
    ∀ (fuel : ℕ) (pq : List HuffNode) (id : ℕ), pq.length ≤ fuel + 1 →
    build_tree_loop fuel pq id = (run_from (pq, id) (pq.length - 1)).1 := by
  intro fuel
  induction fuel with
  | zero =>
    intro pq id h
    have h0 : pq.length - 1 = 0 := by omega
    rw [h0]
    rfl
  | succ f ih =>
    intro pq id h
    by_cases h1 : pq.length ≤ 1
    · have h0 : pq.length - 1 = 0 := by omega
      rw [h0]
      simp only [build_tree_loop]
      rw [if_pos h1]
      rfl
    · push_neg at h1
      simp only [build_tree_loop]
      rw [if_neg (by omega)]
      show build_tree_loop f (tree_step (pq, id)).1 (tree_step (pq, id)).2 = _
      have hlen : (tree_step (pq, id)).1.length = pq.length - 1 :=
        tree_step_len (pq, id) (by show 2 ≤ pq.length; omega)
      rw [ih _ _ (by rw [hlen]; omega), Prod.mk.eta, hlen, run_from_shift]
      have h2 : pq.length - 1 - 1 + 1 = pq.length - 1 := by omega
      rw [h2]

/-- The leaf created for index `i` by the first loop of
`build_huffman_codes`. -/
def leafNode (symbols : List ℤ) (freqs : List ℕ) (i : ℕ) : HuffNode :=
  create_huffman_node i (lget 0 symbols i) (lget 0 freqs i)

theorem initial_pq_succ (symbols : List ℤ) (freqs : List ℕ) (n : ℕ) :
    initial_pq symbols freqs (n + 1) =
      pq_push (initial_pq symbols freqs n) (leafNode symbols freqs n) := by
  unfold initial_pq
  rw [List.range_succ, List.foldl_append]
  rfl

theorem initial_pq_length (symbols : List ℤ) (freqs : List ℕ) :
    ∀ n, (initial_pq symbols freqs n).length = n := by
  intro n
  induction n with
  | zero => rfl
  | succ k ih => rw [initial_pq_succ, pq_push_length, ih]

theorem initial_pq_multiset (symbols : List ℤ) (freqs : List ℕ) :
    ∀ n, ((initial_pq symbols freqs n : List HuffNode) : Multiset HuffNode) =
      (((List.range n).map (leafNode symbols freqs) : List HuffNode) :
        Multiset HuffNode) := by
  intro n
  induction n with
  | zero => rfl
  | succ k ih =>
    rw [initial_pq_succ, pq_push_multiset, ih, List.range_succ, List.map_append,
      ← Multiset.coe_add]
    have hm : List.map (leafNode symbols freqs) [k] = [leafNode symbols freqs k] :=
      rfl
    have hx : (([leafNode symbols freqs k] : List HuffNode) : Multiset HuffNode) =
        {leafNode symbols freqs k} := rfl
    rw [hm, hx, ← Multiset.singleton_add, add_comm]

theorem isHeap_nil : IsHeap ([] : List HuffNode) := by
  intro i _ hlen
  simp at hlen

theorem initial_pq_heap (symbols : List ℤ) (freqs : List ℕ) :
    ∀ n, IsHeap (initial_pq symbols freqs n) := by
  intro n
  induction n with
  | zero => exact isHeap_nil
  | succ k ih => rw [initial_pq_succ]; exact pq_push_heap _ _ ih

/-! ### Shape, leaves and ids of a Huffman tree -/

def hheight : HuffNode → ℕ
  | HuffNode.nil => 0
  | HuffNode.mk _ _ _ l r =>
    if l = HuffNode.nil ∧ r = HuffNode.nil then 0
    else 1 + max (hheight l) (hheight r)

def leafSyms : HuffNode → List ℤ
  | HuffNode.nil => []
  | HuffNode.mk _ s _ l r =>
    if l = HuffNode.nil ∧ r = HuffNode.nil then [s]
    else leafSyms l ++ leafSyms r

def leafFreqs : HuffNode → List ℕ
  | HuffNode.nil => []
  | HuffNode.mk _ _ f l r =>
    if l = HuffNode.nil ∧ r = HuffNode.nil then [f]
    else leafFreqs l ++ leafFreqs r

def nodeIds : HuffNode → List ℕ
  | HuffNode.nil => []
  | HuffNode.mk i _ _ l r => i :: (nodeIds l ++ nodeIds r)

def isFullBin : HuffNode → Bool
  | HuffNode.nil => false
  | HuffNode.mk _ _ _ l r =>
    if l = HuffNode.nil ∧ r = HuffNode.nil then true
    else isFullBin l && isFullBin r

theorem isFullBin_ne_nil (t : HuffNode) (h : isFullBin t = true) :
    t ≠ HuffNode.nil := by
  intro he
  subst he
  simp [isFullBin] at h

/-! ### Pops and remainders of one merge step -/

def poolAt (init : List HuffNode × ℕ) (s : ℕ) : List HuffNode :=
  (run_from init s).1

def popA (l : List HuffNode) : HuffNode := (pq_pop l).1.getD HuffNode.nil

def rem1 (l : List HuffNode) : List HuffNode := (pq_pop l).2

def popB (l : List HuffNode) : HuffNode := (pq_pop (rem1 l)).1.getD HuffNode.nil

def rem2 (l : List HuffNode) : List HuffNode := (pq_pop (rem1 l)).2

def mergedParent (l : List HuffNode) (nid : ℕ) : HuffNode :=
  HuffNode.mk nid (-1) ((hfreq (popA l) + hfreq (popB l)) % UINT_MOD)
    (popA l) (popB l)

theorem tree_step_eq (st : List HuffNode × ℕ) :
    tree_step st = (pq_push (rem2 st.1) (mergedParent st.1 st.2), st.2 + 1) := rfl

theorem poolAt_succ (init : List HuffNode × ℕ) (s : ℕ) :
    poolAt init (s + 1) =
      pq_push (rem2 (poolAt init s)) (mergedParent (poolAt init s) (init.2 + s)) := by
  show (tree_step (run_from init s)).1 = _
  rw [tree_step_eq, run_from_snd]
  rfl

def poolSyms (l : List HuffNode) : Multiset ℤ :=
  (l : Multiset HuffNode).bind (fun t => (leafSyms t : Multiset ℤ))

def poolFreqs (l : List HuffNode) : Multiset ℕ :=
  (l : Multiset HuffNode).bind (fun t => (leafFreqs t : Multiset ℕ))

def poolIds (l : List HuffNode) : Multiset ℕ :=
  (l : Multiset HuffNode).bind (fun t => (nodeIds t : Multiset ℕ))

theorem pq_pop_fst (l : List HuffNode) (h : l.length ≠ 0) :
    (pq_pop l).1 = some (pqGet l 0) := by
  unfold pq_pop
  rw [if_neg h]

theorem popA_eq (l : List HuffNode) (h : l.length ≠ 0) : popA l = pqGet l 0 := by
  unfold popA
  rw [pq_pop_fst l h]
  rfl

theorem rem1_len (l : List HuffNode) (h : l.length ≠ 0) :
    (rem1 l).length = l.length - 1 := pq_pop_len l h

theorem rem1_heap (l : List HuffNode) (hl : IsHeap l) (h : l.length ≠ 0) :
    IsHeap (rem1 l) := (pq_pop_spec l h hl).2.2.1

theorem rem1_multiset (l : List HuffNode) (hl : IsHeap l) (h : l.length ≠ 0) :
    ((rem1 l : List HuffNode) : Multiset HuffNode) + {popA l} =
      (l : Multiset HuffNode) := by
  rw [popA_eq l h]
  exact (pq_pop_spec l h hl).2.2.2

theorem popB_eq (l : List HuffNode) (hl : 2 ≤ l.length) :
    popB l = pqGet (rem1 l) 0 := by
  unfold popB
  rw [pq_pop_fst (rem1 l) (by rw [rem1_len l (by omega)]; omega)]
  rfl

theorem rem2_len (l : List HuffNode) (h : 2 ≤ l.length) :
    (rem2 l).length = l.length - 2 := by
  show (pq_pop (rem1 l)).2.length = _
  rw [pq_pop_len (rem1 l) (by rw [rem1_len l (by omega)]; omega),
    rem1_len l (by omega)]
  omega

theorem rem2_heap (l : List HuffNode) (hl : IsHeap l) (h : 2 ≤ l.length) :
    IsHeap (rem2 l) :=
  (pq_pop_spec (rem1 l) (by rw [rem1_len l (by omega)]; omega)
    (rem1_heap l hl (by omega))).2.2.1

theorem rem2_multiset (l : List HuffNode) (hl : IsHeap l) (h : 2 ≤ l.length) :
    ((rem2 l : List HuffNode) : Multiset HuffNode) + {popB l} =
      ((rem1 l : List HuffNode) : Multiset HuffNode) := by
  rw [popB_eq l h]
  exact (pq_pop_spec (rem1 l) (by rw [rem1_len l (by omega)]; omega)
    (rem1_heap l hl (by omega))).2.2.2

theorem pool_decomp (l : List HuffNode) (hl : IsHeap l) (h : 2 ≤ l.length) :
    (l : Multiset HuffNode) =
      ((rem2 l : List HuffNode) : Multiset HuffNode) + {popB l} + {popA l} := by
  rw [rem2_multiset l hl h, rem1_multiset l hl (by omega)]

theorem popA_min (l : List HuffNode) (hl : IsHeap l) (h : l.length ≠ 0) :
    ∀ x ∈ l, hfreq (popA l) ≤ hfreq x := by
  intro x hx
  obtain ⟨i, hi, hg⟩ := lget_mem_exists HuffNode.nil l x hx
  rw [popA_eq l h]
  have hmin := isHeap_root_min l hl i hi
  rw [show lget HuffNode.nil l i = pqGet l i from rfl] at hg
  rw [← hg]
  exact hmin

theorem popB_min (l : List HuffNode) (hl : IsHeap l) (h : 2 ≤ l.length) :
    ∀ x ∈ rem1 l, hfreq (popB l) ≤ hfreq x := by
  intro x hx
  have := popA_min (rem1 l) (rem1_heap l hl (by omega))
    (by rw [rem1_len l (by omega)]; omega) x hx
  rw [popA_eq (rem1 l) (by rw [rem1_len l (by omega)]; omega)] at this
  rw [popB_eq l h]
  exact this

theorem popB_mem (l : List HuffNode) (hl : IsHeap l) (h : 2 ≤ l.length) :
    popB l ∈ l := by
  rw [← Multiset.mem_coe, pool_decomp l hl h]
  simp

theorem popA_mem (l : List HuffNode) (hl : IsHeap l) (h : l.length ≠ 0) :
    popA l ∈ l := by
  rw [← Multiset.mem_coe, ← rem1_multiset l hl h]
  simp

theorem popA_le_popB (l : List HuffNode) (hl : IsHeap l) (h : 2 ≤ l.length) :
    hfreq (popA l) ≤ hfreq (popB l) :=
  popA_min l hl (by omega) (popB l) (popB_mem l hl h)

theorem leafSyms_internal (i : ℕ) (s : ℤ) (f : ℕ) (A B : HuffNode)
    (hA : A ≠ HuffNode.nil) :
    leafSyms (HuffNode.mk i s f A B) = leafSyms A ++ leafSyms B := by
  simp only [leafSyms]
  rw [if_neg (by tauto)]

theorem leafFreqs_internal (i : ℕ) (s : ℤ) (f : ℕ) (A B : HuffNode)
    (hA : A ≠ HuffNode.nil) :
    leafFreqs (HuffNode.mk i s f A B) = leafFreqs A ++ leafFreqs B := by
  simp only [leafFreqs]
  rw [if_neg (by tauto)]

theorem isFullBin_internal (i : ℕ) (s : ℤ) (f : ℕ) (A B : HuffNode)
    (hA : A ≠ HuffNode.nil) :
    isFullBin (HuffNode.mk i s f A B) = (isFullBin A && isFullBin B) := by
  simp only [isFullBin]
  rw [if_neg (by tauto)]

theorem hheight_internal (i : ℕ) (s : ℤ) (f : ℕ) (A B : HuffNode)
    (hA : A ≠ HuffNode.nil) :
    hheight (HuffNode.mk i s f A B) = 1 + max (hheight A) (hheight B) := by
  simp only [hheight]
  rw [if_neg (by tauto)]

/-- Well-formedness of a single pool tree: full binary, and the stored
32-bit frequency is exactly the sum of its leaf frequencies. -/
def WfTree (t : HuffNode) : Prop :=
  isFullBin t = true ∧ hfreq t = (leafFreqs t).sum

/-- The rolling invariant of the merge loop: the pool is a heap of
well-formed trees whose node ids are distinct and below the next id. -/
def StInv (st : List HuffNode × ℕ) : Prop :=
  IsHeap st.1 ∧
  (∀ t ∈ st.1, WfTree t) ∧
  (poolIds st.1).Nodup ∧
  (∀ i ∈ poolIds st.1, i < st.2)

theorem poolIds_step (l : List HuffNode) (nid : ℕ) (hl : IsHeap l)
    (h2 : 2 ≤ l.length) :
    poolIds (pq_push (rem2 l) (mergedParent l nid)) = nid ::ₘ poolIds l := by
  show ((pq_push (rem2 l) (mergedParent l nid) : List HuffNode) :
    Multiset HuffNode).bind (fun t => (nodeIds t : Multiset ℕ)) = _
  rw [pq_push_multiset, Multiset.cons_bind,
    show nodeIds (mergedParent l nid) =
      nid :: (nodeIds (popA l) ++ nodeIds (popB l)) from rfl,
    ← Multiset.cons_coe, ← Multiset.coe_add]
  show _ = nid ::ₘ (l : Multiset HuffNode).bind (fun t => (nodeIds t : Multiset ℕ))
  rw [pool_decomp l hl h2, Multiset.add_bind, Multiset.add_bind,
    Multiset.singleton_bind, Multiset.singleton_bind,
    ← Multiset.singleton_add, ← Multiset.singleton_add]
  abel

theorem poolSyms_step (l : List HuffNode) (nid : ℕ) (hl : IsHeap l)
    (h2 : 2 ≤ l.length) (hAne : popA l ≠ HuffNode.nil) :
    poolSyms (pq_push (rem2 l) (mergedParent l nid)) = poolSyms l := by
  show ((pq_push (rem2 l) (mergedParent l nid) : List HuffNode) :
    Multiset HuffNode).bind (fun t => (leafSyms t : Multiset ℤ)) = _
  rw [pq_push_multiset, Multiset.cons_bind,
    show leafSyms (mergedParent l nid) = leafSyms (popA l) ++ leafSyms (popB l)
      from leafSyms_internal _ _ _ _ _ hAne,
    ← Multiset.coe_add]
  show _ = (l : Multiset HuffNode).bind (fun t => (leafSyms t : Multiset ℤ))
  rw [pool_decomp l hl h2, Multiset.add_bind, Multiset.add_bind,
    Multiset.singleton_bind, Multiset.singleton_bind]
  abel

theorem poolFreqs_step (l : List HuffNode) (nid : ℕ) (hl : IsHeap l)
    (h2 : 2 ≤ l.length) (hAne : popA l ≠ HuffNode.nil) :
    poolFreqs (pq_push (rem2 l) (mergedParent l nid)) = poolFreqs l := by
  show ((pq_push (rem2 l) (mergedParent l nid) : List HuffNode) :
    Multiset HuffNode).bind (fun t => (leafFreqs t : Multiset ℕ)) = _
  rw [pq_push_multiset, Multiset.cons_bind,
    show leafFreqs (mergedParent l nid) = leafFreqs (popA l) ++ leafFreqs (popB l)
      from leafFreqs_internal _ _ _ _ _ hAne,
    ← Multiset.coe_add]
  show _ = (l : Multiset HuffNode).bind (fun t => (leafFreqs t : Multiset ℕ))
  rw [pool_decomp l hl h2, Multiset.add_bind, Multiset.add_bind,
    Multiset.singleton_bind, Multiset.singleton_bind]
  abel

theorem poolFreqs_decomp_sum (l : List HuffNode) (hl : IsHeap l)
    (h2 : 2 ≤ l.length) :
    (poolFreqs l).sum = (poolFreqs (rem2 l)).sum + (leafFreqs (popB l)).sum +
      (leafFreqs (popA l)).sum := by
  rw [show poolFreqs l = ((l : Multiset HuffNode).bind
    (fun t => (leafFreqs t : Multiset ℕ))) from rfl]
  rw [pool_decomp l hl h2, Multiset.add_bind, Multiset.add_bind,
    Multiset.singleton_bind, Multiset.singleton_bind, Multiset.sum_add,
    Multiset.sum_add, Multiset.sum_coe, Multiset.sum_coe]
  rfl

theorem merged_freq (l : List HuffNode) (nid : ℕ) (hl : IsHeap l)
    (h2 : 2 ≤ l.length) (hwf : ∀ t ∈ l, WfTree t)
    (hof : (poolFreqs l).sum < UINT_MOD) :
    hfreq (mergedParent l nid) = hfreq (popA l) + hfreq (popB l) := by
  have hA := hwf _ (popA_mem l hl (by omega))
  have hB := hwf _ (popB_mem l hl h2)
  have hsum := poolFreqs_decomp_sum l hl h2
  have hlt : hfreq (popA l) + hfreq (popB l) < UINT_MOD := by
    rw [hA.2, hB.2]
    omega
  show (hfreq (popA l) + hfreq (popB l)) % UINT_MOD = _
  exact Nat.mod_eq_of_lt hlt

theorem merged_wf (l : List HuffNode) (nid : ℕ) (hl : IsHeap l)
    (h2 : 2 ≤ l.length) (hwf : ∀ t ∈ l, WfTree t)
    (hof : (poolFreqs l).sum < UINT_MOD) :
    WfTree (mergedParent l nid) := by
  have hA := hwf _ (popA_mem l hl (by omega))
  have hB := hwf _ (popB_mem l hl h2)
  have hAne := isFullBin_ne_nil _ hA.1
  constructor
  · rw [show mergedParent l nid = HuffNode.mk nid (-1)
      ((hfreq (popA l) + hfreq (popB l)) % UINT_MOD) (popA l) (popB l) from rfl,
      isFullBin_internal _ _ _ _ _ hAne, hA.1, hB.1]
    rfl
  · rw [merged_freq l nid hl h2 hwf hof,
      show leafFreqs (mergedParent l nid) = leafFreqs (popA l) ++ leafFreqs (popB l)
        from leafFreqs_internal _ _ _ _ _ hAne,
      List.sum_append, hA.2, hB.2]

theorem mem_push_iff (l : List HuffNode) (x t : HuffNode) :
    t ∈ pq_push l x ↔ t ∈ l ∨ t = x := by
  rw [← Multiset.mem_coe, pq_push_multiset, Multiset.mem_cons, Multiset.mem_coe]
  tauto

theorem rem2_subset (l : List HuffNode) (hl : IsHeap l) (h2 : 2 ≤ l.length)
    (x : HuffNode) (hx : x ∈ rem2 l) : x ∈ l := by
  rw [← Multiset.mem_coe, pool_decomp l hl h2]
  rw [← Multiset.mem_coe] at hx
  simp only [Multiset.mem_add]
  tauto

theorem stInv_step (l : List HuffNode) (nid : ℕ) (h : StInv (l, nid))
    (hlen : 2 ≤ l.length) (hof : (poolFreqs l).sum < UINT_MOD) :
    StInv (pq_push (rem2 l) (mergedParent l nid), nid + 1) ∧
    (∀ x ∈ pq_push (rem2 l) (mergedParent l nid), hfreq (popB l) ≤ hfreq x) := by
  obtain ⟨hheap, hwf, hnodup, hbound⟩ := h
  have hA := hwf _ (popA_mem l hheap (by omega))
  have hAne := isFullBin_ne_nil _ hA.1
  have hids := poolIds_step l nid hheap hlen
  constructor
  · refine ⟨pq_push_heap _ _ (rem2_heap l hheap hlen), ?_, ?_, ?_⟩
    · intro t ht
      rw [mem_push_iff] at ht
      rcases ht with ht | ht
      · exact hwf t (rem2_subset l hheap hlen t ht)
      · rw [ht]
        exact merged_wf l nid hheap hlen hwf hof
    · rw [hids, Multiset.nodup_cons]
      exact ⟨fun hc => absurd (hbound nid hc) (lt_irrefl nid), hnodup⟩
    · intro i hi
      rw [hids, Multiset.mem_cons] at hi
      rcases hi with hi | hi
      · omega
      · have := hbound i hi
        omega
  · intro x hx
    rw [mem_push_iff] at hx
    rcases hx with hx | hx
    · refine popB_min l hheap hlen x ?_
      rw [← Multiset.mem_coe, ← rem2_multiset l hheap hlen, Multiset.mem_add,
        Multiset.mem_coe]
      exact Or.inl hx
    · rw [hx, merged_freq l nid hheap hlen hwf hof]
      omega

theorem stInv_run (init : List HuffNode × ℕ) (h0 : StInv init)
    (hof : (poolFreqs init.1).sum < UINT_MOD) :
    ∀ s, s + 1 ≤ init.1.length →
      StInv (run_from init s) ∧
      (poolAt init s).length = init.1.length - s ∧
      poolSyms (poolAt init s) = poolSyms init.1 ∧
      poolFreqs (poolAt init s) = poolFreqs init.1 := by
  intro s
  induction s with
  | zero =>
    intro _
    exact ⟨h0, by show init.1.length = init.1.length - 0; omega, rfl, rfl⟩
  | succ n ih =>
    intro hn
    obtain ⟨hinv, hlen, hsyms, hfr⟩ := ih (by omega)
    have h2 : 2 ≤ (poolAt init n).length := by omega
    have hofn : (poolFreqs (poolAt init n)).sum < UINT_MOD := by rw [hfr]; exact hof
    have hnid : (run_from init n).2 = init.2 + n := run_from_snd init n
    have hstep := stInv_step (poolAt init n) (init.2 + n)
      (by rw [← hnid]; exact hinv) h2 hofn
    have hps := poolAt_succ init n
    refine ⟨?_, ?_, ?_, ?_⟩
    · have : run_from init (n + 1) = (pq_push (rem2 (poolAt init n))
        (mergedParent (poolAt init n) (init.2 + n)), init.2 + n + 1) := by
        show tree_step (run_from init n) = _
        rw [tree_step_eq, hnid]
        rfl
      rw [this]
      exact hstep.1
    · rw [hps, pq_push_length, rem2_len _ h2]
      omega
    · rw [hps, poolSyms_step (poolAt init n) (init.2 + n) hinv.1 h2
        (isFullBin_ne_nil _ (hinv.2.1 _ (popA_mem (poolAt init n) hinv.1
          (by omega))).1), hsyms]
    · rw [hps, poolFreqs_step (poolAt init n) (init.2 + n) hinv.1 h2
        (isFullBin_ne_nil _ (hinv.2.1 _ (popA_mem (poolAt init n) hinv.1
          (by omega))).1), hfr]

theorem pool_heap (init : List HuffNode × ℕ) (h0 : StInv init)
    (hof : (poolFreqs init.1).sum < UINT_MOD) (s : ℕ)
    (hs : s + 1 ≤ init.1.length) : IsHeap (poolAt init s) :=
  (stInv_run init h0 hof s hs).1.1

theorem pool_wf (init : List HuffNode × ℕ) (h0 : StInv init)
    (hof : (poolFreqs init.1).sum < UINT_MOD) (s : ℕ)
    (hs : s + 1 ≤ init.1.length) : ∀ t ∈ poolAt init s, WfTree t :=
  (stInv_run init h0 hof s hs).1.2.1

theorem pool_len (init : List HuffNode × ℕ) (h0 : StInv init)
    (hof : (poolFreqs init.1).sum < UINT_MOD) (s : ℕ)
    (hs : s + 1 ≤ init.1.length) :
    (poolAt init s).length = init.1.length - s :=
  (stInv_run init h0 hof s hs).2.1

theorem pool_syms (init : List HuffNode × ℕ) (h0 : StInv init)
    (hof : (poolFreqs init.1).sum < UINT_MOD) (s : ℕ)
    (hs : s + 1 ≤ init.1.length) :
    poolSyms (poolAt init s) = poolSyms init.1 :=
  (stInv_run init h0 hof s hs).2.2.1

theorem pool_freqs (init : List HuffNode × ℕ) (h0 : StInv init)
    (hof : (poolFreqs init.1).sum < UINT_MOD) (s : ℕ)
    (hs : s + 1 ≤ init.1.length) :
    poolFreqs (poolAt init s) = poolFreqs init.1 :=
  (stInv_run init h0 hof s hs).2.2.2

theorem pool_ids_nodup (init : List HuffNode × ℕ) (h0 : StInv init)
    (hof : (poolFreqs init.1).sum < UINT_MOD) (s : ℕ)
    (hs : s + 1 ≤ init.1.length) : (poolIds (poolAt init s)).Nodup :=
  (stInv_run init h0 hof s hs).1.2.2.1

theorem pool_ids_bound (init : List HuffNode × ℕ) (h0 : StInv init)
    (hof : (poolFreqs init.1).sum < UINT_MOD) (s : ℕ)
    (hs : s + 1 ≤ init.1.length) :
    ∀ i ∈ poolIds (poolAt init s), i < init.2 + s := by
  have h := (stInv_run init h0 hof s hs).1.2.2.2
  rw [run_from_snd] at h
  exact h

/-- The internal node created by merge step `s` (its id is the C
`next_id` counter at that step). -/
def createdAt (init : List HuffNode × ℕ) (s : ℕ) : HuffNode :=
  mergedParent (poolAt init s) (init.2 + s)

theorem poolAt_succ_created (init : List HuffNode × ℕ) (s : ℕ) :
    poolAt init (s + 1) =
      pq_push (rem2 (poolAt init s)) (createdAt init s) :=
  poolAt_succ init s

theorem createdAt_mem (init : List HuffNode × ℕ) (s : ℕ) :
    createdAt init s ∈ poolAt init (s + 1) := by
  rw [poolAt_succ_created, mem_push_iff]
  exact Or.inr rfl

theorem createdAt_freq (init : List HuffNode × ℕ) (h0 : StInv init)
    (hof : (poolFreqs init.1).sum < UINT_MOD) (s : ℕ)
    (hs : s + 2 ≤ init.1.length) :
    hfreq (createdAt init s) =
      hfreq (popA (poolAt init s)) + hfreq (popB (poolAt init s)) :=
  merged_freq _ _ (pool_heap init h0 hof s (by omega))
    (by rw [pool_len init h0 hof s (by omega)]; omega)
    (pool_wf init h0 hof s (by omega))
    (by rw [pool_freqs init h0 hof s (by omega)]; exact hof)

/-- The nodes popped by the merge loop, flattened in pop order: index
`2s` is the first (left) pop of step `s`, index `2s+1` the second. -/
def flatPop (init : List HuffNode × ℕ) (i : ℕ) : HuffNode :=
  if i % 2 = 0 then popA (poolAt init (i / 2)) else popB (poolAt init (i / 2))

theorem flatPop_le_succ (init : List HuffNode × ℕ) (h0 : StInv init)
    (hof : (poolFreqs init.1).sum < UINT_MOD) (j : ℕ)
    (hj : (j + 1) / 2 + 2 ≤ init.1.length) :
    hfreq (flatPop init j) ≤ hfreq (flatPop init (j + 1)) := by
  rcases Nat.even_or_odd j with he | ho
  · obtain ⟨s, hs⟩ := he
    have hmod : j % 2 = 0 := by omega
    have hmod1 : (j + 1) % 2 = 1 := by omega
    have hdiv : j / 2 = s := by omega
    have hdiv1 : (j + 1) / 2 = s := by omega
    unfold flatPop
    rw [if_pos hmod, if_neg (by omega), hdiv, hdiv1]
    exact popA_le_popB _ (pool_heap init h0 hof s (by omega))
      (by rw [pool_len init h0 hof s (by omega)]; omega)
  · obtain ⟨s, hs⟩ := ho
    have hmod : j % 2 = 1 := by omega
    have hmod1 : (j + 1) % 2 = 0 := by omega
    have hdiv : j / 2 = s := by omega
    have hdiv1 : (j + 1) / 2 = s + 1 := by omega
    unfold flatPop
    rw [if_neg (by omega), if_pos hmod1, hdiv, hdiv1]
    have hlen : 2 ≤ (poolAt init s).length := by
      rw [pool_len init h0 hof s (by omega)]
      omega
    have hstep := (stInv_step (poolAt init s) (init.2 + s)
      (by rw [← run_from_snd init s]; exact (stInv_run init h0 hof s (by omega)).1)
      hlen (by rw [pool_freqs init h0 hof s (by omega)]; exact hof)).2
    refine hstep _ ?_
    rw [← poolAt_succ]
    refine popA_mem _ (pool_heap init h0 hof (s + 1) (by omega)) ?_
    rw [pool_len init h0 hof (s + 1) (by omega)]
    omega

theorem flatPop_chain (init : List HuffNode × ℕ) (h0 : StInv init)
    (hof : (poolFreqs init.1).sum < UINT_MOD) :
    ∀ j, j / 2 + 2 ≤ init.1.length → ∀ i, i ≤ j →
    hfreq (flatPop init i) ≤ hfreq (flatPop init j) := by
  intro j
  induction j with
  | zero =>
    intro _ i hi
    have : i = 0 := by omega
    rw [this]
  | succ n ih =>
    intro hn i hi
    rcases Nat.lt_or_ge i (n + 1) with hlt | hge
    · exact le_trans (ih (by omega) i (by omega))
        (flatPop_le_succ init h0 hof n (by omega))
    · have : i = n + 1 := by omega
      rw [this]

theorem pool_provenance (init : List HuffNode × ℕ) (h0 : StInv init)
    (hof : (poolFreqs init.1).sum < UINT_MOD) :
    ∀ s, s + 1 ≤ init.1.length → ∀ t ∈ poolAt init s,
      t ∈ init.1 ∨ ∃ s', s' < s ∧ t = createdAt init s' := by
  intro s
  induction s with
  | zero =>
    intro _ t ht
    exact Or.inl ht
  | succ n ih =>
    intro hn t ht
    rw [poolAt_succ_created, mem_push_iff] at ht
    rcases ht with ht | ht
    · have hlen : 2 ≤ (poolAt init n).length := by
        rw [pool_len init h0 hof n (by omega)]
        omega
      have := ih (by omega) t
        (rem2_subset _ (pool_heap init h0 hof n (by omega)) hlen t ht)
      rcases this with h | ⟨s', hs', he⟩
      · exact Or.inl h
      · exact Or.inr ⟨s', by omega, he⟩
    · exact Or.inr ⟨n, by omega, ht⟩

theorem mem_rem2_of_ne (l : List HuffNode) (hl : IsHeap l) (h2 : 2 ≤ l.length)
    (t : HuffNode) (ht : t ∈ l) (hA : t ≠ popA l) (hB : t ≠ popB l) :
    t ∈ rem2 l := by
  rw [← Multiset.mem_coe] at ht ⊢
  rw [pool_decomp l hl h2] at ht
  simp only [Multiset.mem_add, Multiset.mem_singleton] at ht
  tauto

theorem popped_eventually (init : List HuffNode × ℕ) (h0 : StInv init)
    (hof : (poolFreqs init.1).sum < UINT_MOD) :
    ∀ k s, s + 1 ≤ init.1.length → init.1.length - 1 - s ≤ k →
    ∀ t ∈ poolAt init s,
      (∃ s', s ≤ s' ∧ s' + 2 ≤ init.1.length ∧
        (t = popA (poolAt init s') ∨ t = popB (poolAt init s'))) ∨
      t ∈ poolAt init (init.1.length - 1) := by
  intro k
  induction k with
  | zero =>
    intro s hs hk t ht
    have : s = init.1.length - 1 := by omega
    rw [this] at ht
    exact Or.inr ht
  | succ n ih =>
    intro s hs hk t ht
    rcases Nat.lt_or_ge s (init.1.length - 1) with hlt | hge
    · by_cases hA : t = popA (poolAt init s)
      · exact Or.inl ⟨s, le_refl s, by omega, Or.inl hA⟩
      by_cases hB : t = popB (poolAt init s)
      · exact Or.inl ⟨s, le_refl s, by omega, Or.inr hB⟩
      have hlen : 2 ≤ (poolAt init s).length := by
        rw [pool_len init h0 hof s (by omega)]
        omega
      have ht2 : t ∈ poolAt init (s + 1) := by
        rw [poolAt_succ_created, mem_push_iff]
        exact Or.inl (mem_rem2_of_ne _ (pool_heap init h0 hof s (by omega))
          hlen t ht hA hB)
      rcases ih (s + 1) (by omega) (by omega) t ht2 with ⟨s', h1, h2, h3⟩ | h
      · exact Or.inl ⟨s', by omega, h2, h3⟩
      · exact Or.inr h
    · have : s = init.1.length - 1 := by omega
      rw [this] at ht
      exact Or.inr ht

/-! ### Occurrences in the final tree -/

inductive OccursAt : HuffNode → ℕ → HuffNode → Prop where
  | refl (t : HuffNode) : OccursAt t 0 t
  | inl (i : ℕ) (s : ℤ) (f : ℕ) (l r u : HuffNode) (d : ℕ) :
      OccursAt l d u → OccursAt (HuffNode.mk i s f l r) (d + 1) u
  | inr (i : ℕ) (s : ℤ) (f : ℕ) (l r u : HuffNode) (d : ℕ) :
      OccursAt r d u → OccursAt (HuffNode.mk i s f l r) (d + 1) u

theorem occursAt_trans (t u v : HuffNode) (d e : ℕ) (h1 : OccursAt t d u)
    (h2 : OccursAt u e v) : OccursAt t (d + e) v := by
  induction h1 with
  | refl w =>
    rw [Nat.zero_add]
    exact h2
  | inl i s f l r u' d' hocc ih =>
    have harith : d' + 1 + e = d' + e + 1 := by omega
    rw [harith]
    exact OccursAt.inl i s f l r v (d' + e) (ih h2)
  | inr i s f l r u' d' hocc ih =>
    have harith : d' + 1 + e = d' + e + 1 := by omega
    rw [harith]
    exact OccursAt.inr i s f l r v (d' + e) (ih h2)

theorem occursAt_id_mem (t u : HuffNode) (d : ℕ) (h : OccursAt t d u)
    (hu : u ≠ HuffNode.nil) : hid u ∈ nodeIds t := by
  induction h with
  | refl w =>
    cases w with
    | nil => exact absurd rfl hu
    | mk i s f l r => exact List.mem_cons_self _ _
  | inl i s f l r u' d' hocc ih =>
    exact List.mem_cons_of_mem _ (List.mem_append_left _ (ih hu))
  | inr i s f l r u' d' hocc ih =>
    exact List.mem_cons_of_mem _ (List.mem_append_right _ (ih hu))

theorem occursAt_nil_cases (d : ℕ) (u : HuffNode) (h : OccursAt HuffNode.nil d u) :
    d = 0 ∧ u = HuffNode.nil := by
  cases h
  exact ⟨rfl, rfl⟩

theorem occursAt_mk_cases (i : ℕ) (s : ℤ) (f : ℕ) (l r : HuffNode) (d : ℕ)
    (u : HuffNode) (h : OccursAt (HuffNode.mk i s f l r) d u) :
    (d = 0 ∧ u = HuffNode.mk i s f l r) ∨
    (∃ d', d = d' + 1 ∧ OccursAt l d' u) ∨
    (∃ d', d = d' + 1 ∧ OccursAt r d' u) := by
  cases h with
  | refl _ => exact Or.inl ⟨rfl, rfl⟩
  | inl _ _ _ _ _ _ d' hocc => exact Or.inr (Or.inl ⟨d', rfl, hocc⟩)
  | inr _ _ _ _ _ _ d' hocc => exact Or.inr (Or.inr ⟨d', rfl, hocc⟩)

theorem occursAt_unique (t : HuffNode) :
    ∀ (d d' : ℕ) (u u' : HuffNode), (nodeIds t).Nodup →
    OccursAt t d u → OccursAt t d' u' → hid u = hid u' →
    u ≠ HuffNode.nil → u' ≠ HuffNode.nil → d = d' ∧ u = u' := by
  induction t with
  | nil =>
    intro d d' u u' _ h1 _ _ hu _
    exact absurd (occursAt_nil_cases d u h1).2 hu
  | mk i s f l r ihl ihr =>
    intro d d' u u' hnd h1 h2 hid_eq hu hu'
    have hnd2 := hnd
    rw [show nodeIds (HuffNode.mk i s f l r) = i :: (nodeIds l ++ nodeIds r)
      from rfl, List.nodup_cons, List.nodup_append] at hnd2
    rcases occursAt_mk_cases i s f l r d u h1 with ⟨hd, hueq⟩ |
      ⟨d1, hd1, hocc1⟩ | ⟨d1, hd1, hocc1⟩
    · rcases occursAt_mk_cases i s f l r d' u' h2 with ⟨hd', hueq'⟩ |
        ⟨d2, hd2, hocc2⟩ | ⟨d2, hd2, hocc2⟩
      · rw [hd, hd', hueq, hueq']
        exact ⟨rfl, rfl⟩
      · exfalso
        have hm := occursAt_id_mem _ _ _ hocc2 hu'
        rw [← hid_eq, hueq] at hm
        exact hnd2.1 (List.mem_append_left _ hm)
      · exfalso
        have hm := occursAt_id_mem _ _ _ hocc2 hu'
        rw [← hid_eq, hueq] at hm
        exact hnd2.1 (List.mem_append_right _ hm)
    · rcases occursAt_mk_cases i s f l r d' u' h2 with ⟨hd', hueq'⟩ |
        ⟨d2, hd2, hocc2⟩ | ⟨d2, hd2, hocc2⟩
      · exfalso
        have hm := occursAt_id_mem _ _ _ hocc1 hu
        rw [hid_eq, hueq'] at hm
        exact hnd2.1 (List.mem_append_left _ hm)
      · have := ihl d1 d2 u u' hnd2.2.1 hocc1 hocc2 hid_eq hu hu'
        exact ⟨by omega, this.2⟩
      · exfalso
        have hm1 := occursAt_id_mem _ _ _ hocc1 hu
        have hm2 := occursAt_id_mem _ _ _ hocc2 hu'
        rw [← hid_eq] at hm2
        exact hnd2.2.2.2 hm1 hm2
    · rcases occursAt_mk_cases i s f l r d' u' h2 with ⟨hd', hueq'⟩ |
        ⟨d2, hd2, hocc2⟩ | ⟨d2, hd2, hocc2⟩
      · exfalso
        have hm := occursAt_id_mem _ _ _ hocc1 hu
        rw [hid_eq, hueq'] at hm
        exact hnd2.1 (List.mem_append_right _ hm)
      · exfalso
        have hm1 := occursAt_id_mem _ _ _ hocc1 hu
        have hm2 := occursAt_id_mem _ _ _ hocc2 hu'
        rw [← hid_eq] at hm2
        exact hnd2.2.2.2 hm2 hm1
      · have := ihr d1 d2 u u' hnd2.2.2.1 hocc1 hocc2 hid_eq hu hu'
        exact ⟨by omega, this.2⟩

theorem occurs_child_l (root : HuffNode) (d : ℕ) (i : ℕ) (s : ℤ) (f : ℕ)
    (A B : HuffNode) (h : OccursAt root d (HuffNode.mk i s f A B)) :
    OccursAt root (d + 1) A :=
  occursAt_trans _ _ _ d 1 h (OccursAt.inl i s f A B A 0 (OccursAt.refl A))

theorem occurs_child_r (root : HuffNode) (d : ℕ) (i : ℕ) (s : ℤ) (f : ℕ)
    (A B : HuffNode) (h : OccursAt root d (HuffNode.mk i s f A B)) :
    OccursAt root (d + 1) B :=
  occursAt_trans _ _ _ d 1 h (OccursAt.inr i s f A B B 0 (OccursAt.refl B))

/-- The single tree left in the pool after the merge loop. -/
def finalRoot (init : List HuffNode × ℕ) : HuffNode :=
  pqGet (poolAt init (init.1.length - 1)) 0

theorem list_len_one_eq {α : Type} (d : α) (l : List α) (h : l.length = 1) :
    l = [lget d l 0] := by
  cases l with
  | nil => simp at h
  | cons x xs =>
    cases xs with
    | nil => rfl
    | cons y ys => simp at h

theorem pool_last_eq (init : List HuffNode × ℕ) (h0 : StInv init)
    (hof : (poolFreqs init.1).sum < UINT_MOD) (hn : 1 ≤ init.1.length) :
    poolAt init (init.1.length - 1) = [finalRoot init] := by
  refine list_len_one_eq HuffNode.nil _ ?_
  rw [pool_len init h0 hof (init.1.length - 1) (by omega)]
  omega

theorem createdAt_eq_mk (init : List HuffNode × ℕ) (s : ℕ) :
    createdAt init s = HuffNode.mk (init.2 + s) (-1)
      ((hfreq (popA (poolAt init s)) + hfreq (popB (poolAt init s))) % UINT_MOD)
      (popA (poolAt init s)) (popB (poolAt init s)) := rfl

theorem pq_push_nil_eq (x : HuffNode) : pq_push [] x = [x] := rfl

theorem finalRoot_eq_created (init : List HuffNode × ℕ) (h0 : StInv init)
    (hof : (poolFreqs init.1).sum < UINT_MOD) (hn : 2 ≤ init.1.length) :
    finalRoot init = createdAt init (init.1.length - 2) := by
  have harith : init.1.length - 2 + 1 = init.1.length - 1 := by omega
  have hrem : rem2 (poolAt init (init.1.length - 2)) = [] := by
    rw [← List.length_eq_zero]
    rw [rem2_len _ (by rw [pool_len init h0 hof _ (by omega)]; omega),
      pool_len init h0 hof _ (by omega)]
    omega
  show pqGet (poolAt init (init.1.length - 1)) 0 = _
  rw [← harith, poolAt_succ_created, hrem, pq_push_nil_eq]
  rfl

theorem pool_occurs (init : List HuffNode × ℕ) (h0 : StInv init)
    (hof : (poolFreqs init.1).sum < UINT_MOD) :
    ∀ k s, s + 1 ≤ init.1.length → init.1.length - 1 - s ≤ k →
    ∀ t ∈ poolAt init s, ∃ d, OccursAt (finalRoot init) d t := by
  intro k
  induction k with
  | zero =>
    intro s hs hk t ht
    have heq : s = init.1.length - 1 := by omega
    rw [heq, pool_last_eq init h0 hof (by omega)] at ht
    rcases List.mem_singleton.mp ht with rfl
    exact ⟨0, OccursAt.refl _⟩
  | succ n ih =>
    intro s hs hk t ht
    rcases Nat.lt_or_ge s (init.1.length - 1) with hlt | hge
    · have hlen : 2 ≤ (poolAt init s).length := by
        rw [pool_len init h0 hof s (by omega)]
        omega
      by_cases hA : t = popA (poolAt init s)
      · obtain ⟨d, hd⟩ := ih (s + 1) (by omega) (by omega) (createdAt init s)
          (createdAt_mem init s)
        rw [createdAt_eq_mk] at hd
        exact ⟨d + 1, by rw [hA]; exact occurs_child_l _ _ _ _ _ _ _ hd⟩
      by_cases hB : t = popB (poolAt init s)
      · obtain ⟨d, hd⟩ := ih (s + 1) (by omega) (by omega) (createdAt init s)
          (createdAt_mem init s)
        rw [createdAt_eq_mk] at hd
        exact ⟨d + 1, by rw [hB]; exact occurs_child_r _ _ _ _ _ _ _ hd⟩
      · refine ih (s + 1) (by omega) (by omega) t ?_
        rw [poolAt_succ_created, mem_push_iff]
        exact Or.inl (mem_rem2_of_ne _ (pool_heap init h0 hof s (by omega))
          hlen t ht hA hB)
    · have heq : s = init.1.length - 1 := by omega
      rw [heq, pool_last_eq init h0 hof (by omega)] at ht
      rcases List.mem_singleton.mp ht with rfl
      exact ⟨0, OccursAt.refl _⟩

theorem poolIds_singleton (t : HuffNode) :
    poolIds [t] = ((nodeIds t : List ℕ) : Multiset ℕ) := by
  show (((t :: [] : List HuffNode)) : Multiset HuffNode).bind _ = _
  rw [← Multiset.cons_coe, Multiset.cons_bind]
  simp [poolIds]

theorem finalRoot_ids_nodup (init : List HuffNode × ℕ) (h0 : StInv init)
    (hof : (poolFreqs init.1).sum < UINT_MOD) (hn : 1 ≤ init.1.length) :
    (nodeIds (finalRoot init)).Nodup := by
  have h := pool_ids_nodup init h0 hof (init.1.length - 1) (by omega)
  rw [pool_last_eq init h0 hof hn, poolIds_singleton, Multiset.coe_nodup] at h
  exact h

theorem flatPop_even (init : List HuffNode × ℕ) (s : ℕ) :
    flatPop init (2 * s) = popA (poolAt init s) := by
  unfold flatPop
  rw [if_pos (by omega : 2 * s % 2 = 0)]
  have h : 2 * s / 2 = s := by omega
  rw [h]

theorem flatPop_odd (init : List HuffNode × ℕ) (s : ℕ) :
    flatPop init (2 * s + 1) = popB (poolAt init s) := by
  unfold flatPop
  rw [if_neg (by omega : ¬ (2 * s + 1) % 2 = 0)]
  have h : (2 * s + 1) / 2 = s := by omega
  rw [h]

theorem flatPop_mem (init : List HuffNode × ℕ) (h0 : StInv init)
    (hof : (poolFreqs init.1).sum < UINT_MOD) (i : ℕ)
    (hv : i / 2 + 2 ≤ init.1.length) :
    flatPop init i ∈ poolAt init (i / 2) := by
  unfold flatPop
  by_cases h : i % 2 = 0
  · rw [if_pos h]
    exact popA_mem _ (pool_heap init h0 hof _ (by omega))
      (by rw [pool_len init h0 hof _ (by omega)]; omega)
  · rw [if_neg h]
    exact popB_mem _ (pool_heap init h0 hof _ (by omega))
      (by rw [pool_len init h0 hof _ (by omega)]; omega)

theorem flatPop_ne_nil (init : List HuffNode × ℕ) (h0 : StInv init)
    (hof : (poolFreqs init.1).sum < UINT_MOD) (i : ℕ)
    (hv : i / 2 + 2 ≤ init.1.length) :
    flatPop init i ≠ HuffNode.nil :=
  isFullBin_ne_nil _ (pool_wf init h0 hof _ (by omega) _
    (flatPop_mem init h0 hof i hv)).1

theorem created_ne_nil (init : List HuffNode × ℕ) (s : ℕ) :
    createdAt init s ≠ HuffNode.nil := by
  rw [createdAt_eq_mk]
  intro h
  exact HuffNode.noConfusion h

theorem hid_createdAt (init : List HuffNode × ℕ) (s : ℕ) :
    hid (createdAt init s) = init.2 + s := rfl

theorem created_eq_final_imp (init : List HuffNode × ℕ) (h0 : StInv init)
    (hof : (poolFreqs init.1).sum < UINT_MOD) (s : ℕ)
    (hs : s + 2 ≤ init.1.length) (h : createdAt init s = finalRoot init) :
    s = init.1.length - 2 := by
  have hc := congrArg hid h
  rw [hid_createdAt, finalRoot_eq_created init h0 hof (by omega),
    hid_createdAt] at hc
  omega

theorem created_popped (init : List HuffNode × ℕ) (h0 : StInv init)
    (hof : (poolFreqs init.1).sum < UINT_MOD) (s : ℕ)
    (hs : s + 3 ≤ init.1.length) :
    ∃ i1, i1 / 2 + 2 ≤ init.1.length ∧ 2 * (s + 1) ≤ i1 ∧
      createdAt init s = flatPop init i1 := by
  have hmem := createdAt_mem init s
  rcases popped_eventually init h0 hof init.1.length (s + 1) (by omega)
    (by omega) _ hmem with ⟨s', h1, h2, h3⟩ | hfin
  · rcases h3 with h3 | h3
    · exact ⟨2 * s', by omega, by omega, by rw [flatPop_even]; exact h3⟩
    · exact ⟨2 * s' + 1, by omega, by omega, by rw [flatPop_odd]; exact h3⟩
  · exfalso
    rw [pool_last_eq init h0 hof (by omega)] at hfin
    have heq := List.mem_singleton.mp hfin
    have := created_eq_final_imp init h0 hof s (by omega) heq
    omega

theorem flat_child_depth (init : List HuffNode × ℕ) (h0 : StInv init)
    (hof : (poolFreqs init.1).sum < UINT_MOD) (i : ℕ)
    (hv : i / 2 + 2 ≤ init.1.length) (d dc : ℕ)
    (hd : OccursAt (finalRoot init) d (flatPop init i))
    (hc : OccursAt (finalRoot init) dc (createdAt init (i / 2))) :
    d = dc + 1 := by
  have hnodup := finalRoot_ids_nodup init h0 hof (by omega)
  have hnn := flatPop_ne_nil init h0 hof i hv
  rw [createdAt_eq_mk] at hc
  by_cases h : i % 2 = 0
  · have hchild := occurs_child_l _ _ _ _ _ _ _ hc
    have hfi : flatPop init i = popA (poolAt init (i / 2)) := by
      unfold flatPop
      rw [if_pos h]
    rw [← hfi] at hchild
    exact (occursAt_unique _ d (dc + 1) _ _ hnodup hd hchild rfl hnn hnn).1
  · have hchild := occurs_child_r _ _ _ _ _ _ _ hc
    have hfi : flatPop init i = popB (poolAt init (i / 2)) := by
      unfold flatPop
      rw [if_neg h]
    rw [← hfi] at hchild
    exact (occursAt_unique _ d (dc + 1) _ _ hnodup hd hchild rfl hnn hnn).1

theorem g_mono (init : List HuffNode × ℕ) (h0 : StInv init)
    (hof : (poolFreqs init.1).sum < UINT_MOD) (s s' : ℕ) (h : s ≤ s')
    (hv : s' + 2 ≤ init.1.length) :
    hfreq (createdAt init s) ≤ hfreq (createdAt init s') := by
  rw [createdAt_freq init h0 hof s (by omega), createdAt_freq init h0 hof s' hv]
  have h1 := flatPop_chain init h0 hof (2 * s') (by omega) (2 * s) (by omega)
  have h2 := flatPop_chain init h0 hof (2 * s' + 1) (by omega) (2 * s + 1)
    (by omega)
  rw [flatPop_even init s, flatPop_even init s'] at h1
  rw [flatPop_odd init s, flatPop_odd init s'] at h2
  omega

theorem g_eq_rigid (init : List HuffNode × ℕ) (h0 : StInv init)
    (hof : (poolFreqs init.1).sum < UINT_MOD) (s s' : ℕ) (hss : s < s')
    (hv : s' + 2 ≤ init.1.length)
    (hg : hfreq (createdAt init s) = hfreq (createdAt init s')) :
    ∀ i j, 2 * s ≤ i → i ≤ 2 * s + 1 → 2 * s' ≤ j → j ≤ 2 * s' + 1 →
    hfreq (flatPop init i) = hfreq (flatPop init j) := by
  intro i j hi1 hi2 hj1 hj2
  have ha := flatPop_chain init h0 hof (2 * s + 1) (by omega) (2 * s) (by omega)
  have hb := flatPop_chain init h0 hof (2 * s') (by omega) (2 * s + 1) (by omega)
  have hc := flatPop_chain init h0 hof (2 * s' + 1) (by omega) (2 * s') (by omega)
  have hgs := createdAt_freq init h0 hof s (by omega)
  have hgs' := createdAt_freq init h0 hof s' hv
  rw [hgs, hgs', ← flatPop_even init s, ← flatPop_odd init s,
    ← flatPop_even init s', ← flatPop_odd init s'] at hg
  have hi : i = 2 * s ∨ i = 2 * s + 1 := by omega
  have hj : j = 2 * s' ∨ j = 2 * s' + 1 := by omega
  rcases hi with rfl | rfl <;> rcases hj with rfl | rfl <;> omega

/-- Huffman depth monotonicity on the pop sequence: a popped node of
strictly smaller frequency ends at least as deep in the final tree. -/
theorem pop_depth_mono (init : List HuffNode × ℕ) (h0 : StInv init)
    (hof : (poolFreqs init.1).sum < UINT_MOD) :
    ∀ fuel i j di dj, 2 * init.1.length - i ≤ fuel →
    i / 2 + 2 ≤ init.1.length → j / 2 + 2 ≤ init.1.length →
    hfreq (flatPop init i) < hfreq (flatPop init j) →
    OccursAt (finalRoot init) di (flatPop init i) →
    OccursAt (finalRoot init) dj (flatPop init j) →
    dj ≤ di := by
  intro fuel
  induction fuel with
  | zero =>
    intro i j di dj hf hvi hvj _ _ _
    omega
  | succ fl ih =>
    intro i j di dj hf hvi hvj hlt hdi hdj
    have hij : i < j := by
      by_contra hcon
      push_neg at hcon
      have := flatPop_chain init h0 hof i hvi j hcon
      omega
    have hsij : i / 2 ≤ j / 2 := Nat.div_le_div_right (by omega)
    by_cases hss : i / 2 = j / 2
    · obtain ⟨dc, hc⟩ := pool_occurs init h0 hof init.1.length (i / 2 + 1)
        (by omega) (by omega) (createdAt init (i / 2)) (createdAt_mem init (i / 2))
      have h1 := flat_child_depth init h0 hof i hvi di dc hdi hc
      have h2 := flat_child_depth init h0 hof j hvj dj dc hdj
        (by rw [← hss]; exact hc)
      omega
    · have hslt : i / 2 < j / 2 := by omega
      obtain ⟨dc1, hc1⟩ := pool_occurs init h0 hof init.1.length (i / 2 + 1)
        (by omega) (by omega) (createdAt init (i / 2)) (createdAt_mem init (i / 2))
      obtain ⟨dc2, hc2⟩ := pool_occurs init h0 hof init.1.length (j / 2 + 1)
        (by omega) (by omega) (createdAt init (j / 2)) (createdAt_mem init (j / 2))
      have hdieq := flat_child_depth init h0 hof i hvi di dc1 hdi hc1
      have hdjeq := flat_child_depth init h0 hof j hvj dj dc2 hdj hc2
      rcases Nat.lt_or_ge (hfreq (createdAt init (i / 2)))
        (hfreq (createdAt init (j / 2))) with hglt | hgge
      · obtain ⟨i1, hi1v, hi1ge, hi1eq⟩ := created_popped init h0 hof (i / 2)
          (by omega)
        by_cases hjf : createdAt init (j / 2) = finalRoot init
        · have hnn := created_ne_nil init (j / 2)
          have hr0 : dc2 = 0 :=
            (occursAt_unique _ dc2 0 _ _
              (finalRoot_ids_nodup init h0 hof (by omega)) hc2
              (by rw [hjf]; exact OccursAt.refl _) rfl hnn hnn).1
          omega
        · have hj3 : j / 2 + 3 ≤ init.1.length := by
            rcases Nat.lt_or_ge (j / 2) (init.1.length - 2) with h | h
            · omega
            · exfalso
              apply hjf
              have hje : j / 2 = init.1.length - 2 := by omega
              rw [hje, ← finalRoot_eq_created init h0 hof (by omega)]
          obtain ⟨j1, hj1v, hj1ge, hj1eq⟩ := created_popped init h0 hof (j / 2)
            hj3
          rw [hi1eq] at hc1
          rw [hj1eq] at hc2
          rw [hi1eq, hj1eq] at hglt
          have := ih i1 j1 dc1 dc2 (by omega) hi1v hj1v hglt hc1 hc2
          omega
      · have hgle := g_mono init h0 hof (i / 2) (j / 2) (by omega) (by omega)
        have hgeq := le_antisymm hgle hgge
        have := g_eq_rigid init h0 hof (i / 2) (j / 2) hslt (by omega) hgeq i j
          (by omega) (by omega) (by omega) (by omega)
        omega

/-- Fibonacci lower bound: every tree in the pool of a run started from
height-0, positive-frequency leaves has frequency at least
`fib (height + 2)`. -/
theorem pool_fib_bound (init : List HuffNode × ℕ) (h0 : StInv init)
    (hof : (poolFreqs init.1).sum < UINT_MOD)
    (hinit0 : ∀ t ∈ init.1, hheight t = 0)
    (hpos : ∀ t ∈ init.1, 1 ≤ hfreq t) :
    ∀ s, s + 1 ≤ init.1.length → ∀ c ∈ poolAt init s,
      Nat.fib (hheight c + 2) ≤ hfreq c := by
  intro s
  induction s using Nat.strong_induction_on with
  | _ s ih =>
    intro hs c hc
    rcases pool_provenance init h0 hof s hs c hc with hin | ⟨sc, hsc, rfl⟩
    · rw [hinit0 c hin]
      have h1 : Nat.fib (0 + 2) = 1 := by decide
      rw [h1]
      exact hpos c hin
    · have hv : sc + 2 ≤ init.1.length := by omega
      have hheapc := pool_heap init h0 hof sc (by omega)
      have hlenc : 2 ≤ (poolAt init sc).length := by
        rw [pool_len init h0 hof sc (by omega)]
        omega
      have hmemA : popA (poolAt init sc) ∈ poolAt init sc :=
        popA_mem _ hheapc (by omega)
      have hmemB : popB (poolAt init sc) ∈ poolAt init sc :=
        popB_mem _ hheapc hlenc
      have hihA := ih sc hsc (by omega) _ hmemA
      have hihB := ih sc hsc (by omega) _ hmemB
      have hfr := createdAt_freq init h0 hof sc hv
      have hAne : popA (poolAt init sc) ≠ HuffNode.nil :=
        isFullBin_ne_nil _ (pool_wf init h0 hof sc (by omega) _ hmemA).1
      have hh : hheight (createdAt init sc) =
          1 + max (hheight (popA (poolAt init sc)))
            (hheight (popB (poolAt init sc))) := by
        rw [createdAt_eq_mk]
        exact hheight_internal _ _ _ _ _ hAne
      rcases le_total (hheight (popB (poolAt init sc)))
        (hheight (popA (poolAt init sc))) with hmax | hmax
      · have hmx : max (hheight (popA (poolAt init sc)))
            (hheight (popB (poolAt init sc))) = hheight (popA (poolAt init sc)) :=
          max_eq_left hmax
        rw [hh, hmx, hfr]
        have hsplit : Nat.fib (1 + hheight (popA (poolAt init sc)) + 2) =
            Nat.fib (hheight (popA (poolAt init sc)) + 1) +
            Nat.fib (hheight (popA (poolAt init sc)) + 2) := by
          have harith : 1 + hheight (popA (poolAt init sc)) + 2 =
            hheight (popA (poolAt init sc)) + 1 + 2 := by omega
          rw [harith, Nat.fib_add_two]
        rw [hsplit]
        by_cases hcase : hheight (popA (poolAt init sc)) ≤
            hheight (popB (poolAt init sc)) + 1
        · have hmono : Nat.fib (hheight (popA (poolAt init sc)) + 1) ≤
              Nat.fib (hheight (popB (poolAt init sc)) + 2) :=
            Nat.fib_mono (by omega)
          omega
        · have hA1 : 1 ≤ hheight (popA (poolAt init sc)) := by omega
          have hAcreated : ∃ sA, sA < sc ∧
              popA (poolAt init sc) = createdAt init sA := by
            rcases pool_provenance init h0 hof sc (by omega) _ hmemA with hin | hx
            · exfalso
              have := hinit0 _ hin
              omega
            · exact hx
          obtain ⟨sA, hsA, hAeq⟩ := hAcreated
          have hheapA := pool_heap init h0 hof sA (by omega)
          have hlenA : 2 ≤ (poolAt init sA).length := by
            rw [pool_len init h0 hof sA (by omega)]
            omega
          have hmemA1 : popA (poolAt init sA) ∈ poolAt init sA :=
            popA_mem _ hheapA (by omega)
          have hmemA2 : popB (poolAt init sA) ∈ poolAt init sA :=
            popB_mem _ hheapA hlenA
          have hA1ne : popA (poolAt init sA) ≠ HuffNode.nil :=
            isFullBin_ne_nil _ (pool_wf init h0 hof sA (by omega) _ hmemA1).1
          have hhA : hheight (popA (poolAt init sc)) =
              1 + max (hheight (popA (poolAt init sA)))
                (hheight (popB (poolAt init sA))) := by
            rw [hAeq, createdAt_eq_mk]
            exact hheight_internal _ _ _ _ _ hA1ne
          rcases le_total (hheight (popB (poolAt init sA)))
            (hheight (popA (poolAt init sA))) with hm2 | hm2
          · have hihA1 := ih sA (by omega) (by omega) _ hmemA1
            have hch := flatPop_chain init h0 hof (2 * sc + 1) (by omega)
              (2 * sA) (by omega)
            rw [flatPop_odd init sc, flatPop_even init sA] at hch
            have harith : hheight (popA (poolAt init sc)) + 1 =
                hheight (popA (poolAt init sA)) + 2 := by
              have := max_eq_left hm2
              omega
            rw [harith]
            omega
          · have hihA2 := ih sA (by omega) (by omega) _ hmemA2
            have hch := flatPop_chain init h0 hof (2 * sc + 1) (by omega)
              (2 * sA + 1) (by omega)
            rw [flatPop_odd init sc, flatPop_odd init sA] at hch
            have harith : hheight (popA (poolAt init sc)) + 1 =
                hheight (popB (poolAt init sA)) + 2 := by
              have := max_eq_right hm2
              omega
            rw [harith]
            omega
      · have hmx : max (hheight (popA (poolAt init sc)))
            (hheight (popB (poolAt init sc))) = hheight (popB (poolAt init sc)) :=
          max_eq_right hmax
        rw [hh, hmx, hfr]
        have hsplit : Nat.fib (1 + hheight (popB (poolAt init sc)) + 2) =
            Nat.fib (hheight (popB (poolAt init sc)) + 1) +
            Nat.fib (hheight (popB (poolAt init sc)) + 2) := by
          have harith : 1 + hheight (popB (poolAt init sc)) + 2 =
            hheight (popB (poolAt init sc)) + 1 + 2 := by omega
          rw [harith, Nat.fib_add_two]
        rw [hsplit]
        by_cases hcase : hheight (popB (poolAt init sc)) ≤
            hheight (popA (poolAt init sc)) + 1
        · have hmono : Nat.fib (hheight (popB (poolAt init sc)) + 1) ≤
              Nat.fib (hheight (popA (poolAt init sc)) + 2) :=
            Nat.fib_mono (by omega)
          omega
        · have hB1 : 1 ≤ hheight (popB (poolAt init sc)) := by omega
          have hBcreated : ∃ sB, sB < sc ∧
              popB (poolAt init sc) = createdAt init sB := by
            rcases pool_provenance init h0 hof sc (by omega) _ hmemB with hin | hx
            · exfalso
              have := hinit0 _ hin
              omega
            · exact hx
          obtain ⟨sB, hsB, hBeq⟩ := hBcreated
          have hheapB := pool_heap init h0 hof sB (by omega)
          have hlenB : 2 ≤ (poolAt init sB).length := by
            rw [pool_len init h0 hof sB (by omega)]
            omega
          have hmemB1 : popA (poolAt init sB) ∈ poolAt init sB :=
            popA_mem _ hheapB (by omega)
          have hmemB2 : popB (poolAt init sB) ∈ poolAt init sB :=
            popB_mem _ hheapB hlenB
          have hB1ne : popA (poolAt init sB) ≠ HuffNode.nil :=
            isFullBin_ne_nil _ (pool_wf init h0 hof sB (by omega) _ hmemB1).1
          have hhB : hheight (popB (poolAt init sc)) =
              1 + max (hheight (popA (poolAt init sB)))
                (hheight (popB (poolAt init sB))) := by
            rw [hBeq, createdAt_eq_mk]
            exact hheight_internal _ _ _ _ _ hB1ne
          rcases le_total (hheight (popB (poolAt init sB)))
            (hheight (popA (poolAt init sB))) with hm2 | hm2
          · have hihB1 := ih sB (by omega) (by omega) _ hmemB1
            have hch := flatPop_chain init h0 hof (2 * sc) (by omega)
              (2 * sB) (by omega)
            rw [flatPop_even init sc, flatPop_even init sB] at hch
            have harith : hheight (popB (poolAt init sc)) + 1 =
                hheight (popA (poolAt init sB)) + 2 := by
              have := max_eq_left hm2
              omega
            rw [harith]
            omega
          · have hihB2 := ih sB (by omega) (by omega) _ hmemB2
            have hch := flatPop_chain init h0 hof (2 * sc) (by omega)
              (2 * sB + 1) (by omega)
            rw [flatPop_even init sc, flatPop_odd init sB] at hch
            have harith : hheight (popB (poolAt init sc)) + 1 =
                hheight (popB (poolAt init sB)) + 2 := by
              have := max_eq_right hm2
              omega
            rw [harith]
            omega

theorem poolFreqs_singleton (t : HuffNode) :
    poolFreqs [t] = ((leafFreqs t : List ℕ) : Multiset ℕ) := by
  show (((t :: [] : List HuffNode)) : Multiset HuffNode).bind _ = _
  rw [← Multiset.cons_coe, Multiset.cons_bind]
  simp [poolFreqs]

theorem poolSyms_singleton (t : HuffNode) :
    poolSyms [t] = ((leafSyms t : List ℤ) : Multiset ℤ) := by
  show (((t :: [] : List HuffNode)) : Multiset HuffNode).bind _ = _
  rw [← Multiset.cons_coe, Multiset.cons_bind]
  simp [poolSyms]

theorem finalRoot_mem_last (init : List HuffNode × ℕ) (h0 : StInv init)
    (hof : (poolFreqs init.1).sum < UINT_MOD) (hn : 1 ≤ init.1.length) :
    finalRoot init ∈ poolAt init (init.1.length - 1) := by
  rw [pool_last_eq init h0 hof hn]
  exact List.mem_singleton.mpr rfl

theorem finalRoot_freq_total (init : List HuffNode × ℕ) (h0 : StInv init)
    (hof : (poolFreqs init.1).sum < UINT_MOD) (hn : 1 ≤ init.1.length) :
    hfreq (finalRoot init) = (poolFreqs init.1).sum := by
  have hwf := pool_wf init h0 hof (init.1.length - 1) (by omega) _
    (finalRoot_mem_last init h0 hof hn)
  have hfr := pool_freqs init h0 hof (init.1.length - 1) (by omega)
  rw [pool_last_eq init h0 hof hn, poolFreqs_singleton] at hfr
  rw [hwf.2, ← Multiset.sum_coe, hfr]

theorem finalRoot_syms (init : List HuffNode × ℕ) (h0 : StInv init)
    (hof : (poolFreqs init.1).sum < UINT_MOD) (hn : 1 ≤ init.1.length) :
    ((leafSyms (finalRoot init) : List ℤ) : Multiset ℤ) = poolSyms init.1 := by
  have hfr := pool_syms init h0 hof (init.1.length - 1) (by omega)
  rw [pool_last_eq init h0 hof hn, poolSyms_singleton] at hfr
  exact hfr

/-- Under the 32-bit total-frequency bound the final Huffman tree has
height at most 45 (Fibonacci growth), far below the 255-bit guard. -/
theorem final_height_le (init : List HuffNode × ℕ) (h0 : StInv init)
    (hof : (poolFreqs init.1).sum < UINT_MOD)
    (hinit0 : ∀ t ∈ init.1, hheight t = 0)
    (hpos : ∀ t ∈ init.1, 1 ≤ hfreq t) (hn : 1 ≤ init.1.length) :
    hheight (finalRoot init) ≤ 45 := by
  have hb := pool_fib_bound init h0 hof hinit0 hpos (init.1.length - 1)
    (by omega) _ (finalRoot_mem_last init h0 hof hn)
  rw [finalRoot_freq_total init h0 hof hn] at hb
  by_contra hcon
  push_neg at hcon
  have h48 : Nat.fib 48 ≤ Nat.fib (hheight (finalRoot init) + 2) :=
    Nat.fib_mono (by omega)
  have hfib : 4294967296 < Nat.fib 48 := by decide
  have hofn : (poolFreqs init.1).sum < 4294967296 := hof
  omega

/-! ### Characterisation of `generate_codes` -/

/-- Bit-string comparison used to state prefix-freeness. -/
def isPre : List Bool → List Bool → Bool
  | [], _ => true
  | _ :: _, [] => false
  | a :: as, b :: bs => (a == b) && isPre as bs

theorem isPre_append_same (c : List Bool) :
    ∀ x y, isPre (c ++ x) (c ++ y) = isPre x y := by
  induction c with
  | nil => intro x y; rfl
  | cons a as ih =>
    intro x y
    show ((a == a) && isPre (as ++ x) (as ++ y)) = isPre x y
    rw [ih, beq_self_eq_true, Bool.true_and]

/-- The leaves visited by `generate_codes`, in traversal order, with the
code and depth it would store for each. -/
def leaf_entries : HuffNode → List Bool → ℕ → List (ℤ × List Bool × ℕ)
  | HuffNode.nil, _, _ => []
  | HuffNode.mk _ s _ HuffNode.nil HuffNode.nil, code, depth => [(s, code, depth)]
  | HuffNode.mk _ _ _ l r, code, depth =>
    leaf_entries l (code ++ [false]) (depth + 1) ++
    leaf_entries r (code ++ [true]) (depth + 1)

theorem hheight_pos_of_internal (i : ℕ) (s : ℤ) (f : ℕ) (l r : HuffNode)
    (h : ¬ (l = HuffNode.nil ∧ r = HuffNode.nil)) :
    hheight (HuffNode.mk i s f l r) =
      1 + max (hheight l) (hheight r) := by
  simp only [hheight]
  rw [if_neg h]

theorem generate_codes_eq_fold (t : HuffNode) :
    ∀ code depth codes0, isFullBin t = true →
    (∀ x ∈ leafSyms t, 0 ≤ x ∧ x < 65536) →
    depth + hheight t ≤ 255 →
    generate_codes t code depth codes0 =
      (leaf_entries t code depth).foldl
        (fun cs e => Function.update cs e.1 ⟨e.2.1, e.2.2⟩) codes0 := by
  induction t with
  | nil =>
    intro _ _ _ hfb _ _
    simp [isFullBin] at hfb
  | mk i s f l r ihl ihr =>
    intro code depth codes0 hfb hrange hdep
    by_cases hleaf : l = HuffNode.nil ∧ r = HuffNode.nil
    · obtain ⟨hl, hr⟩ := hleaf
      subst hl
      subst hr
      have hs := hrange s (by simp [leafSyms])
      show (if s < 0 ∨ 65536 ≤ s then codes0
        else Function.update codes0 s ⟨code, depth⟩) = _
      rw [if_neg (by omega)]
      rfl
    · have hfb2 : isFullBin l = true ∧ isFullBin r = true := by
        simp only [isFullBin] at hfb
        rw [if_neg hleaf] at hfb
        exact Bool.and_eq_true_iff.mp hfb
      have hlne : l ≠ HuffNode.nil := isFullBin_ne_nil l hfb2.1
      have hrange2 : ∀ x ∈ leafSyms l, 0 ≤ x ∧ x < 65536 := by
        intro x hx
        refine hrange x ?_
        rw [leafSyms_internal _ _ _ _ _ hlne]
        exact List.mem_append_left _ hx
      have hrange3 : ∀ x ∈ leafSyms r, 0 ≤ x ∧ x < 65536 := by
        intro x hx
        refine hrange x ?_
        rw [leafSyms_internal _ _ _ _ _ hlne]
        exact List.mem_append_right _ hx
      have hht := hheight_pos_of_internal i s f l r hleaf
      have hdepl : depth + 1 + hheight l ≤ 255 := by
        rw [hht] at hdep
        have := le_max_left (hheight l) (hheight r)
        omega
      have hdepr : depth + 1 + hheight r ≤ 255 := by
        rw [hht] at hdep
        have := le_max_right (hheight l) (hheight r)
        omega
      have hd255 : ¬ 255 ≤ depth := by
        rw [hht] at hdep
        omega
      have hgen : generate_codes (HuffNode.mk i s f l r) code depth codes0 =
          generate_codes r (code ++ [true]) (depth + 1)
            (generate_codes l (code ++ [false]) (depth + 1) codes0) := by
        cases l with
        | nil => exact absurd rfl hlne
        | mk il sl fl ll rl =>
          cases r with
          | nil =>
            show (if 255 ≤ depth then codes0 else _) = _
            rw [if_neg hd255]
          | mk ir sr fr lr rr =>
            show (if 255 ≤ depth then codes0 else _) = _
            rw [if_neg hd255]
      have hent : leaf_entries (HuffNode.mk i s f l r) code depth =
          leaf_entries l (code ++ [false]) (depth + 1) ++
          leaf_entries r (code ++ [true]) (depth + 1) := by
        cases l with
        | nil => exact absurd rfl hlne
        | mk il sl fl ll rl =>
          cases r with
          | nil => rfl
          | mk ir sr fr lr rr => rfl
      rw [hgen, hent, List.foldl_append,
        ihl (code ++ [false]) (depth + 1) codes0 hfb2.1 hrange2 hdepl,
        ihr (code ++ [true]) (depth + 1) _ hfb2.2 hrange3 hdepr]

theorem leaf_entries_internal (i : ℕ) (s : ℤ) (f : ℕ) (l r : HuffNode)
    (h : ¬ (l = HuffNode.nil ∧ r = HuffNode.nil)) (code : List Bool) (depth : ℕ) :
    leaf_entries (HuffNode.mk i s f l r) code depth =
      leaf_entries l (code ++ [false]) (depth + 1) ++
      leaf_entries r (code ++ [true]) (depth + 1) := by
  cases l with
  | nil =>
    cases r with
    | nil => exact absurd ⟨rfl, rfl⟩ h
    | mk _ _ _ _ _ => rfl
  | mk _ _ _ _ _ =>
    cases r with
    | nil => rfl
    | mk _ _ _ _ _ => rfl

theorem leafSyms_not_leaf (i : ℕ) (s : ℤ) (f : ℕ) (l r : HuffNode)
    (h : ¬ (l = HuffNode.nil ∧ r = HuffNode.nil)) :
    leafSyms (HuffNode.mk i s f l r) = leafSyms l ++ leafSyms r := by
  simp only [leafSyms]
  rw [if_neg h]

theorem leaf_entries_keys (t : HuffNode) :
    ∀ code depth, (leaf_entries t code depth).map (fun e => e.1) = leafSyms t := by
  induction t with
  | nil => intro _ _; rfl
  | mk i s f l r ihl ihr =>
    intro code depth
    by_cases hleaf : l = HuffNode.nil ∧ r = HuffNode.nil
    · obtain ⟨hl, hr⟩ := hleaf
      subst hl
      subst hr
      rfl
    · rw [leaf_entries_internal i s f l r hleaf, List.map_append, ihl, ihr,
        leafSyms_not_leaf i s f l r hleaf]

theorem leaf_entries_kraft (t : HuffNode) :
    ∀ (code : List Bool) (depth : ℕ), isFullBin t = true →
    ((leaf_entries t code depth).map (fun e => ((2 : ℚ)⁻¹) ^ e.2.2)).sum =
      ((2 : ℚ)⁻¹) ^ depth := by
  induction t with
  | nil =>
    intro _ _ hfb
    simp [isFullBin] at hfb
  | mk i s f l r ihl ihr =>
    intro code depth hfb
    by_cases hleaf : l = HuffNode.nil ∧ r = HuffNode.nil
    · obtain ⟨hl, hr⟩ := hleaf
      subst hl
      subst hr
      simp [leaf_entries]
    · have hfb2 : isFullBin l = true ∧ isFullBin r = true := by
        simp only [isFullBin] at hfb
        rw [if_neg hleaf] at hfb
        exact Bool.and_eq_true_iff.mp hfb
      rw [leaf_entries_internal i s f l r hleaf, List.map_append,
        List.sum_append, ihl _ _ hfb2.1, ihr _ _ hfb2.2]
      have h2 : ((2 : ℚ)⁻¹) ^ (depth + 1) = ((2 : ℚ)⁻¹) ^ depth * 2⁻¹ :=
        pow_succ _ _
      rw [h2]
      ring

theorem leaf_entries_len (t : HuffNode) :
    ∀ code depth, code.length = depth →
    ∀ e ∈ leaf_entries t code depth, (e.2.1).length = e.2.2 := by
  induction t with
  | nil =>
    intro _ _ _ e he
    simp [leaf_entries] at he
  | mk i s f l r ihl ihr =>
    intro code depth hcd e he
    by_cases hleaf : l = HuffNode.nil ∧ r = HuffNode.nil
    · obtain ⟨hl, hr⟩ := hleaf
      subst hl
      subst hr
      have : e = (s, code, depth) := List.mem_singleton.mp he
      rw [this]
      exact hcd
    · rw [leaf_entries_internal i s f l r hleaf] at he
      rcases List.mem_append.mp he with h | h
      · exact ihl (code ++ [false]) (depth + 1)
          (by rw [List.length_append, hcd]; rfl) e h
      · exact ihr (code ++ [true]) (depth + 1)
          (by rw [List.length_append, hcd]; rfl) e h

theorem leaf_entries_path (t : HuffNode) :
    ∀ code depth e, e ∈ leaf_entries t code depth →
    ∃ p, e.2.1 = code ++ p := by
  induction t with
  | nil =>
    intro _ _ e he
    simp [leaf_entries] at he
  | mk i s f l r ihl ihr =>
    intro code depth e he
    by_cases hleaf : l = HuffNode.nil ∧ r = HuffNode.nil
    · obtain ⟨hl, hr⟩ := hleaf
      subst hl
      subst hr
      have : e = (s, code, depth) := List.mem_singleton.mp he
      rw [this]
      exact ⟨[], (List.append_nil code).symm⟩
    · rw [leaf_entries_internal i s f l r hleaf] at he
      rcases List.mem_append.mp he with h | h
      · obtain ⟨p, hp⟩ := ihl _ _ e h
        exact ⟨[false] ++ p, by rw [hp, List.append_assoc]⟩
      · obtain ⟨p, hp⟩ := ihr _ _ e h
        exact ⟨[true] ++ p, by rw [hp, List.append_assoc]⟩

theorem leaf_entries_pairwise (t : HuffNode) :
    ∀ code depth,
    (leaf_entries t code depth).Pairwise
      (fun e1 e2 => isPre e1.2.1 e2.2.1 = false ∧
        isPre e2.2.1 e1.2.1 = false) := by
  induction t with
  | nil => intro _ _; exact List.Pairwise.nil
  | mk i s f l r ihl ihr =>
    intro code depth
    by_cases hleaf : l = HuffNode.nil ∧ r = HuffNode.nil
    · obtain ⟨hl, hr⟩ := hleaf
      subst hl
      subst hr
      exact List.pairwise_singleton _ _
    · rw [leaf_entries_internal i s f l r hleaf]
      refine List.pairwise_append.mpr ⟨ihl _ _, ihr _ _, ?_⟩
      intro a ha b hb
      obtain ⟨p1, hp1⟩ := leaf_entries_path l _ _ a ha
      obtain ⟨p2, hp2⟩ := leaf_entries_path r _ _ b hb
      rw [hp1, hp2, List.append_assoc, List.append_assoc]
      constructor
      · rw [isPre_append_same]
        rfl
      · rw [isPre_append_same]
        rfl

theorem occurs_leaf_entry (t : HuffNode) :
    ∀ (d i : ℕ) (x : ℤ) (f : ℕ) (code : List Bool) (depth : ℕ),
    OccursAt t d (HuffNode.mk i x f HuffNode.nil HuffNode.nil) →
    ∃ p, (x, p, depth + d) ∈ leaf_entries t code depth := by
  induction t with
  | nil =>
    intro d i x f code depth h
    have hc := (occursAt_nil_cases _ _ h).2
    exact absurd hc (fun hc2 => HuffNode.noConfusion hc2)
  | mk it st ft l r ihl ihr =>
    intro d i x f code depth h
    rcases occursAt_mk_cases it st ft l r d _ h with ⟨hd, hueq⟩ |
      ⟨d1, hd1, hocc⟩ | ⟨d1, hd1, hocc⟩
    · injection hueq with h1 h2 h3 h4 h5
      subst h2
      rw [← h4, ← h5, hd, Nat.add_zero]
      exact ⟨code, List.mem_singleton.mpr rfl⟩
    · have hlne : ¬ (l = HuffNode.nil ∧ r = HuffNode.nil) := by
        rintro ⟨hl, hr⟩
        subst hl
        exact HuffNode.noConfusion (occursAt_nil_cases _ _ hocc).2
      obtain ⟨p, hp⟩ := ihl d1 i x f (code ++ [false]) (depth + 1) hocc
      rw [leaf_entries_internal it st ft l r hlne, hd1,
        show depth + (d1 + 1) = depth + 1 + d1 from by omega]
      exact ⟨p, List.mem_append_left _ hp⟩
    · have hlne : ¬ (l = HuffNode.nil ∧ r = HuffNode.nil) := by
        rintro ⟨hl, hr⟩
        subst hr
        exact HuffNode.noConfusion (occursAt_nil_cases _ _ hocc).2
      obtain ⟨p, hp⟩ := ihr d1 i x f (code ++ [true]) (depth + 1) hocc
      rw [leaf_entries_internal it st ft l r hlne, hd1,
        show depth + (d1 + 1) = depth + 1 + d1 from by omega]
      exact ⟨p, List.mem_append_right _ hp⟩

theorem leafSym_occurs (t : HuffNode) :
    ∀ x, x ∈ leafSyms t →
    ∃ d i f, OccursAt t d (HuffNode.mk i x f HuffNode.nil HuffNode.nil) := by
  induction t with
  | nil =>
    intro x hx
    simp [leafSyms] at hx
  | mk i s f l r ihl ihr =>
    intro x hx
    by_cases hleaf : l = HuffNode.nil ∧ r = HuffNode.nil
    · obtain ⟨hl, hr⟩ := hleaf
      subst hl
      subst hr
      have hxs : x = s := by
        simp [leafSyms] at hx
        exact hx
      subst hxs
      exact ⟨0, i, f, OccursAt.refl _⟩
    · rw [leafSyms_not_leaf i s f l r hleaf] at hx
      rcases List.mem_append.mp hx with h | h
      · obtain ⟨d, i', f', hocc⟩ := ihl x h
        exact ⟨d + 1, i', f', OccursAt.inl _ _ _ _ _ _ _ hocc⟩
      · obtain ⟨d, i', f', hocc⟩ := ihr x h
        exact ⟨d + 1, i', f', OccursAt.inr _ _ _ _ _ _ _ hocc⟩

theorem fold_update_not_mem :
    ∀ (entries : List (ℤ × List Bool × ℕ)) (codes0 : ℤ → HuffCode) (x : ℤ),
    x ∉ entries.map (fun e => e.1) →
    (entries.foldl (fun cs e => Function.update cs e.1 ⟨e.2.1, e.2.2⟩) codes0) x =
      codes0 x := by
  intro entries
  induction entries with
  | nil => intro _ _ _; rfl
  | cons e es ih =>
    intro codes0 x hx
    rw [List.map_cons, List.mem_cons] at hx
    push_neg at hx
    show (es.foldl _ (Function.update codes0 e.1 ⟨e.2.1, e.2.2⟩)) x = codes0 x
    rw [ih _ x hx.2]
    exact Function.update_noteq hx.1 _ _

theorem fold_update_mem :
    ∀ (entries : List (ℤ × List Bool × ℕ)) (codes0 : ℤ → HuffCode)
      (x : ℤ) (p : List Bool) (d : ℕ),
    (x, p, d) ∈ entries → (entries.map (fun e => e.1)).Nodup →
    (entries.foldl (fun cs e => Function.update cs e.1 ⟨e.2.1, e.2.2⟩) codes0) x =
      ⟨p, d⟩ := by
  intro entries
  induction entries with
  | nil =>
    intro _ _ _ _ hmem _
    simp at hmem
  | cons e es ih =>
    intro codes0 x p d hmem hnd
    rw [List.map_cons, List.nodup_cons] at hnd
    rcases List.mem_cons.mp hmem with heq | hmem2
    · have hx : e.1 = x := by rw [← heq]
      show (es.foldl _ (Function.update codes0 e.1 ⟨e.2.1, e.2.2⟩)) x = _
      rw [fold_update_not_mem es _ x (by rw [← hx]; exact hnd.1), hx,
        Function.update_same]
      rw [← heq]
    · exact ih _ x p d hmem2 hnd.2

/-! ### The run started from `initial_pq` -/

theorem initial_pq_mem (symbols : List ℤ) (freqs : List ℕ) (n : ℕ)
    (t : HuffNode) :
    t ∈ initial_pq symbols freqs n ↔ ∃ i, i < n ∧ t = leafNode symbols freqs i := by
  rw [← Multiset.mem_coe, initial_pq_multiset, Multiset.mem_coe, List.mem_map]
  constructor
  · rintro ⟨i, hi, rfl⟩
    exact ⟨i, List.mem_range.mp hi, rfl⟩
  · rintro ⟨i, hi, rfl⟩
    exact ⟨i, List.mem_range.mpr hi, rfl⟩

theorem leafNode_eq_mk (symbols : List ℤ) (freqs : List ℕ) (i : ℕ) :
    leafNode symbols freqs i = HuffNode.mk i (lget 0 symbols i)
      (lget 0 freqs i % UINT_MOD) HuffNode.nil HuffNode.nil := rfl

theorem leafNode_wf (symbols : List ℤ) (freqs : List ℕ) (i : ℕ) :
    WfTree (leafNode symbols freqs i) := by
  constructor
  · simp [leafNode_eq_mk, isFullBin]
  · simp [leafNode_eq_mk, hfreq, leafFreqs]

theorem leafNode_height (symbols : List ℤ) (freqs : List ℕ) (i : ℕ) :
    hheight (leafNode symbols freqs i) = 0 := by
  simp [leafNode_eq_mk, hheight]

theorem poolIds_push (l : List HuffNode) (x : HuffNode) :
    poolIds (pq_push l x) = ((nodeIds x : List ℕ) : Multiset ℕ) + poolIds l := by
  show ((pq_push l x : List HuffNode) : Multiset HuffNode).bind _ = _
  rw [pq_push_multiset, Multiset.cons_bind]
  rfl

theorem poolSyms_push (l : List HuffNode) (x : HuffNode) :
    poolSyms (pq_push l x) = ((leafSyms x : List ℤ) : Multiset ℤ) + poolSyms l := by
  show ((pq_push l x : List HuffNode) : Multiset HuffNode).bind _ = _
  rw [pq_push_multiset, Multiset.cons_bind]
  rfl

theorem poolFreqs_push (l : List HuffNode) (x : HuffNode) :
    poolFreqs (pq_push l x) = ((leafFreqs x : List ℕ) : Multiset ℕ) + poolFreqs l := by
  show ((pq_push l x : List HuffNode) : Multiset HuffNode).bind _ = _
  rw [pq_push_multiset, Multiset.cons_bind]
  rfl

theorem initial_poolIds (symbols : List ℤ) (freqs : List ℕ) :
    ∀ n, poolIds (initial_pq symbols freqs n) =
      ((List.range n : List ℕ) : Multiset ℕ) := by
  intro n
  induction n with
  | zero => rfl
  | succ k ih =>
    rw [initial_pq_succ, poolIds_push, ih,
      show nodeIds (leafNode symbols freqs k) = [k] from rfl,
      List.range_succ, ← Multiset.coe_add]
    exact add_comm _ _

theorem initial_poolSyms (symbols : List ℤ) (freqs : List ℕ) :
    ∀ n, poolSyms (initial_pq symbols freqs n) =
      (((List.range n).map (fun i => lget 0 symbols i) : List ℤ) : Multiset ℤ) := by
  intro n
  induction n with
  | zero => rfl
  | succ k ih =>
    rw [initial_pq_succ, poolSyms_push, ih,
      show leafSyms (leafNode symbols freqs k) = [lget 0 symbols k] from
        by simp [leafNode_eq_mk, leafSyms],
      List.range_succ, List.map_append, ← Multiset.coe_add,
      show (List.map (fun i => lget 0 symbols i) [k] : List ℤ) =
        [lget 0 symbols k] from rfl]
    exact add_comm _ _

theorem initial_poolFreqs (symbols : List ℤ) (freqs : List ℕ) :
    ∀ n, poolFreqs (initial_pq symbols freqs n) =
      (((List.range n).map (fun i => lget 0 freqs i % UINT_MOD) : List ℕ) :
        Multiset ℕ) := by
  intro n
  induction n with
  | zero => rfl
  | succ k ih =>
    rw [initial_pq_succ, poolFreqs_push, ih,
      show leafFreqs (leafNode symbols freqs k) = [lget 0 freqs k % UINT_MOD] from
        by simp [leafNode_eq_mk, leafFreqs],
      List.range_succ, List.map_append, ← Multiset.coe_add,
      show (List.map (fun i => lget 0 freqs i % UINT_MOD) [k] : List ℕ) =
        [lget 0 freqs k % UINT_MOD] from rfl]
    exact add_comm _ _

theorem lget_map_range {α : Type} (d : α) :
    ∀ (l : List α), (List.range l.length).map (fun i => lget d l i) = l := by
  intro l
  induction l with
  | nil => rfl
  | cons x xs ih =>
    rw [show (x :: xs : List α).length = xs.length + 1 from rfl,
      List.range_succ_eq_map, List.map_cons, List.map_map,
      show ((fun i => lget d (x :: xs) i) ∘ Nat.succ) =
        (fun i => lget d xs i) from rfl,
      show lget d (x :: xs) 0 = x from rfl, ih]

theorem mem_le_sum (l : List ℕ) (a : ℕ) (h : a ∈ l) : a ≤ l.sum := by
  induction l with
  | nil => simp at h
  | cons x xs ih =>
    rcases List.mem_cons.mp h with rfl | h
    · rw [List.sum_cons]
      omega
    · have := ih h
      rw [List.sum_cons]
      omega

theorem lget_mem {α : Type} (d : α) (l : List α) (i : ℕ) (h : i < l.length) :
    lget d l i ∈ l := by
  induction l generalizing i with
  | nil => simp at h
  | cons x xs ih =>
    cases i with
    | zero => exact List.mem_cons_self _ _
    | succ j =>
      refine List.mem_cons_of_mem _ (ih j ?_)
      simp only [List.length_cons] at h
      omega

theorem initial_stInv (symbols : List ℤ) (freqs : List ℕ) (count : ℕ) :
    StInv (initial_pq symbols freqs count, count) := by
  refine ⟨initial_pq_heap symbols freqs count, ?_, ?_, ?_⟩
  · intro t ht
    obtain ⟨i, hi, rfl⟩ := (initial_pq_mem symbols freqs count t).mp ht
    exact leafNode_wf symbols freqs i
  · rw [initial_poolIds, Multiset.coe_nodup]
    exact List.nodup_range count
  · intro i hi
    rw [initial_poolIds, Multiset.mem_coe, List.mem_range] at hi
    exact hi

theorem initial_hof (symbols : List ℤ) (freqs : List ℕ) (count : ℕ)
    (hcf : freqs.length = count) (hsum : freqs.sum < UINT_MOD) :
    (poolFreqs (initial_pq symbols freqs count)).sum < UINT_MOD := by
  rw [initial_poolFreqs, Multiset.sum_coe, ← hcf]
  have hle : ((List.range freqs.length).map
      (fun i => lget 0 freqs i % UINT_MOD)).sum ≤
      ((List.range freqs.length).map (fun i => lget 0 freqs i)).sum :=
    List.sum_le_sum (fun i _ => Nat.mod_le _ _)
  rw [lget_map_range] at hle
  omega

theorem initial_height0 (symbols : List ℤ) (freqs : List ℕ) (count : ℕ) :
    ∀ t ∈ initial_pq symbols freqs count, hheight t = 0 := by
  intro t ht
  obtain ⟨i, _, rfl⟩ := (initial_pq_mem symbols freqs count t).mp ht
  exact leafNode_height symbols freqs i

theorem initial_fpos (symbols : List ℤ) (freqs : List ℕ) (count : ℕ)
    (hcf : freqs.length = count) (hpos : ∀ f ∈ freqs, 0 < f)
    (hsum : freqs.sum < UINT_MOD) :
    ∀ t ∈ initial_pq symbols freqs count, 1 ≤ hfreq t := by
  intro t ht
  obtain ⟨i, hi, rfl⟩ := (initial_pq_mem symbols freqs count t).mp ht
  show 1 ≤ lget 0 freqs i % UINT_MOD
  have hmem : lget 0 freqs i ∈ freqs := lget_mem 0 freqs i (by omega)
  have h1 : 0 < lget 0 freqs i := hpos _ hmem
  have h2 : lget 0 freqs i ≤ freqs.sum := mem_le_sum freqs _ hmem
  rw [Nat.mod_eq_of_lt (by omega)]
  omega

theorem init_fst_len (symbols : List ℤ) (freqs : List ℕ) (count : ℕ) :
    ((initial_pq symbols freqs count, count) : List HuffNode × ℕ).1.length =
      count := initial_pq_length symbols freqs count

theorem build_huffman_codes_eq_gen (symbols : List ℤ) (freqs : List ℕ)
    (count : ℕ) (hc1 : 1 ≤ count) (hcf : freqs.length = count)
    (hsum : freqs.sum < UINT_MOD) :
    build_huffman_codes symbols freqs count =
      generate_codes (finalRoot (initial_pq symbols freqs count, count)) [] 0
        (fun _ => emptyCode) := by
  have h0 := initial_stInv symbols freqs count
  have hof := initial_hof symbols freqs count hcf hsum
  have hlen : (poolAt (initial_pq symbols freqs count, count) (count - 1)).length
      = 1 := by
    rw [pool_len _ h0 hof (count - 1) (by rw [init_fst_len]; omega), init_fst_len]
    omega
  have hx : ((initial_pq symbols freqs count, count) :
      List HuffNode × ℕ).1.length - 1 = count - 1 := by
    rw [init_fst_len]
  have hfr : finalRoot (initial_pq symbols freqs count, count) =
      pqGet (poolAt (initial_pq symbols freqs count, count) (count - 1)) 0 := by
    unfold finalRoot
    rw [hx]
  have hpop : (pq_pop (run_from (initial_pq symbols freqs count, count)
      (count - 1)).1).1 =
      some (finalRoot (initial_pq symbols freqs count, count)) := by
    have h := pq_pop_fst (poolAt (initial_pq symbols freqs count, count)
      (count - 1)) (by rw [hlen]; omega)
    rw [hfr]
    exact h
  show (match (pq_pop (build_tree_loop count (initial_pq symbols freqs count)
      count)).1 with
    | none => fun _ => emptyCode
    | some root => generate_codes root [] 0 (fun _ => emptyCode)) = _
  rw [build_tree_loop_eq_run count (initial_pq symbols freqs count) count
      (by rw [initial_pq_length]; omega),
    show (initial_pq symbols freqs count).length = count from
      initial_pq_length symbols freqs count, hpop]

set_option maxHeartbeats 1000000 in
/-- C3: for every non-empty list of distinct in-range symbols with positive
frequencies (whose total fits the 32-bit accumulator, as it must for the C
`unsigned` arithmetic to be exact), the code set produced by
`build_huffman_codes` is prefix-free, satisfies the Kraft equality, and is
monotone in frequency: a strictly higher-frequency symbol never gets a
strictly longer code. -/
theorem build_huffman_codes_correct (symbols : List ℤ) (freqs : List ℕ)
    (count : ℕ) (hcs : symbols.length = count) (hcf : freqs.length = count)
    (hc1 : 1 ≤ count) (hnd : symbols.Nodup)
    (hrange : ∀ x ∈ symbols, 0 ≤ x ∧ x < 65536)
    (hpos : ∀ f ∈ freqs, 0 < f) (hsum : freqs.sum < UINT_MOD) :
    (∀ x ∈ symbols, ∀ y ∈ symbols, x ≠ y →
      isPre (build_huffman_codes symbols freqs count x).bits
        (build_huffman_codes symbols freqs count y).bits = false) ∧
    (symbols.map (fun x =>
      ((2 : ℚ)⁻¹) ^ (build_huffman_codes symbols freqs count x).length)).sum
      = 1 ∧
    (∀ ix iy, ix < count → iy < count →
      lget 0 freqs ix < lget 0 freqs iy →
      (build_huffman_codes symbols freqs count (lget 0 symbols iy)).length ≤
        (build_huffman_codes symbols freqs count (lget 0 symbols ix)).length) := by
  have h0 := initial_stInv symbols freqs count
  have hof := initial_hof symbols freqs count hcf hsum
  have hcodes := build_huffman_codes_eq_gen symbols freqs count hc1 hcf hsum
  have hn1 : 1 ≤ ((initial_pq symbols freqs count, count) :
      List HuffNode × ℕ).1.length := by
    rw [init_fst_len]
    omega
  have hrootmem := finalRoot_mem_last (initial_pq symbols freqs count, count)
    h0 hof hn1
  have hwfroot := pool_wf (initial_pq symbols freqs count, count) h0 hof
    (((initial_pq symbols freqs count, count) :
      List HuffNode × ℕ).1.length - 1) (by omega) _ hrootmem
  have hfbroot : isFullBin (finalRoot (initial_pq symbols freqs count, count))
      = true := hwfroot.1
  have hsy : ((leafSyms (finalRoot (initial_pq symbols freqs count, count)) :
      List ℤ) : Multiset ℤ) = (symbols : Multiset ℤ) := by
    rw [finalRoot_syms (initial_pq symbols freqs count, count) h0 hof hn1]
    show poolSyms (initial_pq symbols freqs count) = _
    rw [initial_poolSyms symbols freqs count, ← hcs, lget_map_range]
  have hsymdup : (leafSyms (finalRoot (initial_pq symbols freqs count,
      count))).Nodup := by
    rw [← Multiset.coe_nodup, hsy, Multiset.coe_nodup]
    exact hnd
  have hsymiff : ∀ x,
      x ∈ leafSyms (finalRoot (initial_pq symbols freqs count, count)) ↔
      x ∈ symbols := by
    intro x
    rw [← Multiset.mem_coe, hsy, Multiset.mem_coe]
  have hh : hheight (finalRoot (initial_pq symbols freqs count, count)) ≤ 45 :=
    final_height_le (initial_pq symbols freqs count, count) h0 hof
      (initial_height0 symbols freqs count)
      (initial_fpos symbols freqs count hcf hpos hsum) hn1
  have hfold := generate_codes_eq_fold
    (finalRoot (initial_pq symbols freqs count, count)) [] 0
    (fun _ => emptyCode) hfbroot
    (fun x hx => hrange x ((hsymiff x).mp hx)) (by omega)
  have hc : build_huffman_codes symbols freqs count =
      (leaf_entries (finalRoot (initial_pq symbols freqs count, count))
        [] 0).foldl
        (fun cs e => Function.update cs e.1 ⟨e.2.1, e.2.2⟩)
        (fun _ => emptyCode) := by
    rw [hcodes, hfold]
  have hkeys := leaf_entries_keys
    (finalRoot (initial_pq symbols freqs count, count)) [] 0
  have hkeysnd : ((leaf_entries
      (finalRoot (initial_pq symbols freqs count, count)) [] 0).map
      (fun e => e.1)).Nodup := by
    rw [hkeys]
    exact hsymdup
  have hsymcode : ∀ x ∈ symbols, ∃ p d,
      (x, p, d) ∈ leaf_entries
        (finalRoot (initial_pq symbols freqs count, count)) [] 0 ∧
      build_huffman_codes symbols freqs count x = ⟨p, d⟩ := by
    intro x hx
    obtain ⟨d0, i0, f0, hocc⟩ := leafSym_occurs
      (finalRoot (initial_pq symbols freqs count, count)) x ((hsymiff x).mpr hx)
    obtain ⟨p, hp⟩ := occurs_leaf_entry _ d0 i0 x f0 [] 0 hocc
    refine ⟨p, 0 + d0, hp, ?_⟩
    rw [hc]
    exact fold_update_mem _ _ x p (0 + d0) hp hkeysnd
  refine ⟨?_, ?_, ?_⟩
  · intro x hx y hy hxy
    obtain ⟨px, dx, hex, hcx⟩ := hsymcode x hx
    obtain ⟨py, dy, hey, hcy⟩ := hsymcode y hy
    have hpair := leaf_entries_pairwise
      (finalRoot (initial_pq symbols freqs count, count)) [] 0
    have hsymR : Symmetric (fun e1 e2 : ℤ × List Bool × ℕ =>
        isPre e1.2.1 e2.2.1 = false ∧ isPre e2.2.1 e1.2.1 = false) := by
      intro a b hab
      exact ⟨hab.2, hab.1⟩
    have hne : ((x, px, dx) : ℤ × List Bool × ℕ) ≠ (y, py, dy) := by
      intro hcon
      exact hxy (congrArg Prod.fst hcon)
    have hR := hpair.forall hsymR hex hey hne
    rw [hcx, hcy]
    exact hR.1
  · have hmapcoe : (symbols.map (fun x =>
        ((2 : ℚ)⁻¹) ^ (build_huffman_codes symbols freqs count x).length)).sum =
        ((leafSyms (finalRoot (initial_pq symbols freqs count, count))).map
          (fun x => ((2 : ℚ)⁻¹) ^
            (build_huffman_codes symbols freqs count x).length)).sum := by
      have hmc : ((symbols.map (fun x => ((2 : ℚ)⁻¹) ^
          (build_huffman_codes symbols freqs count x).length) : List ℚ) :
          Multiset ℚ) =
          (((leafSyms (finalRoot (initial_pq symbols freqs count, count))).map
            (fun x => ((2 : ℚ)⁻¹) ^
              (build_huffman_codes symbols freqs count x).length) : List ℚ) :
            Multiset ℚ) := by
        rw [← Multiset.map_coe, ← Multiset.map_coe, hsy]
      rw [← Multiset.sum_coe, hmc, Multiset.sum_coe]
    rw [hmapcoe, ← hkeys, List.map_map,
      show ((fun x => ((2 : ℚ)⁻¹) ^
          (build_huffman_codes symbols freqs count x).length) ∘
          (fun e : ℤ × List Bool × ℕ => e.1)) =
        (fun e : ℤ × List Bool × ℕ => ((2 : ℚ)⁻¹) ^
          (build_huffman_codes symbols freqs count e.1).length) from rfl]
    have hcongr : (leaf_entries
        (finalRoot (initial_pq symbols freqs count, count)) [] 0).map
        (fun e : ℤ × List Bool × ℕ => ((2 : ℚ)⁻¹) ^
          (build_huffman_codes symbols freqs count e.1).length) =
        (leaf_entries (finalRoot (initial_pq symbols freqs count, count))
          [] 0).map (fun e => ((2 : ℚ)⁻¹) ^ e.2.2) := by
      refine List.map_congr_left ?_
      intro e he
      have hcode : build_huffman_codes symbols freqs count e.1 =
          ⟨e.2.1, e.2.2⟩ := by
        rw [hc]
        refine fold_update_mem _ _ e.1 e.2.1 e.2.2 ?_ hkeysnd
        rw [show ((e.1, e.2.1, e.2.2) : ℤ × List Bool × ℕ) = e from rfl]
        exact he
      rw [hcode]
    rw [hcongr, leaf_entries_kraft _ [] 0 hfbroot, pow_zero]
  · intro ix iy hix hiy hflt
    have hcount2 : 2 ≤ count := by
      by_contra hcon
      push_neg at hcon
      have hx0 : ix = 0 := by omega
      have hy0 : iy = 0 := by omega
      rw [hx0, hy0] at hflt
      exact absurd hflt (lt_irrefl _)
    have hmv : ∀ i, i < count → lget 0 freqs i % UINT_MOD = lget 0 freqs i := by
      intro i hi
      have hmem : lget 0 freqs i ∈ freqs := lget_mem 0 freqs i (by omega)
      have := mem_le_sum freqs _ hmem
      exact Nat.mod_eq_of_lt (by omega)
    have hleafmem : ∀ i, i < count →
        leafNode symbols freqs i ∈
          poolAt (initial_pq symbols freqs count, count) 0 := by
      intro i hi
      show leafNode symbols freqs i ∈ initial_pq symbols freqs count
      exact (initial_pq_mem symbols freqs count _).mpr ⟨i, hi, rfl⟩
    have hpopped : ∀ i, i < count → ∃ j, j / 2 + 2 ≤ count ∧
        leafNode symbols freqs i =
          flatPop (initial_pq symbols freqs count, count) j := by
      intro i hi
      rcases popped_eventually (initial_pq symbols freqs count, count) h0 hof
        ((initial_pq symbols freqs count, count) : List HuffNode × ℕ).1.length
        0 (by omega) (by omega) _ (hleafmem i hi) with ⟨s', _, h2, h3⟩ | hfin
      · rw [init_fst_len] at h2
        rcases h3 with h3 | h3
        · exact ⟨2 * s', by omega, by rw [flatPop_even]; exact h3⟩
        · exact ⟨2 * s' + 1, by omega, by rw [flatPop_odd]; exact h3⟩
      · exfalso
        rw [pool_last_eq (initial_pq symbols freqs count, count) h0 hof hn1]
          at hfin
        have heq := List.mem_singleton.mp hfin
        have h2 := congrArg hid heq
        rw [finalRoot_eq_created (initial_pq symbols freqs count, count) h0 hof
            (by rw [init_fst_len]; omega), hid_createdAt, init_fst_len,
          show hid (leafNode symbols freqs i) = i from rfl,
          show ((initial_pq symbols freqs count, count) :
            List HuffNode × ℕ).2 = count from rfl] at h2
        omega
    obtain ⟨jx, hjxv, hjx⟩ := hpopped ix hix
    obtain ⟨jy, hjyv, hjy⟩ := hpopped iy hiy
    have hfx : hfreq (flatPop (initial_pq symbols freqs count, count) jx) =
        lget 0 freqs ix := by
      rw [← hjx]
      show lget 0 freqs ix % UINT_MOD = _
      exact hmv ix hix
    have hfy : hfreq (flatPop (initial_pq symbols freqs count, count) jy) =
        lget 0 freqs iy := by
      rw [← hjy]
      show lget 0 freqs iy % UINT_MOD = _
      exact hmv iy hiy
    have hlt : hfreq (flatPop (initial_pq symbols freqs count, count) jx) <
        hfreq (flatPop (initial_pq symbols freqs count, count) jy) := by
      rw [hfx, hfy]
      exact hflt
    have hvx : jx / 2 + 2 ≤ ((initial_pq symbols freqs count, count) :
        List HuffNode × ℕ).1.length := by
      rw [init_fst_len]
      omega
    have hvy : jy / 2 + 2 ≤ ((initial_pq symbols freqs count, count) :
        List HuffNode × ℕ).1.length := by
      rw [init_fst_len]
      omega
    obtain ⟨dx, hdx⟩ := pool_occurs (initial_pq symbols freqs count, count)
      h0 hof ((initial_pq symbols freqs count, count) :
        List HuffNode × ℕ).1.length (jx / 2) (by omega) (by omega) _
      (flatPop_mem (initial_pq symbols freqs count, count) h0 hof jx hvx)
    obtain ⟨dy, hdy⟩ := pool_occurs (initial_pq symbols freqs count, count)
      h0 hof ((initial_pq symbols freqs count, count) :
        List HuffNode × ℕ).1.length (jy / 2) (by omega) (by omega) _
      (flatPop_mem (initial_pq symbols freqs count, count) h0 hof jy hvy)
    have hmono := pop_depth_mono (initial_pq symbols freqs count, count) h0 hof
      (2 * ((initial_pq symbols freqs count, count) :
        List HuffNode × ℕ).1.length) jx jy dx dy (by omega) hvx hvy hlt hdx hdy
    have hlx : (build_huffman_codes symbols freqs count
        (lget 0 symbols ix)).length = dx := by
      rw [← hjx, leafNode_eq_mk] at hdx
      obtain ⟨p, hp⟩ := occurs_leaf_entry _ dx ix _ _ [] 0 hdx
      rw [hc, fold_update_mem _ _ _ p (0 + dx) hp hkeysnd]
      show 0 + dx = dx
      omega
    have hly : (build_huffman_codes symbols freqs count
        (lget 0 symbols iy)).length = dy := by
      rw [← hjy, leafNode_eq_mk] at hdy
      obtain ⟨p, hp⟩ := occurs_leaf_entry _ dy iy _ _ [] 0 hdy
      rw [hc, fold_update_mem _ _ _ p (0 + dy) hp hkeysnd]
      show 0 + dy = dy
      omega
    rw [hlx, hly]
    exact hmono

theorem build_huffman_codes_correct_witness :
    ([0, 1] : List ℤ).Nodup ∧
    ((([0, 1] : List ℤ).map (fun x =>
      ((2 : ℚ)⁻¹) ^ (build_huffman_codes [0, 1] [1, 2] 2 x).length)).sum = 1) :=
  ⟨by decide,
    (build_huffman_codes_correct [0, 1] [1, 2] 2 rfl rfl (by omega) (by decide)
      (by decide) (by decide) (by decide)).2.1⟩

end DCT
